import Mathlib

/-!
# W-MBus OMS telegram decryption: a shallow embedding of `main.cpp`

Bytes (`uint8_t`) are natural numbers, buffers are lists of bytes.  Every array
read is an `Option`-returning lookup, so that a read past the end of a buffer is
a visible outcome of the model instead of an arbitrary value.  The mbedtls
primitives are external to the repository and are taken as parameters.
-/

namespace WMBus

/-- A byte buffer (`uint8_t*` together with its length, or `std::vector<uint8_t>`). -/
abbrev Bytes := List Nat

/-- The C++ conversion `(int32_t)v` of a `uint32_t` value. -/
def toInt32 (v : Nat) : Int :=
  if v % 2 ^ 32 < 2 ^ 31 then ((v % 2 ^ 32 : Nat) : Int) else ((v % 2 ^ 32 : Nat) : Int) - 2 ^ 32

/-- Reading the `n` bytes `data[pos]`, ..., `data[pos + n - 1]` one after the other (a
`memcpy` from `&data[pos]`, or a loop `for (i = 0; i < n; ++i) ... data[pos + i]`); `none`
when a byte is read past the end. -/
def readBytes (data : Bytes) (pos : Nat) : Nat → Option Bytes
  | 0 => some []
  | n + 1 =>
    match data[pos]? with
    | none => none
    | some b => (readBytes data (pos + 1) n).map (fun rest => b :: rest)

/-- Reading the bytes at the given indices in the given order; `none` when a byte is read
past the end. -/
def readAll (data : Bytes) : List Nat → Option Bytes
  | [] => some []
  | i :: is =>
    match data[i]? with
    | none => none
    | some b => (readAll data is).map (fun rest => b :: rest)

/-! ## HexUtils -/

/-- The C function `tolower` on an ASCII code. -/
def tolower (c : Nat) : Nat := if 65 ≤ c ∧ c ≤ 90 then c + 32 else c

/-- The nibble `(c >= 'a') ? (c - 'a' + 10) : (c - '0')`, computed in `int` and stored
in a `uint8_t`. -/
def hexNibble (c : Nat) : Nat :=
  if 97 ≤ c then (((c : Int) - 97 + 10) % 256).toNat else (((c : Int) - 48) % 256).toNat

/-- The loop of `HexUtils::hexToBytes`: one byte `(h << 4) | l` per pair of characters. -/
def hexPairs : List Nat → Bytes
  | hi :: lo :: rest =>
      ((hexNibble (tolower hi) <<< 4 ||| hexNibble (tolower lo)) % 256) :: hexPairs rest
  | _ => []

/-- `HexUtils::hexToBytes`: `none` stands for the return value `-1`, `some bytes` for the
return value `bytes.length` with `bytes` written to the output. -/
def hexToBytes (hexStr : String) (maxLen : Nat) : Option Bytes :=
  let cs := hexStr.toList.map Char.toNat
  let len := cs.length
  if len % 2 ≠ 0 then none
  else if len / 2 > maxLen then none
  else some (hexPairs cs)

/-! ## AESCrypto -/

/-- The two mbedtls primitives `AESCrypto::decryptCBC` calls, as parameters:
`setkey_dec key` is the return code of `mbedtls_aes_setkey_dec(ctx, key, 128)`, and
`crypt_cbc key iv input` is the return code of `mbedtls_aes_crypt_cbc` in decrypt direction
together with the bytes it wrote to its output. -/
structure Mbedtls where
  setkey_dec : Bytes → Int
  crypt_cbc : Bytes → Bytes → Bytes → Int × Bytes

/-- Writing `written` to the start of the buffer `buf`; the buffer keeps its length. -/
def storeOutput (buf written : Bytes) : Bytes :=
  (written ++ buf.drop written.length).take buf.length

/-- `AESCrypto::decryptCBC`: the return code and the content of `output` afterwards. -/
def decryptCBC (m : Mbedtls) (key iv input output : Bytes) : Int × Bytes :=
  if input.length % 16 ≠ 0 then (-1, output)
  else if m.setkey_dec key ≠ 0 then (-1, output)
  else
    let ivCopy := iv.take 16
    let r := m.crypt_cbc key ivCopy input
    (r.1, storeOutput output r.2)

/-! ## WMBusTelegram -/

/-- The header fields `WMBusTelegram::printStructure` prints. -/
structure TelegramStructure where
  lField : Nat
  size : Nat
  cField : Nat
  mField : Nat × Nat
  serial : Nat × Nat × Nat × Nat
  version : Nat
  type : Nat
  ellAcc : Nat
  tplAcc : Nat
  cfg : Nat
  mode : Nat
  deriving DecidableEq, Repr

/-- `WMBusTelegram::printStructure`; `none` when a header byte is read past the end.  The
bytes are read in the order of the `printf` arguments. -/
def printStructure (data : Bytes) : Option TelegramStructure :=
  match readAll data [0, 1, 3, 2, 7, 6, 5, 4, 8, 9, 12, 14, 17, 16] with
  | some [d0, d1, d3, d2, d7, d6, d5, d4, d8, d9, d12, d14, d17, d16] =>
    let cfg := ((d17 <<< 8) ||| d16) % 2 ^ 16
    let mode := (cfg >>> 8) &&& 0x0F
    some { lField := d0, size := data.length, cField := d1, mField := (d3, d2),
           serial := (d7, d6, d5, d4), version := d8, type := d9, ellAcc := d12,
           tplAcc := d14, cfg := cfg, mode := mode }
  | _ => none

/-- `WMBusTelegram::getSerial`; the `int` expression is converted to `uint32_t`. -/
def getSerial (data : Bytes) : Option Nat := do
  let d4 ← data[4]?
  let d5 ← data[5]?
  let d6 ← data[6]?
  let d7 ← data[7]?
  pure ((d4 ||| (d5 <<< 8) ||| (d6 <<< 16) ||| (d7 <<< 24)) % 2 ^ 32)

/-! ## OMSDataParser -/

/-- The fields `decodeDateTime` prints (`%04d-%02d-%02d %02d:%02d`). -/
structure DateTimeFields where
  year : Int
  month : Int
  day : Int
  hour : Int
  minute : Int
  deriving DecidableEq, Repr

/-- `OMSDataParser::decodeDateTime`.  `raw` is a `uint32_t`, so every right-hand side is
computed in `unsigned int` (the subtraction of 3 and the addition of 2000 wrap modulo
`2^32`) and then converted to `int`. -/
def decodeDateTime (raw : Nat) : DateTimeFields :=
  let minute := toInt32 ((raw >>> 0) &&& 0x3F)
  let hour := toInt32 ((raw >>> 8) &&& 0x1F)
  let day := toInt32 ((raw >>> 16) &&& 0x1F)
  let month := toInt32 ((raw >>> 21) &&& 0x0F)
  let year := toInt32 ((2000 + ((((raw >>> 25) &&& 0x7F) + (2 ^ 32 - 3)) % 2 ^ 32)) % 2 ^ 32)
  { year := year, month := month, day := day, hour := hour, minute := minute }

/-- The fields `decodeDate` prints (`%04d-%02d-%02d`). -/
structure DateFields where
  year : Int
  month : Int
  day : Int
  deriving DecidableEq, Repr

/-- `OMSDataParser::decodeDate`; `none` is the output `Not set`.  `raw` is a `uint16_t`,
promoted to `int` in every expression. -/
def decodeDate (raw : Nat) : Option DateFields :=
  if raw = 0xFFFF then none
  else
    let day : Int := ((raw &&& 0x1F : Nat) : Int)
    let month : Int := (((raw >>> 5) &&& 0x0F : Nat) : Int)
    let year : Int := (2000 : Int) + (((raw >>> 9) &&& 0x7F : Nat) : Int)
    some { year := year, month := month, day := day }

/-- How one run of the `while` loop of `parseAll` leaves the loop. -/
inductive Exit
  /-- the loop condition `pos < len && data[pos] != 0x2F` is false -/
  | endOfData
  /-- `if (len - pos < 1) break;` -/
  | emptyBreak
  /-- `if (pos >= len) break;` after the DIF and DIFE bytes -/
  | headerBreak
  /-- `if (pos + dataLen > len) { printf("Incomplete record\n"); break; }` -/
  | incompleteRecord
  /-- a read `data[i]` with `i >= len` -/
  | outOfBounds
  /-- the iteration bound of the model is used up -/
  | outOfFuel
  deriving DecidableEq, Repr

/-- The local variables of one loop iteration once the data bytes have been composed:
`pos` is the cursor at the first data byte. -/
structure DataRecord where
  dif : Nat
  storage : Nat
  vifOriginal : Nat
  vifExtensions : List Nat
  dataLen : Nat
  pos : Nat
  val32 : Nat
  deriving DecidableEq, Repr

/-- The local variables of one loop iteration after the `switch (dataField)`. -/
structure RecordHeader where
  dif : Nat
  storage : Nat
  vifOriginal : Nat
  vifExtensions : List Nat
  dataLen : Nat
  pos : Nat
  deriving DecidableEq, Repr

/-- The result of reading one record: the loop stops with the cursor at `pos`, or the
record is complete. -/
inductive Step (α : Type)
  | stop (e : Exit) (pos : Nat)
  | next (a : α)
  deriving DecidableEq, Repr

/-- The loop `while ((vif & 0x80) && pos < len) { vif = data[pos++]; vifExtensions.push_back(vif); }`
run on the bytes from the cursor on; the result is `vifExtensions`, and the cursor advances
by its length. -/
def readVifExtensions (vif : Nat) : Bytes → List Nat
  | [] => []
  | b :: rest => if vif &&& 0x80 ≠ 0 then b :: readVifExtensions b rest else []

/-- The `switch (dataField)` of `parseAll`: the data length and the cursor after it. -/
def resolveDataLen (data : Bytes) (dataField pos : Nat) : Step (Nat × Nat) :=
  match dataField with
  | 0x00 => .next (0, pos)
  | 0x01 => .next (1, pos)
  | 0x02 => .next (2, pos)
  | 0x03 => .next (3, pos)
  | 0x04 => .next (4, pos)
  | 0x05 => .next (4, pos)
  | 0x06 => .next (6, pos)
  | 0x07 => .next (8, pos)
  | 0x09 => .next (1, pos)
  | 0x0A => .next (2, pos)
  | 0x0B => .next (3, pos)
  | 0x0C => .next (4, pos)
  | 0x0D =>
      if pos < data.length then
        match data[pos]? with
        | some b => .next (b, pos + 1)
        | none => .stop .outOfBounds pos
      else .next (0, pos)
  | _ => .next (0, pos)

/-- The header of a complete record. -/
def DataRecord.header (r : DataRecord) : RecordHeader :=
  { dif := r.dif, storage := r.storage, vifOriginal := r.vifOriginal,
    vifExtensions := r.vifExtensions, dataLen := r.dataLen, pos := r.pos }

/-- Sequencing of two parts of a loop iteration: a `break` in the first part ends it. -/
def Step.bind {α β : Type} (s : Step α) (f : α → Step β) : Step β :=
  match s with
  | .stop e p => .stop e p
  | .next a => f a

/-- Lines 123-137 of `parseAll`: the loop condition, the DIF byte and the DIFE byte.  The
result is `dif`, `storage` and the cursor. -/
def readDif (data : Bytes) (pos : Nat) : Step (Nat × Nat × Nat) :=
  let len := data.length
  if ¬ pos < len then .stop .endOfData pos else
  match data[pos]? with
  | none => .stop .outOfBounds pos
  | some dif =>
  if dif = 0x2F then .stop .endOfData pos else
  if len - pos < 1 then .stop .emptyBreak pos else
  let pos := pos + 1
  let storage := if dif &&& 0x40 ≠ 0 then 1 else 0
  if dif &&& 0x80 ≠ 0 ∧ pos < len then
    match data[pos]? with
    | none => .stop .outOfBounds pos
    | some dife => .next (dif, dife &&& 0x0F, pos + 1)
  else .next (dif, storage, pos)

/-- Lines 139-148 of `parseAll`: the VIF byte and its extensions.  The result is
`vifOriginal`, `vifExtensions` and the cursor. -/
def readVif (data : Bytes) (pos : Nat) : Step (Nat × List Nat × Nat) :=
  if pos ≥ data.length then .stop .headerBreak pos else
  match data[pos]? with
  | none => .stop .outOfBounds pos
  | some vifOriginal =>
    let pos := pos + 1
    let vifExtensions := readVifExtensions vifOriginal (data.drop pos)
    .next (vifOriginal, vifExtensions, pos + vifExtensions.length)

/-- Lines 123-168 of `parseAll`: the loop condition and the reading of DIF, DIFE, VIF,
VIFE and the data length, starting with the cursor at `pos`. -/
def readHeader (data : Bytes) (pos : Nat) : Step RecordHeader :=
  (readDif data pos).bind fun d =>
  (readVif data d.2.2).bind fun v =>
  (resolveDataLen data (d.1 &&& 0x0F) v.2.2).bind fun l =>
  .next { dif := d.1, storage := d.2.1, vifOriginal := v.1, vifExtensions := v.2.1,
          dataLen := l.1, pos := l.2 }

/-- One statement `if (dataLen > k) val32 |= (uint32_t)data[pos+k] << shift;`: the new
value of `val32`; `none` when the byte is read past the end. -/
def orByte (data : Bytes) (val32 : Nat) (cond : Bool) (i shift : Nat) : Option Nat :=
  if cond then
    match data[i]? with
    | none => none
    | some b => some (val32 ||| ((b <<< shift) % 2 ^ 32))
  else some val32

/-- Lines 175-181 of `parseAll`: the little-endian composition of up to four data bytes
into the `uint32_t val32`; `none` when a byte is read past the end. -/
def composeVal32 (data : Bytes) (pos dataLen : Nat) : Option Nat :=
  if dataLen > 0 then
    match data[pos]? with
    | none => none
    | some b0 =>
      (orByte data (b0 % 2 ^ 32) (decide (dataLen > 1)) (pos + 1) 8).bind fun v =>
      (orByte data v (decide (dataLen > 2)) (pos + 2) 16).bind fun v =>
      orByte data v (decide (dataLen > 3)) (pos + 3) 24
  else some 0

/-- Lines 123-181 of `parseAll`: one record up to the composition of `val32`. -/
def readRecord (data : Bytes) (pos : Nat) : Step DataRecord :=
  match readHeader data pos with
  | .stop e p => .stop e p
  | .next h =>
    if h.pos + h.dataLen > data.length then .stop .incompleteRecord h.pos
    else
      match composeVal32 data h.pos h.dataLen with
      | none => .stop .outOfBounds h.pos
      | some val32 =>
        .next { dif := h.dif, storage := h.storage, vifOriginal := h.vifOriginal,
                vifExtensions := h.vifExtensions, dataLen := h.dataLen, pos := h.pos,
                val32 := val32 }

/-- What `parseAll` prints for one complete record. -/
inductive Measurement
  /-- `Meter Date/Time = ` followed by the decoded fields -/
  | dateTime (raw : Nat) (fields : DateTimeFields)
  /-- `Volume = ` or `Backflow = `, the value in cubic metres, the ` (Not available)` mark
  and the storage number (printed as ` (History n)` when positive) -/
  | volume (vol_m3 : ℚ) (isBackflow : Bool) (notAvailable : Bool) (storage : Nat)
  /-- `Status = 0x..` -/
  | status (stat : Nat)
  /-- `Date = `, the decoded date or `Not set`, and the storage number -/
  | date (fields : Option DateFields) (storage : Nat)
  /-- `Unknown record: DIF=.., VIF=.., Data=..` -/
  | unknown (dif vif : Nat) (bytes : List Nat)
  deriving DecidableEq

/-- The branch of the `if`/`else if` chain of `parseAll` that printed a measurement. -/
inductive Kind
  | dateTime
  | volume
  | status
  | date
  | unknown
  deriving DecidableEq, Repr

/-- The kind of a printed measurement. -/
def Measurement.kind : Measurement → Kind
  | .dateTime _ _ => .dateTime
  | .volume _ _ _ _ => .volume
  | .status _ => .status
  | .date _ _ => .date
  | .unknown _ _ _ => .unknown

/-- One line of output of `parseAll`: the record read and the measurement printed for it. -/
structure Emitted where
  record : DataRecord
  measurement : Measurement
  deriving DecidableEq

/-- The member variables of `OMSDataParser` (`data` and `len` are the buffer itself), and the
measurements printed so far. -/
structure ParserState where
  pos : Nat
  recordNum : Nat
  totalVolume : ℚ
  meterDateTime : Nat
  status : Nat
  hasVolume : Bool
  hasDateTime : Bool
  hasStatus : Bool
  output : List Emitted
  deriving DecidableEq

/-- The constructor `OMSDataParser(d, l)`. -/
def ParserState.init : ParserState :=
  { pos := 2, recordNum := 1, totalVolume := -1, meterDateTime := 0, status := 0,
    hasVolume := false, hasDateTime := false, hasStatus := false, output := [] }

/-- `double vol_m3 = (int32_t)val32 / 1000.0`, with the quotient taken as an exact
rational number. -/
def volumeOf (val32 : Nat) : ℚ := (toInt32 val32 : ℚ) / 1000

/-- `!vifExtensions.empty() && (vifExtensions[0] & 0x7F) == 0x3C`. -/
def isBackflow : List Nat → Bool
  | [] => false
  | e :: _ => decide (e &&& 0x7F = 0x3C)

/-- `!vifExtensions.empty() && vifExtensions[0] == 0x17`. -/
def firstExtIs17 : List Nat → Bool
  | [] => false
  | e :: _ => decide (e = 0x17)

/-- Lines 183-223 of `parseAll`: classify the record, print it, update the summary members
and advance the cursor past the data; `none` when a byte is read past the end. -/
def processRecord (data : Bytes) (st : ParserState) (r : DataRecord) : Option ParserState :=
  let st := { st with recordNum := st.recordNum + 1 }
  if r.vifOriginal = 0x6D ∧ r.dataLen = 4 then
    some { st with
      meterDateTime := r.val32
      hasDateTime := true
      output := st.output ++ [⟨r, .dateTime r.val32 (decodeDateTime r.val32)⟩]
      pos := r.pos + r.dataLen }
  else if r.vifOriginal &&& 0x7F = 0x13 ∧ r.dataLen = 4 then
    let vol_m3 := volumeOf r.val32
    let backflow := isBackflow r.vifExtensions
    let notAvailable := !backflow && decide (r.val32 = 0xFFFFFFFF)
    let out := st.output ++ [⟨r, .volume vol_m3 backflow notAvailable r.storage⟩]
    if r.storage > 0 then
      some { st with output := out, pos := r.pos + r.dataLen }
    else if !st.hasVolume && !backflow then
      some { st with totalVolume := vol_m3, hasVolume := true, output := out,
                     pos := r.pos + r.dataLen }
    else
      some { st with output := out, pos := r.pos + r.dataLen }
  else if r.vifOriginal = 0xFD ∧ firstExtIs17 r.vifExtensions = true ∧ r.dataLen = 1 then
    match data[r.pos]? with
    | none => none
    | some stat =>
      some { st with
        status := stat
        hasStatus := true
        output := st.output ++ [⟨r, .status stat⟩]
        pos := r.pos + r.dataLen }
  else if r.vifOriginal = 0x6C ∧ r.dataLen = 2 then
    some { st with
      output := st.output ++ [⟨r, .date (decodeDate (r.val32 &&& 0xFFFF)) r.storage⟩]
      pos := r.pos + r.dataLen }
  else
    match readBytes data r.pos r.dataLen with
    | none => none
    | some bytes =>
      some { st with
        output := st.output ++ [⟨r, .unknown r.dif r.vifOriginal bytes⟩]
        pos := r.pos + r.dataLen }

/-- Whether `Record %d: ` has been printed (and `recordNum` incremented) when the loop
stops with this exit. -/
def Exit.afterRecordLine : Exit → Bool
  | .endOfData => false
  | .emptyBreak => false
  | _ => true

/-- The `while` loop of `parseAll`, run for at most `fuel` iterations: the final members
and the way the loop was left. -/
def parseLoop (data : Bytes) : Nat → ParserState → ParserState × Exit
  | 0, st => (st, .outOfFuel)
  | fuel + 1, st =>
    match readRecord data st.pos with
    | .stop e p =>
      ({ st with pos := p,
                 recordNum := if e.afterRecordLine then st.recordNum + 1 else st.recordNum }, e)
    | .next r =>
      match processRecord data st r with
      | none => ({ st with pos := r.pos, recordNum := st.recordNum + 1 }, .outOfBounds)
      | some st' => parseLoop data fuel st'

/-- `OMSDataParser::parseAll` on a freshly constructed parser.  Every iteration that
continues moves the cursor forward, so `data.length + 1` iterations are enough
(`parseLoop_fuel_enough`). -/
def parseAll (data : Bytes) : ParserState × Exit :=
  parseLoop data (data.length + 1) ParserState.init

/-- The summary `parseData` reads through the getters of the parser: each value counts
only when its `has...` flag is set. -/
structure Summary where
  totalVolume : Option ℚ
  status : Option Nat
  dateTime : Option Nat
  deriving DecidableEq

/-- The summary held in the members of the parser. -/
def ParserState.summary (st : ParserState) : Summary :=
  { totalVolume := if st.hasVolume then some st.totalVolume else none
    status := if st.hasStatus then some st.status else none
    dateTime := if st.hasDateTime then some st.meterDateTime else none }

/-- The summary members of the parser and its output, without the cursor and the record
counter. -/
def ParserState.members (st : ParserState) : ℚ × Nat × Nat × Bool × Bool × Bool × List Emitted :=
  (st.totalVolume, st.meterDateTime, st.status, st.hasVolume, st.hasDateTime, st.hasStatus,
   st.output)

/-! ## The aggregator as the specification words it

These definitions follow the text of the specification (§4.4 and §4.6), not the code; they
are what the summary members of the parser are compared with. -/

/-- "Backflow": the first VIF extension exists and its low 7 bits equal 0x3C. -/
def specIsBackflow (vifExtensions : List Nat) : Bool :=
  match vifExtensions.head? with
  | some e => decide (e % 128 = 0x3C)
  | none => false

/-- The value of a volume record that has storage number 0 and is not backflow. -/
def specNormalVolume (e : Emitted) : Option ℚ :=
  match e.measurement with
  | .volume v _ _ _ =>
    if e.record.storage = 0 ∧ specIsBackflow e.record.vifExtensions = false then some v else none
  | _ => none

/-- The data byte of a status record. -/
def specStatus (e : Emitted) : Option Nat :=
  match e.measurement with
  | .status stat => some stat
  | _ => none

/-- The raw 32-bit value of a date-time record. -/
def specDateTime (e : Emitted) : Option Nat :=
  match e.measurement with
  | .dateTime raw _ => some raw
  | _ => none

/-- One step of the fold of §4.6: keep the first-seen non-backflow storage-0 volume, the
last-seen status and the last-seen date-time. -/
def specAggregate (s : Summary) (e : Emitted) : Summary :=
  { totalVolume :=
      match s.totalVolume with
      | some v => some v
      | none => specNormalVolume e
    status :=
      match specStatus e with
      | some stat => some stat
      | none => s.status
    dateTime :=
      match specDateTime e with
      | some raw => some raw
      | none => s.dateTime }

/-- The fold of §4.6 over the emitted records in order, from the empty summary. -/
def specSummary (ms : List Emitted) : Summary :=
  ms.foldl specAggregate { totalVolume := none, status := none, dateTime := none }

/-! ## OMSDecryptor -/

/-- `OMSDecryptor::constructIV`: the 16 bytes of `iv` after the call; `none` when a
telegram byte is read past the end. -/
def constructIV (data : Bytes) : Option Bytes := do
  let iv0 ← data[2]?
  let iv1 ← data[3]?
  let serialVersionType ← readBytes data 4 6
  let iv8 ← data[12]?
  let iv9 ← data[14]?
  pure ([iv0, iv1] ++ serialVersionType ++ [iv8, iv9] ++ List.replicate 6 0x00)

/-- `std::vector::resize`: keep the first `n` bytes, fill up with zero bytes. -/
def resize (v : Bytes) (n : Nat) : Bytes := v.take n ++ List.replicate (n - v.length) 0

/-- One call of `crypto.decryptCBC` made by `decrypt`. -/
structure CipherCall where
  key : Bytes
  iv : Bytes
  input : Bytes
  deriving DecidableEq, Repr

/-- What a call of `OMSDecryptor::decrypt` does: its return value (`none` when `decrypted`
is read past its end, where the C++ behaviour is undefined), the content of `decrypted`
afterwards, what `printStructure` printed, the IV that was constructed and the calls of
`crypto.decryptCBC` that were made. -/
structure DecryptResult where
  ret : Option Int
  decrypted : Bytes
  printed : Option TelegramStructure
  iv : Option Bytes
  cipherCalls : List CipherCall

/-- Lines 263-267 of `decrypt`: `payloadLen`, rounded down to a multiple of 16. -/
def alignedPayloadLen (telegramLength : Nat) : Nat :=
  let payloadLen := telegramLength - 18
  if payloadLen % 16 ≠ 0 then (payloadLen / 16) * 16 else payloadLen

/-- Lines 273-282 of `decrypt`: the return value for the cipher's return code `result` and
the buffer `decrypted`; `none` when `decrypted[0]` or `decrypted[1]` lies past its end. -/
def verifyMarker (result : Int) (decrypted : Bytes) : Option Int :=
  if result = 0 then
    match decrypted[0]? with
    | none => none
    | some b0 =>
      if b0 = 0x2F then
        match decrypted[1]? with
        | none => none
        | some b1 => if b1 = 0x2F then some 0 else some (-1)
      else some (-1)
  else some result

/-- `OMSDecryptor::decrypt`. -/
def decrypt (m : Mbedtls) (telegram key decrypted : Bytes) : DecryptResult :=
  if telegram.length < 18 then
    { ret := some (-1), decrypted := decrypted, printed := none, iv := none, cipherCalls := [] }
  else
    match printStructure telegram with
    | none => { ret := none, decrypted := decrypted, printed := none, iv := none,
                cipherCalls := [] }
    | some printed =>
    match constructIV telegram with
    | none => { ret := none, decrypted := decrypted, printed := some printed, iv := none,
                cipherCalls := [] }
    | some iv =>
      let encryptedPayload := telegram.drop 18
      let payloadLen := alignedPayloadLen telegram.length
      let decrypted := resize decrypted payloadLen
      let input := encryptedPayload.take payloadLen
      let r := decryptCBC m key iv input decrypted
      { ret := verifyMarker r.1 r.2, decrypted := r.2, printed := some printed, iv := some iv,
        cipherCalls := [{ key := key, iv := iv, input := input }] }

/-- The timestamp fields computed in `OMSDecryptor::parseData` (lines 302-307); `dt` is a
`uint32_t`, so the arithmetic is that of `decodeDateTime`. -/
def summaryTimestamp (dt : Nat) : DateTimeFields :=
  let minute := toInt32 ((dt >>> 0) &&& 0x3F)
  let hour := toInt32 ((dt >>> 8) &&& 0x1F)
  let day := toInt32 ((dt >>> 16) &&& 0x1F)
  let month := toInt32 ((dt >>> 21) &&& 0x0F)
  let year := toInt32 ((2000 + ((((dt >>> 25) &&& 0x7F) + (2 ^ 32 - 3)) % 2 ^ 32)) % 2 ^ 32)
  { year := year, month := month, day := day, hour := hour, minute := minute }

/-- What `OMSDecryptor::parseData` prints: the records of `parseAll`, the way its loop was
left, and the summary lines. -/
structure Report where
  records : List Emitted
  exit : Exit
  meterId : Nat
  totalConsumption : Option ℚ
  meterStatus : Option Nat
  timestamp : Option DateTimeFields

/-- `OMSDecryptor::parseData`. -/
def parseData (data : Bytes) (serialNumber : Nat) : Report :=
  let parser := parseAll data
  { records := parser.1.output
    exit := parser.2
    meterId := serialNumber
    totalConsumption := if parser.1.hasVolume then some parser.1.totalVolume else none
    meterStatus := if parser.1.hasStatus then some parser.1.status else none
    timestamp := if parser.1.hasDateTime then some (summaryTimestamp parser.1.meterDateTime)
                 else none }

/-! ## WMBusApplication -/

/-- How `WMBusApplication::run` ends. -/
inductive RunOutcome
  /-- `Error: Invalid key` -/
  | invalidKey
  /-- `Error: Invalid telegram` -/
  | invalidTelegram
  /-- `decrypt` returned 0 and `parseData` was called -/
  | parsed (report : Report)
  /-- `Decryption failed`: `parseData` is not called -/
  | decryptionFailed
  /-- a buffer was read past its end -/
  | undefinedBehaviour

/-- Lines 355-363 of `WMBusApplication::run`, for the telegram and key bytes obtained from
the hex constants. -/
def runOn (m : Mbedtls) (telegram key : Bytes) : RunOutcome :=
  let d := decrypt m telegram key []
  match d.ret with
  | none => .undefinedBehaviour
  | some code =>
    if code = 0 then
      match getSerial telegram with
      | none => .undefinedBehaviour
      | some serial => .parsed (parseData d.decrypted serial)
    else .decryptionFailed

/-- The constant `keyHex` of `run`. -/
def keyHex : String := "4255794d3dccfd46953146e701b7db68"

/-- The constant `telegramHex` of `run` (five adjacent string literals). -/
def telegramHex : String :=
  "a144c5142785895070078c20607a9d00902537ca231fa2da5889be8df367" ++
  "3ec136aebfb80d4ce395ba98f6b3844a115e4be1b1c9f0a2d5ffbb92906aa388deaa" ++
  "82c929310e9e5c4c0922a784df89cf0ded833be8da996eb5885409b6c9867978dea" ++
  "24001d68c603408d758a1e2b91c42ebad86a9b9d287880083bb0702850574d7b51" ++
  "e9c209ed68e0374e9b01febfd92b4cb9410fdeaf7fb526b742dc9a8d0682653"

/-- The telegram bytes `run` obtains from `telegramHex`. -/
def referenceTelegram : Bytes := (hexToBytes telegramHex 512).getD []

/-- The key bytes `run` obtains from `keyHex`. -/
def referenceKey : Bytes := (hexToBytes keyHex 16).getD []

/-- `WMBusApplication::run`. -/
def run (m : Mbedtls) : RunOutcome :=
  match hexToBytes keyHex 16 with
  | none => .invalidKey
  | some key =>
    if key.length ≠ 16 then .invalidKey
    else
      match hexToBytes telegramHex 512 with
      | none => .invalidTelegram
      | some telegram => runOn m telegram key

/-! ## The external cipher

`mbedtls_aes_setkey_dec` and `mbedtls_aes_crypt_cbc` belong to the mbedtls library, not to
the repository.  To run the fixture of `run`, AES-128 decryption is written down here from
FIPS-197 and the CBC mode from SP 800-38A; `aes_fips197_example` checks it on the example
of FIPS-197, Appendix C.1. -/

/-- The S-box of FIPS-197, Figure 7. -/
def aesSBox : List Nat :=
  [
   0x63, 0x7C, 0x77, 0x7B, 0xF2, 0x6B, 0x6F, 0xC5, 0x30, 0x01, 0x67, 0x2B, 0xFE, 0xD7, 0xAB, 0x76,
   0xCA, 0x82, 0xC9, 0x7D, 0xFA, 0x59, 0x47, 0xF0, 0xAD, 0xD4, 0xA2, 0xAF, 0x9C, 0xA4, 0x72, 0xC0,
   0xB7, 0xFD, 0x93, 0x26, 0x36, 0x3F, 0xF7, 0xCC, 0x34, 0xA5, 0xE5, 0xF1, 0x71, 0xD8, 0x31, 0x15,
   0x04, 0xC7, 0x23, 0xC3, 0x18, 0x96, 0x05, 0x9A, 0x07, 0x12, 0x80, 0xE2, 0xEB, 0x27, 0xB2, 0x75,
   0x09, 0x83, 0x2C, 0x1A, 0x1B, 0x6E, 0x5A, 0xA0, 0x52, 0x3B, 0xD6, 0xB3, 0x29, 0xE3, 0x2F, 0x84,
   0x53, 0xD1, 0x00, 0xED, 0x20, 0xFC, 0xB1, 0x5B, 0x6A, 0xCB, 0xBE, 0x39, 0x4A, 0x4C, 0x58, 0xCF,
   0xD0, 0xEF, 0xAA, 0xFB, 0x43, 0x4D, 0x33, 0x85, 0x45, 0xF9, 0x02, 0x7F, 0x50, 0x3C, 0x9F, 0xA8,
   0x51, 0xA3, 0x40, 0x8F, 0x92, 0x9D, 0x38, 0xF5, 0xBC, 0xB6, 0xDA, 0x21, 0x10, 0xFF, 0xF3, 0xD2,
   0xCD, 0x0C, 0x13, 0xEC, 0x5F, 0x97, 0x44, 0x17, 0xC4, 0xA7, 0x7E, 0x3D, 0x64, 0x5D, 0x19, 0x73,
   0x60, 0x81, 0x4F, 0xDC, 0x22, 0x2A, 0x90, 0x88, 0x46, 0xEE, 0xB8, 0x14, 0xDE, 0x5E, 0x0B, 0xDB,
   0xE0, 0x32, 0x3A, 0x0A, 0x49, 0x06, 0x24, 0x5C, 0xC2, 0xD3, 0xAC, 0x62, 0x91, 0x95, 0xE4, 0x79,
   0xE7, 0xC8, 0x37, 0x6D, 0x8D, 0xD5, 0x4E, 0xA9, 0x6C, 0x56, 0xF4, 0xEA, 0x65, 0x7A, 0xAE, 0x08,
   0xBA, 0x78, 0x25, 0x2E, 0x1C, 0xA6, 0xB4, 0xC6, 0xE8, 0xDD, 0x74, 0x1F, 0x4B, 0xBD, 0x8B, 0x8A,
   0x70, 0x3E, 0xB5, 0x66, 0x48, 0x03, 0xF6, 0x0E, 0x61, 0x35, 0x57, 0xB9, 0x86, 0xC1, 0x1D, 0x9E,
   0xE1, 0xF8, 0x98, 0x11, 0x69, 0xD9, 0x8E, 0x94, 0x9B, 0x1E, 0x87, 0xE9, 0xCE, 0x55, 0x28, 0xDF,
   0x8C, 0xA1, 0x89, 0x0D, 0xBF, 0xE6, 0x42, 0x68, 0x41, 0x99, 0x2D, 0x0F, 0xB0, 0x54, 0xBB, 0x16 ]

/-- The inverse S-box of FIPS-197, Figure 14. -/
def aesInvSBox : List Nat :=
  [
   0x52, 0x09, 0x6A, 0xD5, 0x30, 0x36, 0xA5, 0x38, 0xBF, 0x40, 0xA3, 0x9E, 0x81, 0xF3, 0xD7, 0xFB,
   0x7C, 0xE3, 0x39, 0x82, 0x9B, 0x2F, 0xFF, 0x87, 0x34, 0x8E, 0x43, 0x44, 0xC4, 0xDE, 0xE9, 0xCB,
   0x54, 0x7B, 0x94, 0x32, 0xA6, 0xC2, 0x23, 0x3D, 0xEE, 0x4C, 0x95, 0x0B, 0x42, 0xFA, 0xC3, 0x4E,
   0x08, 0x2E, 0xA1, 0x66, 0x28, 0xD9, 0x24, 0xB2, 0x76, 0x5B, 0xA2, 0x49, 0x6D, 0x8B, 0xD1, 0x25,
   0x72, 0xF8, 0xF6, 0x64, 0x86, 0x68, 0x98, 0x16, 0xD4, 0xA4, 0x5C, 0xCC, 0x5D, 0x65, 0xB6, 0x92,
   0x6C, 0x70, 0x48, 0x50, 0xFD, 0xED, 0xB9, 0xDA, 0x5E, 0x15, 0x46, 0x57, 0xA7, 0x8D, 0x9D, 0x84,
   0x90, 0xD8, 0xAB, 0x00, 0x8C, 0xBC, 0xD3, 0x0A, 0xF7, 0xE4, 0x58, 0x05, 0xB8, 0xB3, 0x45, 0x06,
   0xD0, 0x2C, 0x1E, 0x8F, 0xCA, 0x3F, 0x0F, 0x02, 0xC1, 0xAF, 0xBD, 0x03, 0x01, 0x13, 0x8A, 0x6B,
   0x3A, 0x91, 0x11, 0x41, 0x4F, 0x67, 0xDC, 0xEA, 0x97, 0xF2, 0xCF, 0xCE, 0xF0, 0xB4, 0xE6, 0x73,
   0x96, 0xAC, 0x74, 0x22, 0xE7, 0xAD, 0x35, 0x85, 0xE2, 0xF9, 0x37, 0xE8, 0x1C, 0x75, 0xDF, 0x6E,
   0x47, 0xF1, 0x1A, 0x71, 0x1D, 0x29, 0xC5, 0x89, 0x6F, 0xB7, 0x62, 0x0E, 0xAA, 0x18, 0xBE, 0x1B,
   0xFC, 0x56, 0x3E, 0x4B, 0xC6, 0xD2, 0x79, 0x20, 0x9A, 0xDB, 0xC0, 0xFE, 0x78, 0xCD, 0x5A, 0xF4,
   0x1F, 0xDD, 0xA8, 0x33, 0x88, 0x07, 0xC7, 0x31, 0xB1, 0x12, 0x10, 0x59, 0x27, 0x80, 0xEC, 0x5F,
   0x60, 0x51, 0x7F, 0xA9, 0x19, 0xB5, 0x4A, 0x0D, 0x2D, 0xE5, 0x7A, 0x9F, 0x93, 0xC9, 0x9C, 0xEF,
   0xA0, 0xE0, 0x3B, 0x4D, 0xAE, 0x2A, 0xF5, 0xB0, 0xC8, 0xEB, 0xBB, 0x3C, 0x83, 0x53, 0x99, 0x61,
   0x17, 0x2B, 0x04, 0x7E, 0xBA, 0x77, 0xD6, 0x26, 0xE1, 0x69, 0x14, 0x63, 0x55, 0x21, 0x0C, 0x7D ]

/-- Multiplication by `x` in GF(2^8) modulo `x^8 + x^4 + x^3 + x + 1`. -/
def aesXtime (a : Nat) : Nat :=
  if a &&& 0x80 ≠ 0 then ((a <<< 1) ^^^ 0x1B) % 256 else (a <<< 1) % 256

/-- Multiplication in GF(2^8) by a constant `b < 16`. -/
def aesMul (a b : Nat) : Nat :=
  let a2 := aesXtime a
  let a4 := aesXtime a2
  let a8 := aesXtime a4
  (if b &&& 1 ≠ 0 then a else 0) ^^^ (if b &&& 2 ≠ 0 then a2 else 0) ^^^
    (if b &&& 4 ≠ 0 then a4 else 0) ^^^ (if b &&& 8 ≠ 0 then a8 else 0)

/-- Bytewise exclusive or of two blocks. -/
def xorBytes (a b : Bytes) : Bytes := List.zipWith (fun x y => x ^^^ y) a b

/-- The next 16-byte round key of the AES-128 key expansion. -/
def aesNextRoundKey (rcon : Nat) (k : Bytes) : Bytes :=
  let g (i : Nat) : Nat := k.getD i 0
  let s (i : Nat) : Nat := aesSBox.getD (g i) 0
  let w0 := [g 0 ^^^ s 13 ^^^ rcon, g 1 ^^^ s 14, g 2 ^^^ s 15, g 3 ^^^ s 12]
  let w1 := xorBytes w0 ((k.drop 4).take 4)
  let w2 := xorBytes w1 ((k.drop 8).take 4)
  let w3 := xorBytes w2 ((k.drop 12).take 4)
  w0 ++ w1 ++ w2 ++ w3

/-- The round keys from `k` on, one more for every round constant. -/
def aesExpandFrom (k : Bytes) : List Nat → List Bytes
  | [] => [k]
  | rcon :: rest => k :: aesExpandFrom (aesNextRoundKey rcon k) rest

/-- The 11 round keys of AES-128. -/
def aesRoundKeys (key : Bytes) : List Bytes :=
  aesExpandFrom key [0x01, 0x02, 0x04, 0x08, 0x10, 0x20, 0x40, 0x80, 0x1B, 0x36]

/-- `InvShiftRows` on a state stored column by column. -/
def aesInvShiftRows (s : Bytes) : Bytes :=
  [0, 13, 10, 7, 4, 1, 14, 11, 8, 5, 2, 15, 12, 9, 6, 3].map (fun i => s.getD i 0)

/-- `InvSubBytes`. -/
def aesInvSubBytes (s : Bytes) : Bytes := s.map (fun b => aesInvSBox.getD b 0)

/-- `InvMixColumns` on one column. -/
def aesInvMixColumn (a0 a1 a2 a3 : Nat) : Bytes :=
  [aesMul a0 14 ^^^ aesMul a1 11 ^^^ aesMul a2 13 ^^^ aesMul a3 9,
   aesMul a0 9 ^^^ aesMul a1 14 ^^^ aesMul a2 11 ^^^ aesMul a3 13,
   aesMul a0 13 ^^^ aesMul a1 9 ^^^ aesMul a2 14 ^^^ aesMul a3 11,
   aesMul a0 11 ^^^ aesMul a1 13 ^^^ aesMul a2 9 ^^^ aesMul a3 14]

/-- `InvMixColumns`. -/
def aesInvMixColumns : Bytes → Bytes
  | a0 :: a1 :: a2 :: a3 :: rest => aesInvMixColumn a0 a1 a2 a3 ++ aesInvMixColumns rest
  | _ => []

/-- The rounds of the inverse cipher after the first `AddRoundKey`, for the round keys 9
down to 0. -/
def aesInvRounds (s : Bytes) : List Bytes → Bytes
  | [] => s
  | [k0] => xorBytes (aesInvSubBytes (aesInvShiftRows s)) k0
  | k :: rest =>
    aesInvRounds (aesInvMixColumns (xorBytes (aesInvSubBytes (aesInvShiftRows s)) k)) rest

/-- The inverse cipher of FIPS-197 on one block. -/
def aesDecryptBlock (roundKeys : List Bytes) (block : Bytes) : Bytes :=
  match roundKeys.reverse with
  | [] => block
  | k10 :: rest => aesInvRounds (xorBytes block k10) rest

/-- CBC decryption of `n` blocks: each decrypted block is combined with the ciphertext
block before it, the first one with the IV. -/
def aesCbcBlocks (roundKeys : List Bytes) (prev : Bytes) (input : Bytes) : Nat → Bytes
  | 0 => []
  | n + 1 =>
    let block := input.take 16
    xorBytes (aesDecryptBlock roundKeys block) prev ++
      aesCbcBlocks roundKeys block (input.drop 16) n

/-- AES-128-CBC decryption. -/
def aesCbcDecrypt (key iv input : Bytes) : Bytes :=
  aesCbcBlocks (aesRoundKeys key) iv input (input.length / 16)

/-- The mbedtls primitives as AES-128: the key schedule for 128 bits succeeds, and
`mbedtls_aes_crypt_cbc` returns `MBEDTLS_ERR_AES_INVALID_INPUT_LENGTH` (-0x22) for a
length that is not a multiple of 16 and 0 otherwise. -/
def aesMbedtls : Mbedtls :=
  { setkey_dec := fun _ => 0
    crypt_cbc := fun key iv input =>
      if input.length % 16 ≠ 0 then (-0x22, []) else (0, aesCbcDecrypt key iv input) }

/-- The 144 bytes `decrypt` obtains from the reference telegram and key of `run`
(`fixture_decrypts`). -/
def fixturePlaintext : Bytes :=
  [0x2F, 0x2F, 0x04, 0x6D, 0xA4, 0x30, 0x3A, 0x39, 0xF9, 0x13, 0x1D, 0x8C, 0x9D, 0x9D, 0x9C, 0x60,
   0x17, 0x00, 0x42, 0x6C, 0xFF, 0xFF, 0x44, 0x13, 0x00, 0x00, 0x00, 0x00, 0x44, 0x93, 0x3C, 0x00,
   0x00, 0x00, 0x00, 0x84, 0x01, 0x13, 0x00, 0x00, 0x00, 0x00, 0xC4, 0x01, 0x13, 0x00, 0x00, 0x00,
   0x00, 0x84, 0x02, 0x13, 0x12, 0x00, 0x00, 0x00, 0xC4, 0x02, 0x13, 0x00, 0x00, 0x00, 0x00, 0x84,
   0x03, 0x13, 0xFF, 0xFF, 0xFF, 0xFF, 0xC4, 0x03, 0x13, 0xFF, 0xFF, 0xFF, 0xFF, 0x84, 0x04, 0x13,
   0xFF, 0xFF, 0xFF, 0xFF, 0xC4, 0x04, 0x13, 0xFF, 0xFF, 0xFF, 0xFF, 0x84, 0x05, 0x13, 0xFF, 0xFF,
   0xFF, 0xFF, 0xC4, 0x05, 0x13, 0xFF, 0xFF, 0xFF, 0xFF, 0x84, 0x06, 0x13, 0xFF, 0xFF, 0xFF, 0xFF,
   0xC4, 0x06, 0x13, 0xFF, 0xFF, 0xFF, 0xFF, 0x84, 0x07, 0x13, 0xFF, 0xFF, 0xFF, 0xFF, 0xC4, 0x07,
   0x13, 0xFF, 0xFF, 0xFF, 0xFF, 0x84, 0x08, 0x13, 0xFF, 0xFF, 0xFF, 0xFF, 0x2F, 0x2F, 0x2F, 0x2F]

/-- The IV of OMS security mode 5 for the reference telegram: the M-field, the A-field and
the TPL access number `0x9D` eight times. -/
def omsModeFiveIV : Bytes :=
  [0xC5, 0x14, 0x27, 0x85, 0x89, 0x50, 0x70, 0x07, 0x9D, 0x9D, 0x9D, 0x9D, 0x9D, 0x9D, 0x9D, 0x9D]

/-! ## Inputs used to instantiate the theorems -/

/-- A stand-in for mbedtls that always reports success and copies its input to its output;
like mbedtls it reports success on an input of length zero. -/
def copyCipher : Mbedtls :=
  { setkey_dec := fun _ => 0, crypt_cbc := fun _ _ input => (0, input) }

/-- A plaintext buffer with six records that fill it to its end: a volume (storage 0), a
date that is not set, a status, a volume with storage 1, a date-time, and a record of
dynamic length 3 with an unknown VIF. -/
def sampleBuffer : Bytes :=
  [0x2F, 0x2F, 0x04, 0x13, 1, 2, 3, 4, 0x02, 0x6C, 0xFF, 0xFF, 0x01, 0xFD, 0x17, 0x00,
   0x44, 0x13, 5, 0, 0, 0, 0x04, 0x6D, 1, 2, 3, 4, 0x0D, 0x77, 3, 1, 2, 3]

/-- The first record of `sampleBuffer` and its measurement. -/
def sampleVolume : Emitted :=
  { record := { dif := 0x04, storage := 0, vifOriginal := 0x13, vifExtensions := [],
                dataLen := 4, pos := 4, val32 := 0x04030201 }
    measurement := .volume (volumeOf 0x04030201) false false 0 }

/-- The third record of `sampleBuffer` and its measurement. -/
def sampleStatus : Emitted :=
  { record := { dif := 0x01, storage := 0, vifOriginal := 0xFD, vifExtensions := [0x17],
                dataLen := 1, pos := 15, val32 := 0 }
    measurement := .status 0 }

/-- The first five records of `sampleBuffer` and their measurements. -/
def sampleRecords : List Emitted :=
  [ sampleVolume,
    { record := { dif := 0x02, storage := 0, vifOriginal := 0x6C, vifExtensions := [],
                  dataLen := 2, pos := 10, val32 := 0xFFFF }
      measurement := .date none 0 },
    sampleStatus,
    { record := { dif := 0x44, storage := 1, vifOriginal := 0x13, vifExtensions := [],
                  dataLen := 4, pos := 18, val32 := 5 }
      measurement := .volume (volumeOf 5) false false 1 },
    { record := { dif := 0x04, storage := 0, vifOriginal := 0x6D, vifExtensions := [],
                  dataLen := 4, pos := 24, val32 := 0x04030201 }
      measurement := .dateTime 0x04030201 (decodeDateTime 0x04030201) } ]

/-- The last record of `sampleBuffer` and its measurement. -/
def sampleLast : Emitted :=
  { record := { dif := 0x0D, storage := 0, vifOriginal := 0x77, vifExtensions := [],
                dataLen := 3, pos := 31, val32 := 0x030201 }
    measurement := .unknown 0x0D 0x77 [1, 2, 3] }

/-! ## Initialisation vector -/

theorem constructIV_eq (data : Bytes) (h : 18 ≤ data.length) :
    constructIV data = some [data[2], data[3], data[4], data[5], data[6], data[7], data[8],
      data[9], data[12], data[14], 0, 0, 0, 0, 0, 0] := by
  have h2 : data[2]? = some data[2] := List.getElem?_eq_getElem (by omega)
  have h3 : data[3]? = some data[3] := List.getElem?_eq_getElem (by omega)
  have h4 : data[4]? = some data[4] := List.getElem?_eq_getElem (by omega)
  have h5 : data[5]? = some data[5] := List.getElem?_eq_getElem (by omega)
  have h6 : data[6]? = some data[6] := List.getElem?_eq_getElem (by omega)
  have h7 : data[7]? = some data[7] := List.getElem?_eq_getElem (by omega)
  have h8 : data[8]? = some data[8] := List.getElem?_eq_getElem (by omega)
  have h9 : data[9]? = some data[9] := List.getElem?_eq_getElem (by omega)
  have h12 : data[12]? = some data[12] := List.getElem?_eq_getElem (by omega)
  have h14 : data[14]? = some data[14] := List.getElem?_eq_getElem (by omega)
  simp [constructIV, readBytes, h2, h3, h4, h5, h6, h7, h8, h9, h12, h14]

/-- C1: for a telegram of at least 18 bytes `constructIV` succeeds with a 16-byte IV whose
bytes 0 and 1 are telegram bytes 2 and 3, whose bytes 2..7 are telegram bytes 4..9, whose
bytes 8 and 9 are telegram bytes 12 and 14 and whose bytes 10..15 are zero; a telegram that
agrees on the offsets 2..9, 12 and 14 gives the same IV, whatever its other bytes are. -/
theorem constructIV_layout (data : Bytes) (h : 18 ≤ data.length) :
    ∃ iv, constructIV data = some iv ∧ iv.length = 16 ∧
      iv[0]? = data[2]? ∧ iv[1]? = data[3]? ∧
      (∀ i, i < 6 → iv[2 + i]? = data[4 + i]?) ∧
      iv[8]? = data[12]? ∧ iv[9]? = data[14]? ∧
      (∀ i, 10 ≤ i → i < 16 → iv[i]? = some 0) ∧
      (∀ other : Bytes, 18 ≤ other.length →
        (∀ i, (2 ≤ i ∧ i ≤ 9) ∨ i = 12 ∨ i = 14 → other[i]? = data[i]?) →
        constructIV other = some iv) := by
  refine ⟨_, constructIV_eq data h, rfl, ?_, ?_, ?_, ?_, ?_, ?_, ?_⟩
  · simp [List.getElem?_eq_getElem (show 2 < data.length by omega)]
  · simp [List.getElem?_eq_getElem (show 3 < data.length by omega)]
  · intro i hi
    have hi4 : 4 + i < data.length := by omega
    rw [List.getElem?_eq_getElem hi4]
    interval_cases i <;> rfl
  · simp [List.getElem?_eq_getElem (show 12 < data.length by omega)]
  · simp [List.getElem?_eq_getElem (show 14 < data.length by omega)]
  · intro i h1 h2
    interval_cases i <;> rfl
  · intro other ho hag
    rw [constructIV_eq other ho]
    have e : ∀ i (h1 : i < other.length) (h2 : i < data.length),
        (2 ≤ i ∧ i ≤ 9) ∨ i = 12 ∨ i = 14 → other[i] = data[i] := by
      intro i h1 h2 hc
      have := hag i hc
      rw [List.getElem?_eq_getElem h1, List.getElem?_eq_getElem h2] at this
      exact Option.some.inj this
    rw [e 2 (by omega) (by omega) (by omega), e 3 (by omega) (by omega) (by omega),
      e 4 (by omega) (by omega) (by omega), e 5 (by omega) (by omega) (by omega),
      e 6 (by omega) (by omega) (by omega), e 7 (by omega) (by omega) (by omega),
      e 8 (by omega) (by omega) (by omega), e 9 (by omega) (by omega) (by omega),
      e 12 (by omega) (by omega) (by omega), e 14 (by omega) (by omega) (by omega)]

set_option maxRecDepth 100000 in
theorem referenceTelegram_length : referenceTelegram.length = 162 := by decide

set_option maxRecDepth 100000 in
theorem referenceTelegram_iv :
    constructIV referenceTelegram =
      some [0xC5, 0x14, 0x27, 0x85, 0x89, 0x50, 0x70, 0x07, 0x60, 0x9D, 0, 0, 0, 0, 0, 0] := by
  decide

/-- The reference telegram of `run` has 162 bytes, so `constructIV_layout` applies to it, and
its IV is `C5 14 27 85 89 50 70 07 60 9D 00 00 00 00 00 00`. -/
theorem constructIV_layout_witness :
    18 ≤ referenceTelegram.length ∧
    constructIV referenceTelegram =
      some [0xC5, 0x14, 0x27, 0x85, 0x89, 0x50, 0x70, 0x07, 0x60, 0x9D, 0, 0, 0, 0, 0, 0] ∧
    ∃ iv, constructIV referenceTelegram = some iv ∧ iv.length = 16 ∧
      iv[0]? = referenceTelegram[2]? ∧ iv[1]? = referenceTelegram[3]? ∧
      (∀ i, i < 6 → iv[2 + i]? = referenceTelegram[4 + i]?) ∧
      iv[8]? = referenceTelegram[12]? ∧ iv[9]? = referenceTelegram[14]? ∧
      (∀ i, 10 ≤ i → i < 16 → iv[i]? = some 0) ∧
      (∀ other : Bytes, 18 ≤ other.length →
        (∀ i, (2 ≤ i ∧ i ≤ 9) ∨ i = 12 ∨ i = 14 → other[i]? = referenceTelegram[i]?) →
        constructIV other = some iv) :=
  ⟨by rw [referenceTelegram_length]; decide, referenceTelegram_iv,
   constructIV_layout referenceTelegram (by rw [referenceTelegram_length]; decide)⟩

/-! ## Decryption -/

set_option maxRecDepth 4000 in
theorem printStructure_isSome (data : Bytes) (h : 18 ≤ data.length) :
    ∃ p, printStructure data = some p := by
  have g : ∀ i, i < 18 → data[i]? = some (data.getD i 0) := by
    intro i hi
    rw [List.getD_eq_getElem?_getD, List.getElem?_eq_getElem (by omega)]; rfl
  simp only [printStructure, readAll, g, Option.map_some', Nat.reduceLT]
  exact ⟨_, rfl⟩

theorem storeOutput_length (buf written : Bytes) :
    (storeOutput buf written).length = buf.length := by
  simp [storeOutput]; omega

theorem resize_length (v : Bytes) (n : Nat) : (resize v n).length = n := by
  simp [resize]; omega

theorem decryptCBC_length (m : Mbedtls) (key iv input output : Bytes) :
    (decryptCBC m key iv input output).2.length = output.length := by
  unfold decryptCBC
  split
  · rfl
  · split
    · rfl
    · simp [storeOutput_length]

theorem alignedPayloadLen_eq (n : Nat) : alignedPayloadLen n = 16 * ((n - 18) / 16) := by
  unfold alignedPayloadLen
  simp only
  split <;> omega

/-- The path of `decrypt` past the length guard. -/
theorem decrypt_eq (m : Mbedtls) (telegram key decrypted : Bytes) (h : 18 ≤ telegram.length) :
    ∃ printed iv, printStructure telegram = some printed ∧ constructIV telegram = some iv ∧
      decrypt m telegram key decrypted =
        { ret := verifyMarker
            (decryptCBC m key iv ((telegram.drop 18).take (alignedPayloadLen telegram.length))
              (resize decrypted (alignedPayloadLen telegram.length))).1
            (decryptCBC m key iv ((telegram.drop 18).take (alignedPayloadLen telegram.length))
              (resize decrypted (alignedPayloadLen telegram.length))).2
          decrypted :=
            (decryptCBC m key iv ((telegram.drop 18).take (alignedPayloadLen telegram.length))
              (resize decrypted (alignedPayloadLen telegram.length))).2
          printed := some printed
          iv := some iv
          cipherCalls :=
            [⟨key, iv, (telegram.drop 18).take (alignedPayloadLen telegram.length)⟩] } := by
  obtain ⟨p, hp⟩ := printStructure_isSome telegram h
  refine ⟨p, _, hp, constructIV_eq telegram h, ?_⟩
  unfold decrypt
  rw [if_neg (by omega)]
  simp only [hp, constructIV_eq telegram h]

/-- Where the aligned payload is not empty (a telegram of at least 34 bytes), `decrypt`
returns 0 exactly when the cipher reports success and the plaintext starts `2F 2F`, returns
-1 when the cipher reports success and the plaintext starts otherwise, and hands on the
cipher's code when that is not 0; in the last two cases `runOn` does not call `parseData`. -/
theorem decrypt_verification_of_payload (m : Mbedtls) (telegram key decrypted : Bytes)
    (h : 34 ≤ telegram.length) :
    ∃ iv b0 b1,
      constructIV telegram = some iv ∧
      (decrypt m telegram key decrypted).decrypted[0]? = some b0 ∧
      (decrypt m telegram key decrypted).decrypted[1]? = some b1 ∧
      ((decrypt m telegram key decrypted).ret = some 0 ↔
        (decryptCBC m key iv ((telegram.drop 18).take (alignedPayloadLen telegram.length))
          (resize decrypted (alignedPayloadLen telegram.length))).1 = 0 ∧
        b0 = 0x2F ∧ b1 = 0x2F) ∧
      ((decryptCBC m key iv ((telegram.drop 18).take (alignedPayloadLen telegram.length))
          (resize decrypted (alignedPayloadLen telegram.length))).1 = 0 →
        ¬ (b0 = 0x2F ∧ b1 = 0x2F) → (decrypt m telegram key decrypted).ret = some (-1)) ∧
      ((decryptCBC m key iv ((telegram.drop 18).take (alignedPayloadLen telegram.length))
          (resize decrypted (alignedPayloadLen telegram.length))).1 ≠ 0 →
        (decrypt m telegram key decrypted).ret =
          some (decryptCBC m key iv
            ((telegram.drop 18).take (alignedPayloadLen telegram.length))
            (resize decrypted (alignedPayloadLen telegram.length))).1) := by
  obtain ⟨p, iv, -, hiv, hd⟩ := decrypt_eq m telegram key decrypted (by omega)
  have hl := decryptCBC_length m key iv
    ((telegram.drop 18).take (alignedPayloadLen telegram.length))
    (resize decrypted (alignedPayloadLen telegram.length))
  rw [resize_length] at hl
  have hret : (decrypt m telegram key decrypted).ret = verifyMarker
      (decryptCBC m key iv ((telegram.drop 18).take (alignedPayloadLen telegram.length))
        (resize decrypted (alignedPayloadLen telegram.length))).1
      (decryptCBC m key iv ((telegram.drop 18).take (alignedPayloadLen telegram.length))
        (resize decrypted (alignedPayloadLen telegram.length))).2 := by rw [hd]
  have hdec : (decrypt m telegram key decrypted).decrypted =
      (decryptCBC m key iv ((telegram.drop 18).take (alignedPayloadLen telegram.length))
        (resize decrypted (alignedPayloadLen telegram.length))).2 := by rw [hd]
  obtain ⟨result, plain, hr⟩ : ∃ result plain, decryptCBC m key iv
      ((telegram.drop 18).take (alignedPayloadLen telegram.length))
      (resize decrypted (alignedPayloadLen telegram.length)) = (result, plain) := ⟨_, _, rfl⟩
  rw [hret, hdec]
  rw [hr] at hl
  simp only [alignedPayloadLen_eq] at hl
  have hq : 1 ≤ (telegram.length - 18) / 16 := by
    rw [Nat.le_div_iff_mul_le (by decide)]; omega
  have h0 : 0 < plain.length := by omega
  have h1 : 1 < plain.length := by omega
  refine ⟨iv, plain[0], plain[1], hiv, ?_, ?_, ?_, ?_, ?_⟩ <;> simp only [hr]
  · exact List.getElem?_eq_getElem h0
  · exact List.getElem?_eq_getElem h1
  · simp only [verifyMarker, List.getElem?_eq_getElem h0, List.getElem?_eq_getElem h1]
    by_cases hres : result = 0 <;> by_cases hb0 : plain[0] = 0x2F <;>
      by_cases hb1 : plain[1] = 0x2F <;> simp [hres, hb0, hb1]
  · intro hres hne
    simp only [verifyMarker, List.getElem?_eq_getElem h0, List.getElem?_eq_getElem h1]
    by_cases hb0 : plain[0] = 0x2F <;> by_cases hb1 : plain[1] = 0x2F <;>
      simp_all
  · intro hres
    simp [verifyMarker, hres]

/-- When `decrypt` returns a nonzero code, `runOn` prints `Decryption failed` and does not
call `parseData`. -/
theorem runOn_decryptionFailed (m : Mbedtls) (telegram key : Bytes) (code : Int)
    (h : (decrypt m telegram key []).ret = some code) (hc : code ≠ 0) :
    runOn m telegram key = .decryptionFailed := by
  unfold runOn
  simp only [h, if_neg hc]

/-- C2, at an 18-byte telegram with a cipher that reports success: the aligned payload is
empty, the cipher is called on zero bytes and reports success, and `decrypt` then reads
`decrypted[0]` of an empty vector: it has no return value, and `runOn` no defined outcome. -/
theorem decrypt_empty_payload_reads_past_end :
    (decrypt copyCipher (List.replicate 18 0) referenceKey []).cipherCalls.map CipherCall.input
      = [[]] ∧
    decryptCBC copyCipher referenceKey
      [0, 0, 0, 0, 0, 0, 0, 0, 0, 0, 0, 0, 0, 0, 0, 0] [] [] = (0, []) ∧
    (decrypt copyCipher (List.replicate 18 0) referenceKey []).decrypted = [] ∧
    (decrypt copyCipher (List.replicate 18 0) referenceKey []).ret = none ∧
    (∀ code : Int,
      (decrypt copyCipher (List.replicate 18 0) referenceKey []).ret ≠ some code) ∧
    runOn copyCipher (List.replicate 18 0) referenceKey = .undefinedBehaviour := by
  refine ⟨by decide, by decide, by decide, by decide, ?_, rfl⟩
  intro code
  have h : (decrypt copyCipher (List.replicate 18 0) referenceKey []).ret = none := by decide
  rw [h]
  exact Option.noConfusion

/-- C3: a telegram shorter than 18 bytes makes `decrypt` return -1 at once: nothing is
printed from the header, no IV is constructed, `decryptCBC` is not called and `decrypted`
is the buffer that was passed in. -/
theorem decrypt_too_short (m : Mbedtls) (telegram key decrypted : Bytes)
    (h : telegram.length < 18) :
    decrypt m telegram key decrypted =
      { ret := some (-1), decrypted := decrypted, printed := none, iv := none,
        cipherCalls := [] } := by
  unfold decrypt
  rw [if_pos h]

/-- A telegram of 17 bytes takes the early return of `decrypt`. -/
theorem decrypt_too_short_witness :
    (List.range 17).length < 18 ∧
    decrypt copyCipher (List.range 17) referenceKey [1, 2, 3] =
      { ret := some (-1), decrypted := [1, 2, 3], printed := none, iv := none,
        cipherCalls := [] } :=
  ⟨by decide, decrypt_too_short copyCipher (List.range 17) referenceKey [1, 2, 3] (by decide)⟩

/-- C4: for a telegram of `n ≥ 18` bytes `decrypt` calls `decryptCBC` once, with the
constructed IV and with the telegram bytes at offsets `18 .. 18 + 16 * ((n - 18) / 16) - 1`;
that length is the largest multiple of 16 not above `n - 18`, so the last `(n - 18) % 16`
bytes are not passed; `decrypted` has that length afterwards, and `decryptCBC` does not take
its `inputLen % 16 != 0` return. -/
theorem decrypt_cipher_input (m : Mbedtls) (telegram key decrypted : Bytes)
    (h : 18 ≤ telegram.length) :
    ∃ iv input, constructIV telegram = some iv ∧
      (decrypt m telegram key decrypted).cipherCalls =
        [{ key := key, iv := iv, input := input }] ∧
      input = (telegram.drop 18).take (16 * ((telegram.length - 18) / 16)) ∧
      input.length = 16 * ((telegram.length - 18) / 16) ∧
      (∀ i, i < input.length → input[i]? = telegram[18 + i]?) ∧
      input.length % 16 = 0 ∧
      input.length ≤ telegram.length - 18 ∧
      (∀ k, k % 16 = 0 → k ≤ telegram.length - 18 → k ≤ input.length) ∧
      telegram.length = 18 + input.length + (telegram.length - 18) % 16 ∧
      (decrypt m telegram key decrypted).decrypted.length = input.length ∧
      decryptCBC m key iv input (resize decrypted input.length) =
        (if m.setkey_dec key ≠ 0 then (-1, resize decrypted input.length)
         else ((m.crypt_cbc key (iv.take 16) input).1,
               storeOutput (resize decrypted input.length)
                 (m.crypt_cbc key (iv.take 16) input).2)) := by
  obtain ⟨p, iv, hp, hiv, hd⟩ := decrypt_eq m telegram key decrypted h
  have hlen : ((telegram.drop 18).take (alignedPayloadLen telegram.length)).length
      = 16 * ((telegram.length - 18) / 16) := by
    rw [List.length_take, List.length_drop, alignedPayloadLen_eq]; omega
  refine ⟨iv, (telegram.drop 18).take (alignedPayloadLen telegram.length), hiv, ?_, ?_, hlen,
    ?_, ?_, ?_, ?_, ?_, ?_, ?_⟩
  · rw [hd]
  · rw [alignedPayloadLen_eq]
  · intro i hi
    rw [hlen, ← alignedPayloadLen_eq] at hi
    rw [List.getElem?_take_of_lt hi, List.getElem?_drop]
  · rw [hlen]; omega
  · rw [hlen]; omega
  · intro k hk hk2
    rw [hlen]; omega
  · rw [hlen]; omega
  · rw [hd]; simp only [decryptCBC_length, resize_length, hlen]
    exact alignedPayloadLen_eq _
  · rw [hlen]
    unfold decryptCBC
    rw [if_neg (by rw [hlen]; omega)]

/-- A telegram of 40 bytes has 22 bytes after offset 18: `decrypt` passes the 16 bytes at
offsets 18..33 to the cipher and not the last 6. -/
theorem decrypt_cipher_input_witness :
    18 ≤ (List.range 40).length ∧
    (decrypt copyCipher (List.range 40) referenceKey []).cipherCalls.map CipherCall.input =
      [[18, 19, 20, 21, 22, 23, 24, 25, 26, 27, 28, 29, 30, 31, 32, 33]] ∧
    ∃ iv input, constructIV (List.range 40) = some iv ∧
      (decrypt copyCipher (List.range 40) referenceKey []).cipherCalls =
        [{ key := referenceKey, iv := iv, input := input }] ∧
      input = ((List.range 40).drop 18).take (16 * (((List.range 40).length - 18) / 16)) ∧
      input.length = 16 * (((List.range 40).length - 18) / 16) ∧
      (∀ i, i < input.length → input[i]? = (List.range 40)[18 + i]?) ∧
      input.length % 16 = 0 ∧
      input.length ≤ (List.range 40).length - 18 ∧
      (∀ k, k % 16 = 0 → k ≤ (List.range 40).length - 18 → k ≤ input.length) ∧
      (List.range 40).length = 18 + input.length + ((List.range 40).length - 18) % 16 ∧
      (decrypt copyCipher (List.range 40) referenceKey []).decrypted.length = input.length ∧
      decryptCBC copyCipher referenceKey iv input (resize [] input.length) =
        (if copyCipher.setkey_dec referenceKey ≠ 0 then (-1, resize [] input.length)
         else ((copyCipher.crypt_cbc referenceKey (iv.take 16) input).1,
               storeOutput (resize [] input.length)
                 (copyCipher.crypt_cbc referenceKey (iv.take 16) input).2)) :=
  ⟨by decide, by decide, decrypt_cipher_input copyCipher (List.range 40) referenceKey [] (by decide)⟩

/-! ## Reading one record -/

theorem getElem?_take_of_le (data : Bytes) (n i : Nat) (h : i < n) :
    (data.take n)[i]? = data[i]? := List.getElem?_take_of_lt h

theorem readVifExtensions_length_le (vif : Nat) (l : Bytes) :
    (readVifExtensions vif l).length ≤ l.length := by
  induction l generalizing vif with
  | nil => simp [readVifExtensions]
  | cons b rest ih =>
    unfold readVifExtensions
    split
    · simp only [List.length_cons]; exact Nat.succ_le_succ (ih b)
    · simp

theorem readVifExtensions_take (vif : Nat) (l : Bytes) (k : Nat)
    (h : (readVifExtensions vif l).length ≤ k) :
    readVifExtensions vif (l.take k) = readVifExtensions vif l := by
  induction l generalizing vif k with
  | nil => simp
  | cons b rest ih =>
    by_cases hv : vif &&& 0x80 ≠ 0
    · have e : readVifExtensions vif (b :: rest) = b :: readVifExtensions b rest := by
        simp [readVifExtensions, hv]
      rw [e] at h ⊢
      cases k with
      | zero => simp at h
      | succ k =>
        simp only [List.length_cons, Nat.add_le_add_iff_right] at h
        rw [List.take_succ_cons]
        rw [readVifExtensions, if_pos hv, ih b k h]
    · have e : readVifExtensions vif (b :: rest) = [] := by
        simp [readVifExtensions, hv]
      rw [e]
      cases k with
      | zero => simp [readVifExtensions]
      | succ k => rw [List.take_succ_cons]; simp [readVifExtensions, hv]

theorem readDif_next (data : Bytes) (p : Nat) (a : Nat × Nat × Nat)
    (h : readDif data p = .next a) :
    p + 1 ≤ a.2.2 ∧ a.2.2 ≤ data.length ∧ p < data.length ∧ data[p]? = some a.1 ∧ a.1 ≠ 0x2F ∧
    ∀ n, a.2.2 ≤ n → n ≤ data.length → readDif (data.take n) p = .next a := by
  unfold readDif at h
  simp only at h
  by_cases hp : p < data.length
  · rw [if_neg (by simpa using hp), List.getElem?_eq_getElem hp] at h
    simp only at h
    by_cases h2f : data[p] = 0x2F
    · simp [h2f] at h
    · rw [if_neg h2f, if_neg (by omega)] at h
      by_cases hd : data[p] &&& 0x80 ≠ 0 ∧ p + 1 < data.length
      · rw [if_pos hd, List.getElem?_eq_getElem hd.2] at h
        simp only [Step.next.injEq] at h
        subst h
        refine ⟨by simp, by simp; omega, hp, List.getElem?_eq_getElem hp, h2f, ?_⟩
        intro n hn hn2
        simp only at hn
        unfold readDif
        simp only [List.length_take, min_eq_left hn2]
        rw [if_neg (by omega), getElem?_take_of_le _ _ _ (by omega), List.getElem?_eq_getElem hp]
        simp only
        rw [if_neg h2f, if_neg (by omega), if_pos ⟨hd.1, by omega⟩,
          getElem?_take_of_le _ _ _ (by omega), List.getElem?_eq_getElem hd.2]
      · rw [if_neg hd] at h
        simp only [Step.next.injEq] at h
        subst h
        refine ⟨by simp, by simp; omega, hp, List.getElem?_eq_getElem hp, h2f, ?_⟩
        intro n hn hn2
        simp only at hn
        unfold readDif
        simp only [List.length_take, min_eq_left hn2]
        rw [if_neg (by omega), getElem?_take_of_le _ _ _ (by omega), List.getElem?_eq_getElem hp]
        simp only
        rw [if_neg h2f, if_neg (by omega), if_neg]
        intro hc
        exact hd ⟨hc.1, by omega⟩
  · rw [if_pos (by simpa using hp)] at h
    exact Step.noConfusion h

theorem readVif_next (data : Bytes) (p : Nat) (a : Nat × List Nat × Nat)
    (h : readVif data p = .next a) :
    p + 1 ≤ a.2.2 ∧ a.2.2 ≤ data.length ∧ a.2.2 = p + 1 + a.2.1.length ∧
    ∀ n, a.2.2 ≤ n → n ≤ data.length → readVif (data.take n) p = .next a := by
  unfold readVif at h
  by_cases hp : p < data.length
  · rw [if_neg (by omega), List.getElem?_eq_getElem hp] at h
    simp only [Step.next.injEq] at h
    subst h
    have hl := readVifExtensions_length_le data[p] (data.drop (p + 1))
    rw [List.length_drop] at hl
    refine ⟨by simp, by simp; omega, rfl, ?_⟩
    intro n hn hn2
    simp only at hn
    unfold readVif
    simp only [List.length_take, min_eq_left hn2]
    rw [if_neg (by omega), getElem?_take_of_le _ _ _ (by omega), List.getElem?_eq_getElem hp]
    simp only
    have e : List.drop (p + 1) (List.take n data) = (data.drop (p + 1)).take (n - (p + 1)) := by
      rw [List.drop_take]
    rw [e, readVifExtensions_take _ _ _ (by omega)]
  · rw [if_pos (by omega)] at h
    exact Step.noConfusion h

theorem resolveDataLen_static (data other : Bytes) (c p : Nat) (hc : c ≠ 0x0D) :
    resolveDataLen data c p = resolveDataLen other c p ∧
    ∃ l, resolveDataLen data c p = .next (l, p) := by
  simp only [resolveDataLen]
  split <;> first | exact ⟨rfl, _, rfl⟩ | exact absurd rfl hc

theorem resolveDataLen_next (data : Bytes) (c p : Nat) (a : Nat × Nat) (hp : p ≤ data.length)
    (h : resolveDataLen data c p = .next a) :
    p ≤ a.2 ∧ a.2 ≤ data.length ∧
    ∀ n, a.2 ≤ n → n ≤ data.length → resolveDataLen (data.take n) c p = .next a := by
  by_cases hc : c = 0x0D
  · subst hc
    simp only [resolveDataLen] at h
    by_cases hpl : p < data.length
    · rw [if_pos hpl, List.getElem?_eq_getElem hpl] at h
      simp only [Step.next.injEq] at h
      subst h
      refine ⟨by simp, by simp; omega, ?_⟩
      intro n hn hn2
      simp only at hn
      simp only [resolveDataLen, List.length_take, min_eq_left hn2]
      rw [if_pos (by omega), getElem?_take_of_le _ _ _ (by omega), List.getElem?_eq_getElem hpl]
    · rw [if_neg hpl] at h
      simp only [Step.next.injEq] at h
      subst h
      refine ⟨by simp, by simpa using hp, ?_⟩
      intro n hn hn2
      simp only at hn
      simp only [resolveDataLen, List.length_take, min_eq_left hn2]
      rw [if_neg (by omega)]
  · obtain ⟨l, hl⟩ := (resolveDataLen_static data data c p hc).2
    rw [hl] at h
    simp only [Step.next.injEq] at h
    subst h
    refine ⟨le_refl _, hp, ?_⟩
    intro n _ _
    rw [(resolveDataLen_static (data.take n) data c p hc).1, hl]

theorem readHeader_next (data : Bytes) (p : Nat) (h : RecordHeader)
    (hh : readHeader data p = .next h) :
    p + 2 ≤ h.pos ∧ h.pos ≤ data.length ∧ p < data.length ∧ data[p]? = some h.dif ∧
    h.dif ≠ 0x2F ∧
    ∀ n, h.pos ≤ n → n ≤ data.length → readHeader (data.take n) p = .next h := by
  unfold readHeader at hh
  cases hd : readDif data p with
  | stop e q => rw [hd] at hh; exact Step.noConfusion hh
  | next d =>
    rw [hd] at hh
    simp only [Step.bind] at hh
    obtain ⟨d1, d2, d3, d4, d5, d6⟩ := readDif_next data p d hd
    cases hv : readVif data d.2.2 with
    | stop e q => rw [hv] at hh; exact Step.noConfusion hh
    | next v =>
      rw [hv] at hh
      simp only at hh
      obtain ⟨v1, v2, v3, v4⟩ := readVif_next data d.2.2 v hv
      cases hl : resolveDataLen data (d.1 &&& 0x0F) v.2.2 with
      | stop e q => rw [hl] at hh; exact Step.noConfusion hh
      | next l =>
        rw [hl] at hh
        simp only [Step.next.injEq] at hh
        obtain ⟨l1, l2, l3⟩ := resolveDataLen_next data _ _ l v2 hl
        subst hh
        refine ⟨by simp only; omega, l2, d3, d4, d5, ?_⟩
        intro n hn hn2
        simp only at hn
        unfold readHeader
        rw [d6 n (by omega) hn2]
        simp only [Step.bind]
        rw [v4 n (by omega) hn2]
        simp only
        rw [l3 n hn hn2]

theorem readBytes_take (data : Bytes) (k pos n : Nat) (h : pos + k ≤ n) :
    readBytes (data.take n) pos k = readBytes data pos k := by
  induction k generalizing pos with
  | zero => rfl
  | succ k ih =>
    rw [readBytes, readBytes, getElem?_take_of_le _ _ _ (by omega), ih (pos + 1) (by omega)]

theorem readBytes_isSome (data : Bytes) (k pos : Nat) (h : pos + k ≤ data.length) :
    ∃ bs, readBytes data pos k = some bs := by
  induction k generalizing pos with
  | zero => exact ⟨[], rfl⟩
  | succ k ih =>
    obtain ⟨bs, hbs⟩ := ih (pos + 1) (by omega)
    rw [readBytes, List.getElem?_eq_getElem (show pos < data.length by omega), hbs]
    exact ⟨_, rfl⟩

theorem orByte_take (data : Bytes) (v : Nat) (cond : Bool) (i shift n : Nat)
    (h : cond = true → i < n) :
    orByte (data.take n) v cond i shift = orByte data v cond i shift := by
  unfold orByte
  cases cond with
  | false => rfl
  | true => simp only [if_true]; rw [getElem?_take_of_le _ _ _ (h rfl)]

theorem orByte_isSome (data : Bytes) (v : Nat) (cond : Bool) (i shift : Nat)
    (h : cond = true → i < data.length) :
    ∃ w, orByte data v cond i shift = some w := by
  unfold orByte
  cases cond with
  | false => exact ⟨_, rfl⟩
  | true => simp only [if_true]; rw [List.getElem?_eq_getElem (h rfl)]; exact ⟨_, rfl⟩

theorem composeVal32_take (data : Bytes) (pos dataLen n : Nat) (h : pos + dataLen ≤ n) :
    composeVal32 (data.take n) pos dataLen = composeVal32 data pos dataLen := by
  unfold composeVal32
  by_cases h0 : dataLen > 0
  · rw [if_pos h0, if_pos h0, getElem?_take_of_le _ _ _ (show pos < n by omega)]
    have e1 : ∀ v, orByte (data.take n) v (decide (dataLen > 1)) (pos + 1) 8
        = orByte data v (decide (dataLen > 1)) (pos + 1) 8 := fun v =>
      orByte_take data v _ _ _ n (fun hc => by have := of_decide_eq_true hc; omega)
    have e2 : ∀ v, orByte (data.take n) v (decide (dataLen > 2)) (pos + 2) 16
        = orByte data v (decide (dataLen > 2)) (pos + 2) 16 := fun v =>
      orByte_take data v _ _ _ n (fun hc => by have := of_decide_eq_true hc; omega)
    have e3 : ∀ v, orByte (data.take n) v (decide (dataLen > 3)) (pos + 3) 24
        = orByte data v (decide (dataLen > 3)) (pos + 3) 24 := fun v =>
      orByte_take data v _ _ _ n (fun hc => by have := of_decide_eq_true hc; omega)
    simp only [e1, e2, e3]
  · rw [if_neg h0, if_neg h0]

theorem composeVal32_isSome (data : Bytes) (pos dataLen : Nat)
    (h : pos + dataLen ≤ data.length) :
    ∃ v, composeVal32 data pos dataLen = some v := by
  unfold composeVal32
  by_cases h0 : dataLen > 0
  · rw [if_pos h0, List.getElem?_eq_getElem (show pos < data.length by omega)]
    simp only
    obtain ⟨v1, e1⟩ := orByte_isSome data (data[pos] % 2 ^ 32) (decide (dataLen > 1)) (pos + 1) 8
      (fun hc => by have := of_decide_eq_true hc; omega)
    obtain ⟨v2, e2⟩ := orByte_isSome data v1 (decide (dataLen > 2)) (pos + 2) 16
      (fun hc => by have := of_decide_eq_true hc; omega)
    obtain ⟨v3, e3⟩ := orByte_isSome data v2 (decide (dataLen > 3)) (pos + 3) 24
      (fun hc => by have := of_decide_eq_true hc; omega)
    rw [e1, Option.bind, e2, Option.bind, e3]
    exact ⟨_, rfl⟩
  · rw [if_neg h0]; exact ⟨_, rfl⟩

theorem readRecord_next (data : Bytes) (p : Nat) (r : DataRecord)
    (h : readRecord data p = .next r) :
    readHeader data p = .next r.header ∧ r.pos + r.dataLen ≤ data.length ∧
    composeVal32 data r.pos r.dataLen = some r.val32 := by
  unfold readRecord at h
  cases hh : readHeader data p with
  | stop e q => rw [hh] at h; exact Step.noConfusion h
  | next hd =>
    rw [hh] at h
    simp only at h
    by_cases hc : hd.pos + hd.dataLen > data.length
    · rw [if_pos hc] at h; exact Step.noConfusion h
    · rw [if_neg hc] at h
      cases hv : composeVal32 data hd.pos hd.dataLen with
      | none => rw [hv] at h; exact Step.noConfusion h
      | some v =>
        rw [hv] at h
        simp only [Step.next.injEq] at h
        subst h
        exact ⟨rfl, by simpa using hc, hv⟩

theorem readRecord_of_header (data : Bytes) (p : Nat) (r : DataRecord)
    (hh : readHeader data p = .next r.header) (hc : r.pos + r.dataLen ≤ data.length)
    (hv : composeVal32 data r.pos r.dataLen = some r.val32) :
    readRecord data p = .next r := by
  unfold readRecord
  rw [hh]
  simp only [DataRecord.header]
  rw [if_neg (by omega), hv]

/-- A complete record is read in the same way from every prefix of the buffer that
contains its data. -/
theorem readRecord_take (data : Bytes) (p : Nat) (r : DataRecord)
    (h : readRecord data p = .next r) (n : Nat) (hn : r.pos + r.dataLen ≤ n)
    (hn2 : n ≤ data.length) :
    readRecord (data.take n) p = .next r := by
  obtain ⟨hh, hc, hv⟩ := readRecord_next data p r h
  have hk := (readHeader_next data p r.header hh).2.2.2.2.2 n
    (by simp only [DataRecord.header]; omega) hn2
  apply readRecord_of_header _ _ _ hk
  · rw [List.length_take, min_eq_left hn2]; exact hn
  · rw [composeVal32_take _ _ _ _ hn]; exact hv

/-- A record whose data is cut short is reported as incomplete. -/
theorem readRecord_take_incomplete (data : Bytes) (p : Nat) (r : DataRecord)
    (h : readRecord data p = .next r) (n : Nat) (hn : r.pos ≤ n)
    (hn1 : n < r.pos + r.dataLen) (hn2 : n ≤ data.length) :
    readRecord (data.take n) p = .stop .incompleteRecord r.pos := by
  obtain ⟨hh, hc, hv⟩ := readRecord_next data p r h
  have hk := (readHeader_next data p r.header hh).2.2.2.2.2 n
    (by simp only [DataRecord.header]; omega) hn2
  unfold readRecord
  rw [hk]
  simp only [DataRecord.header]
  rw [if_pos (by rw [List.length_take, min_eq_left hn2]; omega)]

theorem readRecord_pos (data : Bytes) (p : Nat) (r : DataRecord)
    (h : readRecord data p = .next r) :
    p + 2 ≤ r.pos ∧ r.pos + r.dataLen ≤ data.length ∧ p < data.length := by
  obtain ⟨hh, hc, hv⟩ := readRecord_next data p r h
  obtain ⟨h1, h2, h3, -⟩ := readHeader_next data p r.header hh
  exact ⟨h1, hc, h3⟩

theorem processRecord_take (data : Bytes) (st : ParserState) (r : DataRecord) (n : Nat)
    (hn : r.pos + r.dataLen ≤ n) :
    processRecord (data.take n) st r = processRecord data st r := by
  have e1 : r.dataLen = 1 → (data.take n)[r.pos]? = data[r.pos]? := fun h1 =>
    getElem?_take_of_le _ _ _ (by omega)
  have e2 : readBytes (data.take n) r.pos r.dataLen = readBytes data r.pos r.dataLen :=
    readBytes_take _ _ _ _ hn
  unfold processRecord
  simp only [e2]
  split_ifs with c1 c2 c3 c4 c5 c6
  all_goals first | rfl | rw [e1 c5.2.2]

/-- What `processRecord` does to the parser: one measurement for the record is appended to
the output, the cursor moves past the data and the record counter goes up by one. -/
theorem processRecord_some (data : Bytes) (st st' : ParserState) (r : DataRecord)
    (h : processRecord data st r = some st') :
    st'.pos = r.pos + r.dataLen ∧ st'.recordNum = st.recordNum + 1 ∧
    ∃ m, st'.output = st.output ++ [⟨r, m⟩] := by
  unfold processRecord at h
  simp only at h
  split_ifs at h with c1 c2 c3 c4 c5 c6
  all_goals first
    | (simp only [Option.some.injEq] at h; subst h; exact ⟨rfl, rfl, _, rfl⟩)
    | (split at h
       · exact Option.noConfusion h
       · simp only [Option.some.injEq] at h; subst h; exact ⟨rfl, rfl, _, rfl⟩)

/-! ## The loop of `parseAll` -/

theorem parseLoop_succ (data : Bytes) (fuel : Nat) (st : ParserState) :
    parseLoop data (fuel + 1) st =
      match readRecord data st.pos with
      | .stop e p =>
        ({ st with pos := p,
                   recordNum := if e.afterRecordLine then st.recordNum + 1 else st.recordNum }, e)
      | .next r =>
        match processRecord data st r with
        | none => ({ st with pos := r.pos, recordNum := st.recordNum + 1 }, .outOfBounds)
        | some st' => parseLoop data fuel st' := rfl

/-- A property of the parser members that every complete iteration preserves, and that
does not depend on the cursor and the record counter, holds when the loop is left. -/
theorem parseLoop_invariant (data : Bytes) (Inv : ParserState → Prop)
    (hpos : ∀ st p k, Inv st → Inv { st with pos := p, recordNum := k })
    (hstep : ∀ st r st', Inv st → readRecord data st.pos = .next r →
      processRecord data st r = some st' → Inv st') :
    ∀ fuel st, Inv st → Inv (parseLoop data fuel st).1 := by
  intro fuel
  induction fuel with
  | zero => intro st h; exact h
  | succ fuel ih =>
    intro st h
    rw [parseLoop_succ]
    cases hr : readRecord data st.pos with
    | stop e p => exact hpos st _ _ h
    | next r =>
      simp only
      cases hp : processRecord data st r with
      | none => exact hpos st _ _ h
      | some st' => exact ih st' (hstep st r st' h hr hp)

/-- Every line of output comes from a record read at some cursor position and processed
in some parser state. -/
theorem parseAll_output_provenance (data : Bytes) :
    ∀ e ∈ (parseAll data).1.output, ∃ p st st', readRecord data p = .next e.record ∧
      processRecord data st e.record = some st' ∧ st'.output = st.output ++ [e] := by
  refine parseLoop_invariant data
    (fun s => ∀ e ∈ s.output, ∃ p st st', readRecord data p = .next e.record ∧
      processRecord data st e.record = some st' ∧ st'.output = st.output ++ [e])
    (fun st p k h => h) ?_ (data.length + 1) ParserState.init ?_
  · intro st r st' h hr hp e he
    obtain ⟨-, -, m, hm⟩ := processRecord_some data st st' r hp
    rw [hm, List.mem_append, List.mem_singleton] at he
    rcases he with he | he
    · exact h e he
    · subst he
      exact ⟨st.pos, st, st', hr, hp, hm⟩
  · intro e he
    simp [ParserState.init] at he

/-- The measurement `processRecord` prints, branch by branch of the `if`/`else if` chain. -/
theorem processRecord_measurement (data : Bytes) (st st' : ParserState) (r : DataRecord)
    (m : Measurement) (h : processRecord data st r = some st')
    (ho : st'.output = st.output ++ [⟨r, m⟩]) :
    ((r.vifOriginal = 0x6D ∧ r.dataLen = 4) ∧
      m = .dateTime r.val32 (decodeDateTime r.val32)) ∨
    (¬ (r.vifOriginal = 0x6D ∧ r.dataLen = 4) ∧
      (r.vifOriginal &&& 0x7F = 0x13 ∧ r.dataLen = 4) ∧
      m = .volume (volumeOf r.val32) (isBackflow r.vifExtensions)
            (!isBackflow r.vifExtensions && decide (r.val32 = 0xFFFFFFFF)) r.storage) ∨
    (¬ (r.vifOriginal = 0x6D ∧ r.dataLen = 4) ∧
      ¬ (r.vifOriginal &&& 0x7F = 0x13 ∧ r.dataLen = 4) ∧
      (r.vifOriginal = 0xFD ∧ firstExtIs17 r.vifExtensions = true ∧ r.dataLen = 1) ∧
      ∃ stat, data[r.pos]? = some stat ∧ m = .status stat) ∨
    (¬ (r.vifOriginal = 0x6D ∧ r.dataLen = 4) ∧
      ¬ (r.vifOriginal &&& 0x7F = 0x13 ∧ r.dataLen = 4) ∧
      ¬ (r.vifOriginal = 0xFD ∧ firstExtIs17 r.vifExtensions = true ∧ r.dataLen = 1) ∧
      (r.vifOriginal = 0x6C ∧ r.dataLen = 2) ∧
      m = .date (decodeDate (r.val32 &&& 0xFFFF)) r.storage) ∨
    (¬ (r.vifOriginal = 0x6D ∧ r.dataLen = 4) ∧
      ¬ (r.vifOriginal &&& 0x7F = 0x13 ∧ r.dataLen = 4) ∧
      ¬ (r.vifOriginal = 0xFD ∧ firstExtIs17 r.vifExtensions = true ∧ r.dataLen = 1) ∧
      ¬ (r.vifOriginal = 0x6C ∧ r.dataLen = 2) ∧
      ∃ bytes, readBytes data r.pos r.dataLen = some bytes ∧
        m = .unknown r.dif r.vifOriginal bytes) := by
  have key : ∀ (s : ParserState) (m' : Measurement), some s = some st' →
      s.output = st.output ++ [⟨r, m'⟩] → m = m' := by
    intro s m' hs hso
    simp only [Option.some.injEq] at hs
    subst hs
    rw [ho] at hso
    have := List.append_cancel_left hso
    simp only [List.cons.injEq, Emitted.mk.injEq, true_and, and_true] at this
    exact this
  unfold processRecord at h
  simp only at h
  split_ifs at h with c1 c2 c3 c4 c5 c6
  · exact Or.inl ⟨c1, key _ _ h rfl⟩
  · exact Or.inr (Or.inl ⟨c1, c2, key _ _ h rfl⟩)
  · exact Or.inr (Or.inl ⟨c1, c2, key _ _ h rfl⟩)
  · exact Or.inr (Or.inl ⟨c1, c2, key _ _ h rfl⟩)
  · split at h
    · exact Option.noConfusion h
    · rename_i stat hstat
      exact Or.inr (Or.inr (Or.inl ⟨c1, c2, c5, stat, hstat, key _ _ h rfl⟩))
  · exact Or.inr (Or.inr (Or.inr (Or.inl ⟨c1, c2, c5, c6, key _ _ h rfl⟩)))
  · split at h
    · exact Option.noConfusion h
    · rename_i bytes hbytes
      exact Or.inr (Or.inr (Or.inr (Or.inr ⟨c1, c2, c5, c6, bytes, hbytes, key _ _ h rfl⟩)))

theorem firstExtIs17_iff (exts : List Nat) :
    firstExtIs17 exts = true ↔ exts.head? = some 0x17 := by
  cases exts with
  | nil => simp [firstExtIs17]
  | cons a l => simp [firstExtIs17]

/-- C5: every record in the output of `parseAll` was read from the buffer at some cursor
position, and the kind of its measurement is
date-time iff `vifOriginal == 0x6D` and `dataLen == 4`, volume iff
`(vifOriginal & 0x7F) == 0x13` and `dataLen == 4`, status iff `vifOriginal == 0xFD`, the
first VIF extension exists and is `0x17` and `dataLen == 1`, date iff `vifOriginal == 0x6C`
and `dataLen == 2`, and unknown iff none of the four holds; a record whose data length is
not 1, 2 or 4 is unknown, and no two of the four conditions hold together. -/
theorem parseAll_classification (data : Bytes) (e : Emitted)
    (he : e ∈ (parseAll data).1.output) :
    (∃ p, readRecord data p = .next e.record) ∧
    (e.measurement.kind = .dateTime ↔ e.record.vifOriginal = 0x6D ∧ e.record.dataLen = 4) ∧
    (e.measurement.kind = .volume ↔
      e.record.vifOriginal &&& 0x7F = 0x13 ∧ e.record.dataLen = 4) ∧
    (e.measurement.kind = .status ↔
      e.record.vifOriginal = 0xFD ∧ e.record.vifExtensions.head? = some 0x17 ∧
        e.record.dataLen = 1) ∧
    (e.measurement.kind = .date ↔ e.record.vifOriginal = 0x6C ∧ e.record.dataLen = 2) ∧
    (e.measurement.kind = .unknown ↔
      ¬ (e.record.vifOriginal = 0x6D ∧ e.record.dataLen = 4) ∧
      ¬ (e.record.vifOriginal &&& 0x7F = 0x13 ∧ e.record.dataLen = 4) ∧
      ¬ (e.record.vifOriginal = 0xFD ∧ e.record.vifExtensions.head? = some 0x17 ∧
          e.record.dataLen = 1) ∧
      ¬ (e.record.vifOriginal = 0x6C ∧ e.record.dataLen = 2)) ∧
    (e.record.dataLen ≠ 1 ∧ e.record.dataLen ≠ 2 ∧ e.record.dataLen ≠ 4 →
      e.measurement.kind = .unknown) ∧
    (4 < e.record.dataLen → e.measurement.kind = .unknown) ∧
    ¬ ((e.record.vifOriginal = 0x6D ∧ e.record.dataLen = 4) ∧
        (e.record.vifOriginal &&& 0x7F = 0x13 ∧ e.record.dataLen = 4)) ∧
    ¬ ((e.record.vifOriginal = 0x6D ∧ e.record.dataLen = 4) ∧
        (e.record.vifOriginal = 0xFD ∧ e.record.vifExtensions.head? = some 0x17 ∧
          e.record.dataLen = 1)) ∧
    ¬ ((e.record.vifOriginal = 0x6D ∧ e.record.dataLen = 4) ∧
        (e.record.vifOriginal = 0x6C ∧ e.record.dataLen = 2)) ∧
    ¬ ((e.record.vifOriginal &&& 0x7F = 0x13 ∧ e.record.dataLen = 4) ∧
        (e.record.vifOriginal = 0xFD ∧ e.record.vifExtensions.head? = some 0x17 ∧
          e.record.dataLen = 1)) ∧
    ¬ ((e.record.vifOriginal &&& 0x7F = 0x13 ∧ e.record.dataLen = 4) ∧
        (e.record.vifOriginal = 0x6C ∧ e.record.dataLen = 2)) ∧
    ¬ ((e.record.vifOriginal = 0xFD ∧ e.record.vifExtensions.head? = some 0x17 ∧
          e.record.dataLen = 1) ∧
        (e.record.vifOriginal = 0x6C ∧ e.record.dataLen = 2)) := by
  obtain ⟨p, st, st', hread, hp, ho⟩ := parseAll_output_provenance data e he
  refine ⟨⟨p, hread⟩, ?_⟩
  clear hread
  obtain ⟨r, m⟩ := e
  have hm := processRecord_measurement data st st' r m hp ho
  simp only [firstExtIs17_iff] at hm
  simp only
  have hAB : ¬ ((r.vifOriginal = 0x6D ∧ r.dataLen = 4) ∧
      (r.vifOriginal &&& 0x7F = 0x13 ∧ r.dataLen = 4)) := by
    rintro ⟨⟨h1, -⟩, h2, -⟩; rw [h1] at h2; exact absurd h2 (by decide)
  have hAC : ¬ ((r.vifOriginal = 0x6D ∧ r.dataLen = 4) ∧
      (r.vifOriginal = 0xFD ∧ r.vifExtensions.head? = some 0x17 ∧ r.dataLen = 1)) := by
    rintro ⟨⟨h1, -⟩, h2, -⟩; omega
  have hAD : ¬ ((r.vifOriginal = 0x6D ∧ r.dataLen = 4) ∧
      (r.vifOriginal = 0x6C ∧ r.dataLen = 2)) := by
    rintro ⟨⟨h1, -⟩, h2, -⟩; omega
  have hBC : ¬ ((r.vifOriginal &&& 0x7F = 0x13 ∧ r.dataLen = 4) ∧
      (r.vifOriginal = 0xFD ∧ r.vifExtensions.head? = some 0x17 ∧ r.dataLen = 1)) := by
    rintro ⟨⟨-, h1⟩, -, -, h2⟩; omega
  have hBD : ¬ ((r.vifOriginal &&& 0x7F = 0x13 ∧ r.dataLen = 4) ∧
      (r.vifOriginal = 0x6C ∧ r.dataLen = 2)) := by
    rintro ⟨⟨-, h1⟩, -, h2⟩; omega
  have hCD : ¬ ((r.vifOriginal = 0xFD ∧ r.vifExtensions.head? = some 0x17 ∧ r.dataLen = 1) ∧
      (r.vifOriginal = 0x6C ∧ r.dataLen = 2)) := by
    rintro ⟨⟨h1, -⟩, h2, -⟩; omega
  have hL : (r.dataLen ≠ 1 ∧ r.dataLen ≠ 2 ∧ r.dataLen ≠ 4) →
      ¬ (r.vifOriginal = 0x6D ∧ r.dataLen = 4) ∧
      ¬ (r.vifOriginal &&& 0x7F = 0x13 ∧ r.dataLen = 4) ∧
      ¬ (r.vifOriginal = 0xFD ∧ r.vifExtensions.head? = some 0x17 ∧ r.dataLen = 1) ∧
      ¬ (r.vifOriginal = 0x6C ∧ r.dataLen = 2) := by
    rintro ⟨h1, h2, h4⟩
    exact ⟨fun h => h4 h.2, fun h => h4 h.2, fun h => h1 h.2.2, fun h => h2 h.2⟩
  have hL4 : 4 < r.dataLen → (r.dataLen ≠ 1 ∧ r.dataLen ≠ 2 ∧ r.dataLen ≠ 4) := by
    intro h; omega
  generalize (r.vifOriginal = 0x6D ∧ r.dataLen = 4) = A at *
  generalize (r.vifOriginal &&& 0x7F = 0x13 ∧ r.dataLen = 4) = B at *
  generalize (r.vifOriginal = 0xFD ∧ r.vifExtensions.head? = some 0x17 ∧ r.dataLen = 1) = C at *
  generalize (r.vifOriginal = 0x6C ∧ r.dataLen = 2) = D at *
  generalize (r.dataLen ≠ 1 ∧ r.dataLen ≠ 2 ∧ r.dataLen ≠ 4) = L at *
  generalize (4 < r.dataLen) = L4 at *
  rcases hm with ⟨c1, rfl⟩ | ⟨c1, c2, rfl⟩ | ⟨c1, c2, c3, stat, -, rfl⟩ | ⟨c1, c2, c3, c4, rfl⟩ |
    ⟨c1, c2, c3, c4, bytes, -, rfl⟩
  all_goals
    refine ⟨?_, ?_, ?_, ?_, ?_, ?_, ?_, hAB, hAC, hAD, hBC, hBD, hCD⟩
    all_goals
      simp only [Measurement.kind, reduceCtorEq, false_iff, true_iff, iff_false, iff_true]
      first
        | assumption
        | trivial
        | exact ⟨c1, c2, c3, c4⟩
        | exact fun _ => rfl
        | exact fun _ => trivial
        | exact fun h => hAB ⟨by assumption, h⟩
        | exact fun h => hAC ⟨by assumption, h⟩
        | exact fun h => hAD ⟨by assumption, h⟩
        | exact fun h => hBC ⟨by assumption, h⟩
        | exact fun h => hBD ⟨by assumption, h⟩
        | exact fun h => hCD ⟨by assumption, h⟩
        | exact fun h => h.1 (by assumption)
        | exact fun h => h.2.1 (by assumption)
        | exact fun h => h.2.2.1 (by assumption)
        | exact fun h => h.2.2.2 (by assumption)
        | exact fun h => (hL h).1 (by assumption)
        | exact fun h => (hL h).2.1 (by assumption)
        | exact fun h => (hL h).2.2.1 (by assumption)
        | exact fun h => (hL h).2.2.2 (by assumption)
        | exact fun h => (hL (hL4 h)).1 (by assumption)
        | exact fun h => (hL (hL4 h)).2.1 (by assumption)
        | exact fun h => (hL (hL4 h)).2.2.1 (by assumption)
        | exact fun h => (hL (hL4 h)).2.2.2 (by assumption)

/-! ## The summary members -/

theorem isBackflow_eq_spec (exts : List Nat) : isBackflow exts = specIsBackflow exts := by
  cases exts with
  | nil => rfl
  | cons a l =>
    simp only [isBackflow, specIsBackflow, List.head?_cons]
    have : a &&& 0x7F = a % 128 := Nat.and_pow_two_sub_one_eq_mod a 7
    rw [this]

theorem head?_filterMap_snoc {α β : Type} (f : α → Option β) (l : List α) (e : α) :
    ((l ++ [e]).filterMap f).head? =
      match (l.filterMap f).head? with
      | some v => some v
      | none => f e := by
  rw [List.filterMap_append]
  cases h : l.filterMap f with
  | nil =>
    simp only [List.nil_append, List.head?_nil]
    cases hf : f e <;> simp [List.filterMap, hf]
  | cons a t => simp

theorem getLast?_filterMap_snoc {α β : Type} (f : α → Option β) (l : List α) (e : α) :
    ((l ++ [e]).filterMap f).getLast? =
      match f e with
      | some v => some v
      | none => (l.filterMap f).getLast? := by
  rw [List.filterMap_append]
  cases hf : f e with
  | none => simp [List.filterMap, hf]
  | some v => simp [List.filterMap, hf]

theorem specSummary_snoc (l : List Emitted) (e : Emitted) :
    specSummary (l ++ [e]) = specAggregate (specSummary l) e := by
  simp [specSummary, List.foldl_append]

/-- One complete iteration changes the summary members as one step of the fold of the
specification does. -/
theorem processRecord_summary (data : Bytes) (st st' : ParserState) (r : DataRecord)
    (m : Measurement) (h : processRecord data st r = some st')
    (ho : st'.output = st.output ++ [⟨r, m⟩]) :
    st'.summary = specAggregate st.summary ⟨r, m⟩ := by
  have key : ∀ (s : ParserState) (m' : Measurement), some s = some st' →
      s.output = st.output ++ [⟨r, m'⟩] → m = m' := by
    intro s m' hs hso
    simp only [Option.some.injEq] at hs
    subst hs
    rw [ho] at hso
    have := List.append_cancel_left hso
    simp only [List.cons.injEq, Emitted.mk.injEq, true_and, and_true] at this
    exact this
  unfold processRecord at h
  simp only at h
  split_ifs at h with c1 c2 c3 c4 c5 c6
  · have hm := key _ _ h rfl
    simp only [Option.some.injEq] at h
    subst h hm
    cases hv : st.hasVolume <;> cases hs : st.hasStatus <;>
      simp [ParserState.summary, specAggregate, specNormalVolume, specStatus, specDateTime, hv, hs]
  · have hm := key _ _ h rfl
    simp only [Option.some.injEq] at h
    subst h hm
    have hne : ¬ r.storage = 0 := by omega
    cases hv : st.hasVolume <;> cases hs : st.hasStatus <;> cases hd : st.hasDateTime <;>
      simp [ParserState.summary, specAggregate, specNormalVolume, specStatus, specDateTime,
        hv, hs, hd, hne]
  · have hm := key _ _ h rfl
    simp only [Option.some.injEq] at h
    subst h hm
    have h0 : r.storage = 0 := by omega
    simp only [Bool.and_eq_true, Bool.not_eq_eq_eq_not, Bool.not_true] at c4
    cases hs : st.hasStatus <;> cases hd : st.hasDateTime <;>
      simp [ParserState.summary, specAggregate, specNormalVolume, specStatus, specDateTime,
        c4.1, hs, hd, h0, ← isBackflow_eq_spec, c4.2]
  · have hm := key _ _ h rfl
    simp only [Option.some.injEq] at h
    subst h hm
    have h0 : r.storage = 0 := by omega
    cases hv : st.hasVolume <;> cases hs : st.hasStatus <;> cases hd : st.hasDateTime <;>
      cases hb : isBackflow r.vifExtensions <;>
      simp_all [ParserState.summary, specAggregate, specNormalVolume, specStatus, specDateTime,
        ← isBackflow_eq_spec]
  · split at h
    · exact Option.noConfusion h
    · have hm := key _ _ h rfl
      simp only [Option.some.injEq] at h
      subst h hm
      cases hv : st.hasVolume <;> cases hd : st.hasDateTime <;>
        simp [ParserState.summary, specAggregate, specNormalVolume, specStatus, specDateTime,
          hv, hd]
  · have hm := key _ _ h rfl
    simp only [Option.some.injEq] at h
    subst h hm
    cases hv : st.hasVolume <;> cases hs : st.hasStatus <;> cases hd : st.hasDateTime <;>
      simp [ParserState.summary, specAggregate, specNormalVolume, specStatus, specDateTime,
        hv, hs, hd]
  · split at h
    · exact Option.noConfusion h
    · have hm := key _ _ h rfl
      simp only [Option.some.injEq] at h
      subst h hm
      cases hv : st.hasVolume <;> cases hs : st.hasStatus <;> cases hd : st.hasDateTime <;>
        simp [ParserState.summary, specAggregate, specNormalVolume, specStatus, specDateTime,
          hv, hs, hd]

/-- The summary members, seen through their `has...` flags, are at every moment the fold of
the specification over the output so far: the first normal volume, the last status and the
last date-time. -/
theorem parseAll_summary_invariant (data : Bytes) :
    (parseAll data).1.summary = specSummary (parseAll data).1.output ∧
    (parseAll data).1.summary.totalVolume =
      ((parseAll data).1.output.filterMap specNormalVolume).head? ∧
    (parseAll data).1.summary.status =
      ((parseAll data).1.output.filterMap specStatus).getLast? ∧
    (parseAll data).1.summary.dateTime =
      ((parseAll data).1.output.filterMap specDateTime).getLast? := by
  refine parseLoop_invariant data
    (fun s => s.summary = specSummary s.output ∧
      s.summary.totalVolume = (s.output.filterMap specNormalVolume).head? ∧
      s.summary.status = (s.output.filterMap specStatus).getLast? ∧
      s.summary.dateTime = (s.output.filterMap specDateTime).getLast?)
    (fun st p k h => h) ?_ (data.length + 1) ParserState.init ?_
  · intro st r st' ⟨h1, h2, h3, h4⟩ _ hp
    obtain ⟨-, -, m, hm⟩ := processRecord_some data st st' r hp
    have hs := processRecord_summary data st st' r m hp hm
    rw [hm, specSummary_snoc, head?_filterMap_snoc, getLast?_filterMap_snoc,
      getLast?_filterMap_snoc, ← h1, ← h2, ← h3, ← h4, hs]
    refine ⟨rfl, ?_, ?_, ?_⟩
    · cases hc : st.summary.totalVolume <;> simp [specAggregate, hc]
    · cases hc : specStatus ⟨r, m⟩ <;> simp [specAggregate, hc]
    · cases hc : specDateTime ⟨r, m⟩ <;> simp [specAggregate, hc]
  · exact ⟨rfl, rfl, rfl, rfl⟩

/-! ## Fuel and truncation -/

theorem readDif_stop (data : Bytes) (p q : Nat) (e : Exit) (h : readDif data p = .stop e q) :
    e = .endOfData ∨ e = .emptyBreak ∨ e = .outOfBounds := by
  unfold readDif at h
  simp only at h
  repeat' split at h
  all_goals first
    | exact Step.noConfusion h
    | (simp only [Step.stop.injEq] at h; rcases h with ⟨rfl, -⟩; simp)

theorem readVif_stop (data : Bytes) (p q : Nat) (e : Exit) (h : readVif data p = .stop e q) :
    e = .headerBreak ∨ e = .outOfBounds := by
  unfold readVif at h
  repeat' split at h
  all_goals first
    | exact Step.noConfusion h
    | (simp only [Step.stop.injEq] at h; rcases h with ⟨rfl, -⟩; simp)

theorem resolveDataLen_stop (data : Bytes) (c p q : Nat) (e : Exit)
    (h : resolveDataLen data c p = .stop e q) : e = .outOfBounds := by
  by_cases hc : c = 0x0D
  · subst hc
    simp only [resolveDataLen] at h
    repeat' split at h
    all_goals first
      | exact Step.noConfusion h
      | (simp only [Step.stop.injEq] at h; rcases h with ⟨rfl, -⟩; rfl)
  · obtain ⟨l, hl⟩ := (resolveDataLen_static data data c p hc).2
    rw [hl] at h
    exact Step.noConfusion h

theorem readHeader_stop (data : Bytes) (p q : Nat) (e : Exit)
    (h : readHeader data p = .stop e q) :
    e = .endOfData ∨ e = .emptyBreak ∨ e = .headerBreak ∨ e = .outOfBounds := by
  unfold readHeader at h
  cases hd : readDif data p with
  | stop e' q' =>
    rw [hd] at h
    simp only [Step.bind, Step.stop.injEq] at h
    rcases readDif_stop data p q' e' hd with h1 | h1 | h1 <;> rw [← h.1, h1] <;> simp
  | next d =>
    rw [hd] at h
    simp only [Step.bind] at h
    cases hv : readVif data d.2.2 with
    | stop e' q' =>
      rw [hv] at h
      simp only [Step.stop.injEq] at h
      rcases readVif_stop data _ q' e' hv with h1 | h1 <;> rw [← h.1, h1] <;> simp
    | next v =>
      rw [hv] at h
      simp only at h
      cases hl : resolveDataLen data (d.1 &&& 0x0F) v.2.2 with
      | stop e' q' =>
        rw [hl] at h
        simp only [Step.stop.injEq] at h
        rw [← h.1, resolveDataLen_stop data _ _ q' e' hl]; simp
      | next l => rw [hl] at h; exact Step.noConfusion h

theorem readRecord_stop (data : Bytes) (p q : Nat) (e : Exit)
    (h : readRecord data p = .stop e q) :
    e = .endOfData ∨ e = .emptyBreak ∨ e = .headerBreak ∨ e = .incompleteRecord ∨
      e = .outOfBounds := by
  unfold readRecord at h
  cases hh : readHeader data p with
  | stop e' q' =>
    rw [hh] at h
    simp only [Step.stop.injEq] at h
    rcases readHeader_stop data p q' e' hh with h1 | h1 | h1 | h1 <;> rw [← h.1, h1] <;> simp
  | next hd =>
    rw [hh] at h
    simp only at h
    split_ifs at h
    · simp only [Step.stop.injEq] at h; rw [← h.1]; simp
    · split at h
      · simp only [Step.stop.injEq] at h; rw [← h.1]; simp
      · exact Step.noConfusion h


theorem parseLoop_stop (data : Bytes) (fuel : Nat) (st : ParserState) (e : Exit) (p : Nat)
    (h : readRecord data st.pos = .stop e p) :
    parseLoop data (fuel + 1) st =
      ({ st with pos := p,
                 recordNum := if e.afterRecordLine then st.recordNum + 1 else st.recordNum }, e) := by
  rw [parseLoop_succ, h]

theorem parseLoop_next (data : Bytes) (fuel : Nat) (st st' : ParserState) (r : DataRecord)
    (h : readRecord data st.pos = .next r) (hp : processRecord data st r = some st') :
    parseLoop data (fuel + 1) st = parseLoop data fuel st' := by
  rw [parseLoop_succ, h]
  simp only [hp]

theorem parseLoop_fail (data : Bytes) (fuel : Nat) (st : ParserState) (r : DataRecord)
    (h : readRecord data st.pos = .next r) (hp : processRecord data st r = none) :
    parseLoop data (fuel + 1) st =
      ({ st with pos := r.pos, recordNum := st.recordNum + 1 }, .outOfBounds) := by
  rw [parseLoop_succ, h]
  simp only [hp]

/-- The output only grows, and every record added lies at or after the cursor. -/
theorem parseLoop_output (data : Bytes) (fuel : Nat) (st : ParserState) :
    ∃ new, (parseLoop data fuel st).1.output = st.output ++ new ∧
      ∀ e ∈ new, st.pos + 2 ≤ e.record.pos := by
  induction fuel generalizing st with
  | zero => exact ⟨[], by simp [parseLoop], by simp⟩
  | succ fuel ih =>
    cases hr : readRecord data st.pos with
    | stop e p => rw [parseLoop_stop data fuel st e p hr]; exact ⟨[], by simp, by simp⟩
    | next r =>
      cases hp : processRecord data st r with
      | none => rw [parseLoop_fail data fuel st r hr hp]; exact ⟨[], by simp, by simp⟩
      | some st' =>
        rw [parseLoop_next data fuel st st' r hr hp]
        obtain ⟨new, h1, h2⟩ := ih st'
        obtain ⟨q1, -, m, hm⟩ := processRecord_some data st st' r hp
        have hpos := (readRecord_pos data st.pos r hr).1
        refine ⟨⟨r, m⟩ :: new, by rw [h1, hm]; simp, ?_⟩
        intro e he
        rcases List.mem_cons.1 he with rfl | he
        · exact hpos
        · have := h2 e he
          omega

/-- Enough fuel: the loop is left through one of its own exits. -/
theorem parseLoop_fuel_enough (data : Bytes) (fuel : Nat) (st : ParserState)
    (h : (data.length - st.pos) / 2 + 1 ≤ fuel) :
    (parseLoop data fuel st).2 ≠ .outOfFuel := by
  induction fuel generalizing st with
  | zero => omega
  | succ fuel ih =>
    cases hr : readRecord data st.pos with
    | stop e p =>
      rw [parseLoop_stop data fuel st e p hr]
      simp only
      intro he
      subst he
      rcases readRecord_stop data st.pos p _ hr with h1 | h1 | h1 | h1 | h1 <;>
        exact Exit.noConfusion h1
    | next r =>
      cases hp : processRecord data st r with
      | none => rw [parseLoop_fail data fuel st r hr hp]; simp
      | some st' =>
        rw [parseLoop_next data fuel st st' r hr hp]
        obtain ⟨q1, -, -⟩ := processRecord_some data st st' r hp
        obtain ⟨p1, p2, p3⟩ := readRecord_pos data st.pos r hr
        apply ih
        rw [q1]
        omega

/-- `parseAll` never runs out of fuel: the model returns what the loop of the source
returns. -/
theorem parseAll_fuel_enough (data : Bytes) : (parseAll data).2 ≠ .outOfFuel :=
  parseLoop_fuel_enough data (data.length + 1) ParserState.init
    (Nat.succ_le_succ (le_trans (Nat.div_le_self _ _) (Nat.sub_le _ _)))

/-- More fuel does not change a run that was left through one of the loop's own exits. -/
theorem parseLoop_fuel_mono (data : Bytes) (fuel fuel' : Nat) (st : ParserState)
    (h : (parseLoop data fuel st).2 ≠ .outOfFuel) (hf : fuel ≤ fuel') :
    parseLoop data fuel' st = parseLoop data fuel st := by
  induction fuel generalizing st fuel' with
  | zero => exact absurd rfl h
  | succ fuel ih =>
    obtain ⟨k, rfl⟩ : ∃ k, fuel' = k + 1 := ⟨fuel' - 1, by omega⟩
    cases hr : readRecord data st.pos with
    | stop e p => rw [parseLoop_stop data fuel st e p hr, parseLoop_stop data k st e p hr]
    | next r =>
      cases hp : processRecord data st r with
      | none => rw [parseLoop_fail data fuel st r hr hp, parseLoop_fail data k st r hr hp]
      | some st' =>
        rw [parseLoop_next data fuel st st' r hr hp] at h ⊢
        rw [parseLoop_next data k st st' r hr hp]
        exact ih k st' h (by omega)

theorem not_eq_append_snoc {α : Type} (l mid : List α) (e : α) (h : l = l ++ (mid ++ [e])) :
    False := by
  have := congrArg List.length h
  simp at this

/-- The run on a buffer whose last record is cut inside its data: the records before the
last one are processed as in the run on the whole buffer, and the last one is reported as
incomplete. -/
theorem parseLoop_truncate (data : Bytes) (n : Nat) (ek : Emitted)
    (hend : ek.record.pos + ek.record.dataLen = data.length)
    (hn1 : ek.record.pos ≤ n) (hn2 : n < data.length) :
    ∀ (fuel : Nat) (st : ParserState) (mid : List Emitted),
      (parseLoop data fuel st).1.output = st.output ++ (mid ++ [ek]) →
      (parseLoop (data.take n) (mid.length + 1) st).2 = .incompleteRecord ∧
      (parseLoop (data.take n) (mid.length + 1) st).1.members =
        (parseLoop data mid.length st).1.members ∧
      (parseLoop data mid.length st).1.output = st.output ++ mid := by
  intro fuel
  induction fuel with
  | zero =>
    intro st mid h
    simp only [parseLoop] at h
    exact (not_eq_append_snoc _ _ _ h).elim
  | succ fuel ih =>
    intro st mid h
    cases hr : readRecord data st.pos with
    | stop e p =>
      rw [parseLoop_stop data fuel st e p hr] at h
      exact (not_eq_append_snoc _ _ _ h).elim
    | next r =>
      cases hp : processRecord data st r with
      | none =>
        rw [parseLoop_fail data fuel st r hr hp] at h
        exact (not_eq_append_snoc _ _ _ h).elim
      | some st' =>
        rw [parseLoop_next data fuel st st' r hr hp] at h
        obtain ⟨q1, -, m, hm⟩ := processRecord_some data st st' r hp
        obtain ⟨new, h1, h2⟩ := parseLoop_output data fuel st'
        rw [h1, hm, List.append_assoc] at h
        have hl := List.append_cancel_left h
        cases mid with
        | nil =>
          simp only [List.nil_append, List.singleton_append, List.cons.injEq] at hl
          obtain ⟨hek, -⟩ := hl
          subst hek
          have hn1' : r.pos ≤ n := hn1
          have hend' : r.pos + r.dataLen = data.length := hend
          have hi := readRecord_take_incomplete data st.pos r hr n hn1' (by omega) (by omega)
          simp only [List.length_nil, Nat.zero_add]
          rw [parseLoop_stop (data.take n) 0 st _ _ hi]
          exact ⟨rfl, rfl, by simp [parseLoop]⟩
        | cons e1 mid' =>
          simp only [List.singleton_append, List.cons_append, List.cons.injEq] at hl
          obtain ⟨he1, hnew⟩ := hl
          rw [List.nil_append] at hnew
          subst he1
          have hmem : ek ∈ new := by rw [hnew]; simp
          have hge := h2 ek hmem
          have hk : r.pos + r.dataLen ≤ n := by omega
          have hr' := readRecord_take data st.pos r hr n hk (by omega)
          have hp' : processRecord (data.take n) st r = some st' := by
            rw [processRecord_take data st r n hk]; exact hp
          simp only [List.length_cons]
          rw [parseLoop_next (data.take n) (mid'.length + 1) st st' r hr' hp',
            parseLoop_next data mid'.length st st' r hr hp]
          have hih := ih st' mid' (by rw [h1, hnew])
          refine ⟨hih.1, hih.2.1, ?_⟩
          rw [hih.2.2, hm]
          simp

/-! ## Classification, summary and truncation of the output -/

/-- The status record of `sampleBuffer` is in the output of `parseAll`, and its kind is
status because its VIF is `0xFD`, its first extension `0x17` and its data length 1. -/
theorem parseAll_classification_witness :
    sampleStatus ∈ (parseAll sampleBuffer).1.output ∧
    (sampleStatus.measurement.kind = .status ↔
      sampleStatus.record.vifOriginal = 0xFD ∧
      sampleStatus.record.vifExtensions.head? = some 0x17 ∧
      sampleStatus.record.dataLen = 1) :=
  ⟨by decide, (parseAll_classification sampleBuffer sampleStatus (by decide)).2.2.2.1⟩

/-- C6: when `parseAll` returns, the summary members (each taken with its `has...` flag) are
the fold of the specification over the output in order: the total volume is the value of
the first volume record with storage number 0 that is not backflow, if there is one; the
status is the data byte of the last status record; the date-time is the raw value of the
last date-time record; date and unknown records contribute nothing. -/
theorem parseAll_summary_fold (data : Bytes) :
    (parseAll data).1.summary = specSummary (parseAll data).1.output ∧
    (parseAll data).1.summary.totalVolume =
      ((parseAll data).1.output.filterMap specNormalVolume).head? ∧
    (parseAll data).1.summary.status =
      ((parseAll data).1.output.filterMap specStatus).getLast? ∧
    (parseAll data).1.summary.dateTime =
      ((parseAll data).1.output.filterMap specDateTime).getLast? ∧
    (∀ e ∈ (parseAll data).1.output,
      (e.measurement.kind = .date ∨ e.measurement.kind = .unknown) →
        specNormalVolume e = none ∧ specStatus e = none ∧ specDateTime e = none) :=
  ⟨(parseAll_summary_invariant data).1, (parseAll_summary_invariant data).2.1,
   (parseAll_summary_invariant data).2.2.1, (parseAll_summary_invariant data).2.2.2,
   fun e _ hk => by
     cases hm : e.measurement <;> rw [hm] at hk <;>
       simp [Measurement.kind] at hk <;>
       simp [specNormalVolume, specStatus, specDateTime, hm]⟩

/-- C7: let `parseAll` decode the buffer into the records `rs` followed by a last record
`ek` whose data ends where the buffer ends, and cut between 1 and `ek.record.dataLen` bytes
off the end of the buffer.  Decoding the cut buffer leaves the loop through the
`Incomplete record` exit (so not through an out-of-bounds read), prints exactly the
measurements `rs`, and leaves the summary members as they were in the run on the whole
buffer after `rs.length` records. -/
theorem parseAll_truncated_last_record (data : Bytes) (rs : List Emitted) (ek : Emitted)
    (j : Nat) (hout : (parseAll data).1.output = rs ++ [ek])
    (hwhole : ek.record.pos + ek.record.dataLen = data.length)
    (hj1 : 1 ≤ j) (hj2 : j ≤ ek.record.dataLen) :
    (parseAll (data.take (data.length - j))).2 = .incompleteRecord ∧
    (parseAll (data.take (data.length - j))).1.output = rs ∧
    (parseLoop data rs.length ParserState.init).1.output = rs ∧
    (parseAll (data.take (data.length - j))).1.members =
      (parseLoop data rs.length ParserState.init).1.members ∧
    (parseAll (data.take (data.length - j))).1.summary = specSummary rs := by
  have hn1 : ek.record.pos ≤ data.length - j := by omega
  have hn2 : data.length - j < data.length := by omega
  have hcore := parseLoop_truncate data (data.length - j) ek hwhole hn1 hn2
    (data.length + 1) ParserState.init rs (by
      have : (parseLoop data (data.length + 1) ParserState.init).1.output = rs ++ [ek] := hout
      rw [this]; rfl)
  obtain ⟨c1, c2, c3⟩ := hcore
  have hlen : (data.take (data.length - j)).length = data.length - j := by
    rw [List.length_take]; omega
  have hE : parseAll (data.take (data.length - j)) =
      parseLoop (data.take (data.length - j)) (rs.length + 1) ParserState.init := by
    have hne : (parseLoop (data.take (data.length - j)) (rs.length + 1) ParserState.init).2
        ≠ .outOfFuel := by rw [c1]; exact fun h => Exit.noConfusion h
    have hne2 : (parseAll (data.take (data.length - j))).2 ≠ .outOfFuel :=
      parseLoop_fuel_enough _ _ _ (by
        rw [hlen]
        have : (data.length - j - ParserState.init.pos) / 2 ≤ data.length - j :=
          le_trans (Nat.div_le_self _ _) (Nat.sub_le _ _)
        omega)
    have m1 := parseLoop_fuel_mono (data.take (data.length - j)) (rs.length + 1)
      (max (rs.length + 1) (data.length - j + 1)) ParserState.init hne (le_max_left _ _)
    have m2 := parseLoop_fuel_mono (data.take (data.length - j))
      ((data.take (data.length - j)).length + 1)
      (max (rs.length + 1) (data.length - j + 1)) ParserState.init hne2
      (by rw [hlen]; exact le_max_right _ _)
    unfold parseAll
    rw [← m2, m1]
  have c3' : (parseLoop data rs.length ParserState.init).1.output = rs := by
    rw [c3]; rfl
  have hmem : (parseAll (data.take (data.length - j))).1.members =
      (parseLoop data rs.length ParserState.init).1.members := by rw [hE]; exact c2
  have hout' : (parseAll (data.take (data.length - j))).1.output = rs := by
    have := congrArg (fun x => x.2.2.2.2.2.2) hmem
    simp only [ParserState.members] at this
    rw [this, c3']
  refine ⟨by rw [hE]; exact c1, hout', c3', hmem, ?_⟩
  rw [(parseAll_summary_invariant _).1, hout']


theorem sampleBuffer_output :
    (parseAll sampleBuffer).1.output = sampleRecords ++ [sampleLast] := rfl

/-- The last record of `sampleBuffer` has 3 data bytes; with 2 of them cut off, the five
records before it are printed and the loop is left through `Incomplete record`. -/
theorem parseAll_truncated_last_record_witness :
    (parseAll sampleBuffer).1.output = sampleRecords ++ [sampleLast] ∧
    sampleLast.record.pos + sampleLast.record.dataLen = sampleBuffer.length ∧
    1 ≤ 2 ∧ 2 ≤ sampleLast.record.dataLen ∧
    (parseAll (sampleBuffer.take (sampleBuffer.length - 2))).2 = .incompleteRecord ∧
    (parseAll (sampleBuffer.take (sampleBuffer.length - 2))).1.output = sampleRecords ∧
    (parseLoop sampleBuffer sampleRecords.length ParserState.init).1.output = sampleRecords ∧
    (parseAll (sampleBuffer.take (sampleBuffer.length - 2))).1.members =
      (parseLoop sampleBuffer sampleRecords.length ParserState.init).1.members ∧
    (parseAll (sampleBuffer.take (sampleBuffer.length - 2))).1.summary =
      specSummary sampleRecords :=
  ⟨sampleBuffer_output, by decide, by decide, by decide,
   parseAll_truncated_last_record sampleBuffer sampleRecords sampleLast 2
     sampleBuffer_output (by decide) (by decide) (by decide)⟩

/-! ## Field decoders -/

theorem toInt32_of_lt (v : Nat) (h : v < 2 ^ 31) : toInt32 v = (v : Int) := by
  unfold toInt32
  have h1 : v % 2 ^ 32 = v := Nat.mod_eq_of_lt (by omega)
  rw [h1, if_pos h]

theorem land_3F (x : Nat) : x &&& 0x3F = x % 64 := Nat.and_pow_two_sub_one_eq_mod x 6
theorem land_1F (x : Nat) : x &&& 0x1F = x % 32 := Nat.and_pow_two_sub_one_eq_mod x 5
theorem land_0F (x : Nat) : x &&& 0x0F = x % 16 := Nat.and_pow_two_sub_one_eq_mod x 4
theorem land_7F (x : Nat) : x &&& 0x7F = x % 128 := Nat.and_pow_two_sub_one_eq_mod x 7
theorem land_FFFF (x : Nat) : x &&& 0xFFFF = x % 65536 := Nat.and_pow_two_sub_one_eq_mod x 16

theorem year_wrap (y : Nat) (hy : y < 128) :
    toInt32 ((2000 + (y + (2 ^ 32 - 3)) % 2 ^ 32) % 2 ^ 32) = 2000 + (y : Int) - 3 := by
  have h : (2000 + (y + (2 ^ 32 - 3)) % 2 ^ 32) % 2 ^ 32 = 1997 + y := by
    norm_num
    omega
  rw [h, toInt32_of_lt _ (by norm_num; omega)]
  push_cast
  ring

theorem decodeDateTime_eq (raw : Nat) :
    decodeDateTime raw =
      { year := 2000 + ((raw / 2 ^ 25 % 128 : Nat) : Int) - 3
        month := ((raw / 2 ^ 21 % 16 : Nat) : Int)
        day := ((raw / 2 ^ 16 % 32 : Nat) : Int)
        hour := ((raw / 2 ^ 8 % 32 : Nat) : Int)
        minute := ((raw % 64 : Nat) : Int) } := by
  unfold decodeDateTime
  simp only [land_3F, land_1F, land_0F, land_7F, Nat.shiftRight_eq_div_pow, pow_zero, Nat.div_one]
  have hmi : raw % 64 < 64 := Nat.mod_lt _ (by decide)
  have hho : raw / 2 ^ 8 % 32 < 32 := Nat.mod_lt _ (by decide)
  have hda : raw / 2 ^ 16 % 32 < 32 := Nat.mod_lt _ (by decide)
  have hmo : raw / 2 ^ 21 % 16 < 16 := Nat.mod_lt _ (by decide)
  have hye : raw / 2 ^ 25 % 128 < 128 := Nat.mod_lt _ (by decide)
  rw [toInt32_of_lt (raw % 64) (by omega), toInt32_of_lt (raw / 2 ^ 8 % 32) (by omega),
    toInt32_of_lt (raw / 2 ^ 16 % 32) (by omega), toInt32_of_lt (raw / 2 ^ 21 % 16) (by omega)]
  rw [year_wrap _ hye]

/-- C8: `decodeDateTime` yields minute = bits 0..5, hour = bits 8..12, day = bits 16..20,
month = bits 21..24 and year = 2000 + bits 25..31 - 3 of the raw value; nothing is
validated, so the fields range over 0..63, 0..31, 0..31, 0..15 and 1997..2124, the
extremes being reached at the raw values `0xFFFFFFFF` and 0; and the timestamp of the
summary in `parseData` has the same fields. -/
theorem decodeDateTime_fields (raw : Nat) :
    (decodeDateTime raw).minute = ((raw % 64 : Nat) : Int) ∧
    (decodeDateTime raw).hour = ((raw / 2 ^ 8 % 32 : Nat) : Int) ∧
    (decodeDateTime raw).day = ((raw / 2 ^ 16 % 32 : Nat) : Int) ∧
    (decodeDateTime raw).month = ((raw / 2 ^ 21 % 16 : Nat) : Int) ∧
    (decodeDateTime raw).year = 2000 + ((raw / 2 ^ 25 % 128 : Nat) : Int) - 3 ∧
    (0 ≤ (decodeDateTime raw).minute ∧ (decodeDateTime raw).minute ≤ 63) ∧
    (0 ≤ (decodeDateTime raw).hour ∧ (decodeDateTime raw).hour ≤ 31) ∧
    (0 ≤ (decodeDateTime raw).day ∧ (decodeDateTime raw).day ≤ 31) ∧
    (0 ≤ (decodeDateTime raw).month ∧ (decodeDateTime raw).month ≤ 15) ∧
    (1997 ≤ (decodeDateTime raw).year ∧ (decodeDateTime raw).year ≤ 2124) ∧
    decodeDateTime 0xFFFFFFFF =
      { year := 2124, month := 15, day := 31, hour := 31, minute := 63 } ∧
    decodeDateTime 0 = { year := 1997, month := 0, day := 0, hour := 0, minute := 0 } ∧
    summaryTimestamp raw = decodeDateTime raw := by
  have hmi : raw % 64 < 64 := Nat.mod_lt _ (by decide)
  have hho : raw / 2 ^ 8 % 32 < 32 := Nat.mod_lt _ (by decide)
  have hda : raw / 2 ^ 16 % 32 < 32 := Nat.mod_lt _ (by decide)
  have hmo : raw / 2 ^ 21 % 16 < 16 := Nat.mod_lt _ (by decide)
  have hye : raw / 2 ^ 25 % 128 < 128 := Nat.mod_lt _ (by decide)
  rw [decodeDateTime_eq raw]
  refine ⟨rfl, rfl, rfl, rfl, rfl, ?_, ?_, ?_, ?_, ?_, by decide, by decide, ?_⟩
  · simp only; omega
  · simp only; omega
  · simp only; omega
  · simp only; omega
  · simp only; omega
  · rw [← decodeDateTime_eq raw]; rfl

/-- C9: `decodeDate` yields `Not set` (no fields) exactly for the raw value `0xFFFF`, and
for every other raw value day = bits 0..4, month = bits 5..8 and year = 2000 + bits
9..15. -/
theorem decodeDate_fields (raw : Nat) :
    (decodeDate raw = none ↔ raw = 0xFFFF) ∧
    decodeDate raw =
      (if raw = 0xFFFF then none
       else some { year := 2000 + ((raw / 2 ^ 9 % 128 : Nat) : Int)
                   month := ((raw / 2 ^ 5 % 16 : Nat) : Int)
                   day := ((raw % 32 : Nat) : Int) }) ∧
    decodeDate 0xFFFF = none ∧
    decodeDate 0xFFFE = some { year := 2127, month := 15, day := 30 } := by
  have h : decodeDate raw =
      (if raw = 0xFFFF then none
       else some { year := 2000 + ((raw / 2 ^ 9 % 128 : Nat) : Int)
                   month := ((raw / 2 ^ 5 % 16 : Nat) : Int)
                   day := ((raw % 32 : Nat) : Int) }) := by
    unfold decodeDate
    simp only [land_1F, land_0F, land_7F, Nat.shiftRight_eq_div_pow]
  refine ⟨?_, h, by decide, by decide⟩
  rw [h]
  by_cases hr : raw = 0xFFFF
  · simp [hr]
  · simp [hr]

/-! ## Volume -/

theorem lor_shift_eq_add (lo hi i : Nat) (h : lo < 2 ^ i) : lo ||| (hi <<< i) = lo + 2 ^ i * hi := by
  rw [Nat.shiftLeft_eq, Nat.lor_comm, Nat.mul_comm hi, ← Nat.mul_add_lt_is_or h, Nat.add_comm]

theorem val32_little_endian (b0 b1 b2 b3 : Nat) (h0 : b0 < 256) (h1 : b1 < 256)
    (h2 : b2 < 256) (h3 : b3 < 256) :
    b0 % 2 ^ 32 ||| (b1 <<< 8) % 2 ^ 32 ||| (b2 <<< 16) % 2 ^ 32 ||| (b3 <<< 24) % 2 ^ 32 =
      b0 + 2 ^ 8 * b1 + 2 ^ 16 * b2 + 2 ^ 24 * b3 := by
  have e0 : b0 % 2 ^ 32 = b0 := Nat.mod_eq_of_lt (by omega)
  have e1 : (b1 <<< 8) % 2 ^ 32 = b1 <<< 8 := by
    rw [Nat.shiftLeft_eq]; exact Nat.mod_eq_of_lt (by omega)
  have e2 : (b2 <<< 16) % 2 ^ 32 = b2 <<< 16 := by
    rw [Nat.shiftLeft_eq]; exact Nat.mod_eq_of_lt (by omega)
  have e3 : (b3 <<< 24) % 2 ^ 32 = b3 <<< 24 := by
    rw [Nat.shiftLeft_eq]; exact Nat.mod_eq_of_lt (by omega)
  rw [e0, e1, e2, e3, lor_shift_eq_add b0 b1 8 (by omega),
    lor_shift_eq_add _ b2 16 (by omega), lor_shift_eq_add _ b3 24 (by omega)]

theorem composeVal32_four (data : Bytes) (pos v : Nat)
    (h : composeVal32 data pos 4 = some v) :
    ∃ b0 b1 b2 b3, data[pos]? = some b0 ∧ data[pos + 1]? = some b1 ∧
      data[pos + 2]? = some b2 ∧ data[pos + 3]? = some b3 ∧
      v = b0 % 2 ^ 32 ||| (b1 <<< 8) % 2 ^ 32 ||| (b2 <<< 16) % 2 ^ 32 |||
        (b3 <<< 24) % 2 ^ 32 := by
  unfold composeVal32 at h
  simp only [gt_iff_lt, Nat.ofNat_pos, ↓reduceIte, Nat.one_lt_ofNat, decide_True,
    Nat.reduceLT, orByte] at h
  cases h0 : data[pos]? with
  | none => rw [h0] at h; exact Option.noConfusion h
  | some b0 =>
    cases h1 : data[pos + 1]? with
    | none => rw [h0, h1] at h; simp at h
    | some b1 =>
      cases h2 : data[pos + 2]? with
      | none => rw [h0, h1, h2] at h; simp at h
      | some b2 =>
        cases h3 : data[pos + 3]? with
        | none => rw [h0, h1, h2, h3] at h; simp at h
        | some b3 =>
          rw [h0, h1, h2, h3] at h
          simp only [Option.bind, Option.some.injEq] at h
          exact ⟨b0, b1, b2, b3, rfl, rfl, rfl, rfl, h.symm⟩

/-- C10: for a volume record of a buffer of bytes, the value printed is the four data bytes
composed little-endian into a 32-bit word, read as a two's-complement 32-bit integer and
divided by 1000, as a rational number; raw values from `2^31` on give negative volumes, and
`0xFFFFFFFF` gives `-1/1000`. -/
theorem parseAll_volume_value (data : Bytes) (e : Emitted)
    (hbytes : ∀ b ∈ data, b < 256)
    (he : e ∈ (parseAll data).1.output) (hk : e.measurement.kind = .volume) :
    ∃ b0 b1 b2 b3 raw backflow notAvailable,
      data[e.record.pos]? = some b0 ∧ data[e.record.pos + 1]? = some b1 ∧
      data[e.record.pos + 2]? = some b2 ∧ data[e.record.pos + 3]? = some b3 ∧
      raw = b0 + 2 ^ 8 * b1 + 2 ^ 16 * b2 + 2 ^ 24 * b3 ∧ raw < 2 ^ 32 ∧
      e.record.val32 = raw ∧
      e.measurement =
        .volume ((if raw < 2 ^ 31 then (raw : ℚ) else (raw : ℚ) - 2 ^ 32) / 1000)
          backflow notAvailable e.record.storage ∧
      (2 ^ 31 ≤ raw → (if raw < 2 ^ 31 then (raw : ℚ) else (raw : ℚ) - 2 ^ 32) / 1000 < 0) ∧
      (raw = 0xFFFFFFFF →
        (if raw < 2 ^ 31 then (raw : ℚ) else (raw : ℚ) - 2 ^ 32) / 1000 = -1 / 1000) := by
  obtain ⟨p, st, st', hr, hp, ho⟩ := parseAll_output_provenance data e he
  obtain ⟨r, m⟩ := e
  simp only at hr hp ho hk ⊢
  obtain ⟨-, -, hv⟩ := readRecord_next data p r hr
  have hm := processRecord_measurement data st st' r m hp ho
  rcases hm with ⟨c1, rfl⟩ | ⟨c1, c2, rfl⟩ | ⟨c1, c2, c3, stat, -, rfl⟩ | ⟨c1, c2, c3, c4, rfl⟩ |
    ⟨c1, c2, c3, c4, bytes, -, rfl⟩
  · exact Kind.noConfusion hk
  · rw [c2.2] at hv
    obtain ⟨b0, b1, b2, b3, e0, e1, e2, e3, ev⟩ := composeVal32_four data r.pos r.val32 hv
    have l0 : b0 < 256 := hbytes b0 (List.getElem?_mem e0)
    have l1 : b1 < 256 := hbytes b1 (List.getElem?_mem e1)
    have l2 : b2 < 256 := hbytes b2 (List.getElem?_mem e2)
    have l3 : b3 < 256 := hbytes b3 (List.getElem?_mem e3)
    rw [val32_little_endian b0 b1 b2 b3 l0 l1 l2 l3] at ev
    have hlt : b0 + 2 ^ 8 * b1 + 2 ^ 16 * b2 + 2 ^ 24 * b3 < 2 ^ 32 := by omega
    have hvol : volumeOf r.val32 =
        (if b0 + 2 ^ 8 * b1 + 2 ^ 16 * b2 + 2 ^ 24 * b3 < 2 ^ 31
          then ((b0 + 2 ^ 8 * b1 + 2 ^ 16 * b2 + 2 ^ 24 * b3 : Nat) : ℚ)
          else ((b0 + 2 ^ 8 * b1 + 2 ^ 16 * b2 + 2 ^ 24 * b3 : Nat) : ℚ) - 2 ^ 32) / 1000 := by
      rw [ev]
      unfold volumeOf toInt32
      rw [Nat.mod_eq_of_lt hlt]
      split_ifs <;> push_cast <;> rfl
    refine ⟨b0, b1, b2, b3, b0 + 2 ^ 8 * b1 + 2 ^ 16 * b2 + 2 ^ 24 * b3,
      isBackflow r.vifExtensions,
      (!isBackflow r.vifExtensions && decide (r.val32 = 0xFFFFFFFF)),
      e0, e1, e2, e3, rfl, hlt, ev, by rw [hvol], ?_, ?_⟩
    · intro hge
      rw [if_neg (by omega)]
      have : ((b0 + 2 ^ 8 * b1 + 2 ^ 16 * b2 + 2 ^ 24 * b3 : Nat) : ℚ) < 2 ^ 32 := by
        exact_mod_cast hlt
      apply div_neg_of_neg_of_pos
      · linarith
      · norm_num
    · intro h
      rw [h]
      norm_num
  · exact Kind.noConfusion hk
  · exact Kind.noConfusion hk
  · exact Kind.noConfusion hk


/-- The first record of `sampleBuffer` is a volume record with the data bytes 1, 2, 3, 4:
its value is `0x04030201 / 1000`. -/
theorem parseAll_volume_value_witness :
    (∀ b ∈ sampleBuffer, b < 256) ∧ sampleVolume ∈ (parseAll sampleBuffer).1.output ∧
    sampleVolume.measurement.kind = .volume ∧
    ∃ b0 b1 b2 b3 raw backflow notAvailable,
      sampleBuffer[sampleVolume.record.pos]? = some b0 ∧
      sampleBuffer[sampleVolume.record.pos + 1]? = some b1 ∧
      sampleBuffer[sampleVolume.record.pos + 2]? = some b2 ∧
      sampleBuffer[sampleVolume.record.pos + 3]? = some b3 ∧
      raw = b0 + 2 ^ 8 * b1 + 2 ^ 16 * b2 + 2 ^ 24 * b3 ∧ raw < 2 ^ 32 ∧
      sampleVolume.record.val32 = raw ∧
      sampleVolume.measurement =
        .volume ((if raw < 2 ^ 31 then (raw : ℚ) else (raw : ℚ) - 2 ^ 32) / 1000)
          backflow notAvailable sampleVolume.record.storage ∧
      (2 ^ 31 ≤ raw → (if raw < 2 ^ 31 then (raw : ℚ) else (raw : ℚ) - 2 ^ 32) / 1000 < 0) ∧
      (raw = 0xFFFFFFFF →
        (if raw < 2 ^ 31 then (raw : ℚ) else (raw : ℚ) - 2 ^ 32) / 1000 = -1 / 1000) :=
  ⟨by decide, by rw [sampleBuffer_output]; exact List.mem_cons_self _ _, rfl,
   parseAll_volume_value sampleBuffer sampleVolume (by decide)
     (by rw [sampleBuffer_output]; exact List.mem_cons_self _ _) rfl⟩

/-! ## Reads stay inside the buffer -/

theorem readDif_inBounds (data : Bytes) (p q : Nat) :
    readDif data p ≠ .stop .outOfBounds q := by
  intro h
  unfold readDif at h
  simp only at h
  by_cases hp : p < data.length
  · rw [if_neg (by simpa using hp), List.getElem?_eq_getElem hp] at h
    simp only at h
    by_cases h1 : data[p] = 0x2F
    · rw [if_pos h1] at h
      simp at h
    · rw [if_neg h1] at h
      by_cases h2 : data.length - p < 1
      · rw [if_pos h2] at h
        simp at h
      · rw [if_neg h2] at h
        by_cases h3 : data[p] &&& 0x80 ≠ 0 ∧ p + 1 < data.length
        · rw [if_pos h3, List.getElem?_eq_getElem h3.2] at h
          exact Step.noConfusion h
        · rw [if_neg h3] at h
          exact Step.noConfusion h
  · rw [if_pos (by simpa using hp)] at h
    simp at h

theorem readVif_inBounds (data : Bytes) (p q : Nat) :
    readVif data p ≠ .stop .outOfBounds q := by
  intro h
  unfold readVif at h
  by_cases hp : p < data.length
  · rw [if_neg (by omega), List.getElem?_eq_getElem hp] at h
    exact Step.noConfusion h
  · rw [if_pos (by omega)] at h
    simp at h

theorem resolveDataLen_inBounds (data : Bytes) (c p q : Nat) (e : Exit) :
    resolveDataLen data c p ≠ .stop e q := by
  intro h
  by_cases hc : c = 0x0D
  · subst hc
    simp only [resolveDataLen] at h
    by_cases hp : p < data.length
    · rw [if_pos hp, List.getElem?_eq_getElem hp] at h
      exact Step.noConfusion h
    · rw [if_neg hp] at h
      exact Step.noConfusion h
  · obtain ⟨l, hl⟩ := (resolveDataLen_static data data c p hc).2
    rw [hl] at h
    exact Step.noConfusion h

theorem readHeader_inBounds (data : Bytes) (p q : Nat) :
    readHeader data p ≠ .stop .outOfBounds q := by
  intro h
  unfold readHeader at h
  cases hd : readDif data p with
  | stop e' q' =>
    rw [hd] at h
    simp only [Step.bind, Step.stop.injEq] at h
    obtain ⟨rfl, rfl⟩ := h
    exact readDif_inBounds data p q' hd
  | next d =>
    rw [hd] at h
    simp only [Step.bind] at h
    cases hv : readVif data d.2.2 with
    | stop e' q' =>
      rw [hv] at h
      simp only [Step.stop.injEq] at h
      obtain ⟨rfl, rfl⟩ := h
      exact readVif_inBounds data _ q' hv
    | next v =>
      rw [hv] at h
      simp only at h
      cases hl : resolveDataLen data (d.1 &&& 0x0F) v.2.2 with
      | stop e' q' => exact resolveDataLen_inBounds data _ _ q' e' hl
      | next l => rw [hl] at h; exact Step.noConfusion h

theorem readRecord_inBounds (data : Bytes) (p q : Nat) :
    readRecord data p ≠ .stop .outOfBounds q := by
  intro h
  unfold readRecord at h
  cases hh : readHeader data p with
  | stop e' q' =>
    rw [hh] at h
    simp only [Step.stop.injEq] at h
    obtain ⟨rfl, rfl⟩ := h
    exact readHeader_inBounds data p q' hh
  | next hd =>
    rw [hh] at h
    simp only at h
    by_cases hc : hd.pos + hd.dataLen > data.length
    · rw [if_pos hc] at h
      simp at h
    · rw [if_neg hc] at h
      obtain ⟨v, hv⟩ := composeVal32_isSome data hd.pos hd.dataLen (by omega)
      rw [hv] at h
      exact Step.noConfusion h

theorem processRecord_isSome (data : Bytes) (st : ParserState) (r : DataRecord)
    (h : r.pos + r.dataLen ≤ data.length) :
    ∃ st', processRecord data st r = some st' := by
  obtain ⟨bs, hbs⟩ := readBytes_isSome data r.dataLen r.pos h
  unfold processRecord
  simp only [hbs]
  split_ifs with c1 c2 c3 c4 c5 c6
  all_goals first
    | exact ⟨_, rfl⟩
    | (rw [List.getElem?_eq_getElem (show r.pos < data.length by have := c5.2.2; omega)]
       exact ⟨_, rfl⟩)

/-- The loop of `parseAll` is never left through an out-of-bounds read. -/
theorem parseLoop_inBounds (data : Bytes) (fuel : Nat) (st : ParserState) :
    (parseLoop data fuel st).2 ≠ .outOfBounds := by
  induction fuel generalizing st with
  | zero => simp [parseLoop]
  | succ fuel ih =>
    cases hr : readRecord data st.pos with
    | stop e p =>
      rw [parseLoop_stop data fuel st e p hr]
      intro he
      simp only at he
      subst he
      exact readRecord_inBounds data st.pos p hr
    | next r =>
      obtain ⟨st', hp⟩ := processRecord_isSome data st r (readRecord_pos data st.pos r hr).2.1
      rw [parseLoop_next data fuel st st' r hr hp]
      exact ih st'

/-- The exits the loop of `parseAll` can take. -/
theorem parseAll_exit (data : Bytes) :
    (parseAll data).2 = .endOfData ∨ (parseAll data).2 = .headerBreak ∨
      (parseAll data).2 = .incompleteRecord ∨ (parseAll data).2 = .emptyBreak := by
  have h1 := parseAll_fuel_enough data
  have h2 : (parseAll data).2 ≠ .outOfBounds := parseLoop_inBounds data _ _
  cases h : (parseAll data).2 <;> simp_all

/-! ## Progress of the cursor -/

theorem readDif_stop_pos (data : Bytes) (p q : Nat) (e : Exit)
    (h : readDif data p = .stop e q) : q = p := by
  unfold readDif at h
  simp only at h
  by_cases hp : p < data.length
  · rw [if_neg (by simpa using hp), List.getElem?_eq_getElem hp] at h
    simp only at h
    by_cases h1 : data[p] = 0x2F
    · rw [if_pos h1] at h
      simp only [Step.stop.injEq] at h
      exact h.2.symm
    · rw [if_neg h1] at h
      by_cases h2 : data.length - p < 1
      · rw [if_pos h2] at h
        simp only [Step.stop.injEq] at h
        exact h.2.symm
      · rw [if_neg h2] at h
        by_cases h3 : data[p] &&& 0x80 ≠ 0 ∧ p + 1 < data.length
        · rw [if_pos h3, List.getElem?_eq_getElem h3.2] at h
          exact Step.noConfusion h
        · rw [if_neg h3] at h
          exact Step.noConfusion h
  · rw [if_pos (by simpa using hp)] at h
    simp only [Step.stop.injEq] at h
    exact h.2.symm

theorem readVif_stop_pos (data : Bytes) (p q : Nat) (e : Exit)
    (h : readVif data p = .stop e q) : q = p := by
  unfold readVif at h
  by_cases hp : p < data.length
  · rw [if_neg (by omega), List.getElem?_eq_getElem hp] at h
    exact Step.noConfusion h
  · rw [if_pos (by omega)] at h
    simp only [Step.stop.injEq] at h
    exact h.2.symm

/-- Where the cursor is when the reading of a record stops the loop: where it was, or
further on but not past the end of the buffer. -/
theorem readRecord_stop_pos (data : Bytes) (p q : Nat) (e : Exit)
    (h : readRecord data p = .stop e q) : p ≤ q ∧ (q = p ∨ q ≤ data.length) := by
  unfold readRecord at h
  cases hh : readHeader data p with
  | stop e' q' =>
    rw [hh] at h
    simp only [Step.stop.injEq] at h
    obtain ⟨-, rfl⟩ := h
    unfold readHeader at hh
    cases hd : readDif data p with
    | stop e2 q2 =>
      rw [hd] at hh
      simp only [Step.bind, Step.stop.injEq] at hh
      obtain ⟨-, rfl⟩ := hh
      have := readDif_stop_pos data p q2 e2 hd
      exact ⟨by omega, Or.inl this⟩
    | next d =>
      rw [hd] at hh
      simp only [Step.bind] at hh
      obtain ⟨d1, d2, -⟩ := readDif_next data p d hd
      cases hv : readVif data d.2.2 with
      | stop e2 q2 =>
        rw [hv] at hh
        simp only [Step.stop.injEq] at hh
        obtain ⟨-, rfl⟩ := hh
        have := readVif_stop_pos data _ q2 e2 hv
        exact ⟨by omega, Or.inr (by omega)⟩
      | next v =>
        rw [hv] at hh
        simp only at hh
        cases hl : resolveDataLen data (d.1 &&& 0x0F) v.2.2 with
        | stop e2 q2 => exact absurd hl (resolveDataLen_inBounds data _ _ q2 e2)
        | next l => rw [hl] at hh; exact Step.noConfusion hh
  | next hd =>
    rw [hh] at h
    simp only at h
    obtain ⟨h1, h2, -⟩ := readHeader_next data p hd hh
    by_cases hc : hd.pos + hd.dataLen > data.length
    · rw [if_pos hc] at h
      simp only [Step.stop.injEq] at h
      obtain ⟨-, rfl⟩ := h
      exact ⟨by omega, Or.inr h2⟩
    · rw [if_neg hc] at h
      obtain ⟨v, hv⟩ := composeVal32_isSome data hd.pos hd.dataLen (by omega)
      rw [hv] at h
      exact Step.noConfusion h

/-- Every iteration that continues moves the cursor at least 2 bytes forward and not past
the end of the buffer. -/
theorem parseLoop_step_progress (data : Bytes) (st st' : ParserState) (r : DataRecord)
    (hr : readRecord data st.pos = .next r) (hp : processRecord data st r = some st') :
    st.pos + 2 ≤ st'.pos ∧ st'.pos ≤ data.length ∧ st.pos < data.length ∧
    st'.output.length = st.output.length + 1 := by
  obtain ⟨p1, p2, p3⟩ := readRecord_pos data st.pos r hr
  obtain ⟨q1, -, m, hm⟩ := processRecord_some data st st' r hp
  refine ⟨by omega, by omega, p3, ?_⟩
  rw [hm]; simp

/-- The cursor and the number of measurements when the loop is left. -/
theorem parseLoop_bounds (data : Bytes) (fuel : Nat) (st : ParserState)
    (h : 2 * st.output.length + 2 ≤ st.pos) :
    st.pos ≤ (parseLoop data fuel st).1.pos ∧
    (parseLoop data fuel st).1.pos ≤ max data.length st.pos ∧
    2 * (parseLoop data fuel st).1.output.length + 2 ≤ max data.length st.pos := by
  induction fuel generalizing st with
  | zero =>
    simp only [parseLoop]
    exact ⟨le_refl _, le_max_right _ _, le_trans h (le_max_right _ _)⟩
  | succ fuel ih =>
    cases hr : readRecord data st.pos with
    | stop e p =>
      rw [parseLoop_stop data fuel st e p hr]
      simp only
      obtain ⟨s1, s2⟩ := readRecord_stop_pos data st.pos p e hr
      refine ⟨s1, ?_, le_trans h (le_max_right _ _)⟩
      rcases s2 with s2 | s2
      · rw [s2]; exact le_max_right _ _
      · exact le_trans s2 (le_max_left _ _)
    | next r =>
      obtain ⟨st', hp⟩ := processRecord_isSome data st r (readRecord_pos data st.pos r hr).2.1
      rw [parseLoop_next data fuel st st' r hr hp]
      obtain ⟨g1, g2, g3, g4⟩ := parseLoop_step_progress data st st' r hr hp
      obtain ⟨i1, i2, i3⟩ := ih st' (by omega)
      have hm : max data.length st'.pos = data.length := max_eq_left g2
      have hm2 : max data.length st.pos = data.length := max_eq_left (by omega)
      rw [hm] at i2 i3
      rw [hm2]
      exact ⟨by omega, i2, i3⟩

/-! ## The first two bytes are not read -/

theorem drop_eq_of_agree (d d' : Bytes) (k : Nat) (hg : ∀ i, k ≤ i → d[i]? = d'[i]?)
    (q : Nat) (hq : k ≤ q) : d.drop q = d'.drop q := by
  apply List.ext_getElem?
  intro n
  rw [List.getElem?_drop, List.getElem?_drop]
  exact hg _ (by omega)

theorem readDif_agree (d d' : Bytes) (k : Nat) (hl : d.length = d'.length)
    (hg : ∀ i, k ≤ i → d[i]? = d'[i]?) (p : Nat) (hp : k ≤ p) :
    readDif d p = readDif d' p := by
  unfold readDif
  simp only [hl, hg p hp, hg (p + 1) (by omega)]

theorem readVif_agree (d d' : Bytes) (k : Nat) (hl : d.length = d'.length)
    (hg : ∀ i, k ≤ i → d[i]? = d'[i]?) (p : Nat) (hp : k ≤ p) :
    readVif d p = readVif d' p := by
  unfold readVif
  simp only [hl, hg p hp, drop_eq_of_agree d d' k hg (p + 1) (by omega)]

theorem resolveDataLen_agree (d d' : Bytes) (k : Nat) (hl : d.length = d'.length)
    (hg : ∀ i, k ≤ i → d[i]? = d'[i]?) (c p : Nat) (hp : k ≤ p) :
    resolveDataLen d c p = resolveDataLen d' c p := by
  by_cases hc : c = 0x0D
  · subst hc
    simp only [resolveDataLen, hl, hg p hp]
  · exact (resolveDataLen_static d d' c p hc).1

theorem readHeader_agree (d d' : Bytes) (k : Nat) (hl : d.length = d'.length)
    (hg : ∀ i, k ≤ i → d[i]? = d'[i]?) (p : Nat) (hp : k ≤ p) :
    readHeader d p = readHeader d' p := by
  unfold readHeader
  rw [← readDif_agree d d' k hl hg p hp]
  cases hd : readDif d p with
  | stop e q => rfl
  | next a =>
    simp only [Step.bind]
    obtain ⟨a1, -⟩ := readDif_next d p a hd
    rw [← readVif_agree d d' k hl hg a.2.2 (by omega)]
    cases hv : readVif d a.2.2 with
    | stop e q => rfl
    | next v =>
      simp only
      obtain ⟨v1, -⟩ := readVif_next d a.2.2 v hv
      rw [← resolveDataLen_agree d d' k hl hg _ v.2.2 (by omega)]

theorem orByte_agree (d d' : Bytes) (k : Nat) (hg : ∀ i, k ≤ i → d[i]? = d'[i]?)
    (v : Nat) (c : Bool) (i s : Nat) (hi : k ≤ i) : orByte d v c i s = orByte d' v c i s := by
  unfold orByte
  rw [hg i hi]

theorem composeVal32_agree (d d' : Bytes) (k : Nat) (hg : ∀ i, k ≤ i → d[i]? = d'[i]?)
    (pos dataLen : Nat) (hp : k ≤ pos) :
    composeVal32 d pos dataLen = composeVal32 d' pos dataLen := by
  unfold composeVal32
  have e1 : ∀ v c, orByte d v c (pos + 1) 8 = orByte d' v c (pos + 1) 8 := fun v c =>
    orByte_agree d d' k hg v c _ _ (by omega)
  have e2 : ∀ v c, orByte d v c (pos + 2) 16 = orByte d' v c (pos + 2) 16 := fun v c =>
    orByte_agree d d' k hg v c _ _ (by omega)
  have e3 : ∀ v c, orByte d v c (pos + 3) 24 = orByte d' v c (pos + 3) 24 := fun v c =>
    orByte_agree d d' k hg v c _ _ (by omega)
  simp only [hg pos hp, e1, e2, e3]

theorem readBytes_agree (d d' : Bytes) (k : Nat) (hg : ∀ i, k ≤ i → d[i]? = d'[i]?)
    (n pos : Nat) (hp : k ≤ pos) : readBytes d pos n = readBytes d' pos n := by
  induction n generalizing pos with
  | zero => rfl
  | succ n ih => rw [readBytes, readBytes, hg pos hp, ih (pos + 1) (by omega)]

theorem readRecord_agree (d d' : Bytes) (k : Nat) (hl : d.length = d'.length)
    (hg : ∀ i, k ≤ i → d[i]? = d'[i]?) (p : Nat) (hp : k ≤ p) :
    readRecord d p = readRecord d' p := by
  unfold readRecord
  rw [← readHeader_agree d d' k hl hg p hp]
  cases hh : readHeader d p with
  | stop e q => rfl
  | next h =>
    simp only
    obtain ⟨h1, -⟩ := readHeader_next d p h hh
    rw [← composeVal32_agree d d' k hg h.pos h.dataLen (by omega), hl]

theorem processRecord_agree (d d' : Bytes) (k : Nat) (hg : ∀ i, k ≤ i → d[i]? = d'[i]?)
    (st : ParserState) (r : DataRecord) (hp : k ≤ r.pos) :
    processRecord d st r = processRecord d' st r := by
  unfold processRecord
  simp only [hg r.pos hp, readBytes_agree d d' k hg r.dataLen r.pos hp]

/-- Two buffers of the same length that agree from the cursor on are decoded alike. -/
theorem parseLoop_agree (d d' : Bytes) (k : Nat) (hl : d.length = d'.length)
    (hg : ∀ i, k ≤ i → d[i]? = d'[i]?) (fuel : Nat) (st : ParserState) (hp : k ≤ st.pos) :
    parseLoop d fuel st = parseLoop d' fuel st := by
  induction fuel generalizing st with
  | zero => rfl
  | succ fuel ih =>
    have hr := readRecord_agree d d' k hl hg st.pos hp
    cases hs : readRecord d st.pos with
    | stop e p =>
      rw [parseLoop_stop d fuel st e p hs, parseLoop_stop d' fuel st e p (hr ▸ hs)]
    | next r =>
      obtain ⟨r1, r2, -⟩ := readRecord_pos d st.pos r hs
      have hpr := processRecord_agree d d' k hg st r (by omega)
      cases hq : processRecord d st r with
      | none =>
        rw [parseLoop_fail d fuel st r hs hq, parseLoop_fail d' fuel st r (hr ▸ hs) (hpr ▸ hq)]
      | some st' =>
        rw [parseLoop_next d fuel st st' r hs hq,
          parseLoop_next d' fuel st st' r (hr ▸ hs) (hpr ▸ hq)]
        obtain ⟨q1, -⟩ := processRecord_some d st st' r hq
        exact ih st' (by omega)

/-- At a record boundary that lies at or after the end of the buffer, or whose byte is
`0x2F`, the loop stops without a further record. -/
theorem parseLoop_at_terminator (data : Bytes) (fuel : Nat) (st : ParserState)
    (h : data.length ≤ st.pos ∨ data[st.pos]? = some 0x2F) :
    parseLoop data (fuel + 1) st = (st, .endOfData) := by
  have hr : readRecord data st.pos = .stop .endOfData st.pos := by
    unfold readRecord readHeader readDif
    rcases h with h | h
    · simp only [Step.bind]
      rw [if_pos (by omega)]
    · have hlt : st.pos < data.length := by
        by_contra hc
        rw [List.getElem?_eq_none (by omega)] at h
        exact Option.noConfusion h
      simp only [Step.bind]
      rw [if_neg (by omega), h]
      simp
  rw [parseLoop_stop data fuel st _ _ hr]
  rfl

theorem readDif_stop_endOfData (data : Bytes) (p q : Nat)
    (h : readDif data p = .stop .endOfData q) :
    data.length ≤ p ∨ data[p]? = some 0x2F := by
  unfold readDif at h
  simp only at h
  by_cases hp : p < data.length
  · rw [if_neg (by simpa using hp), List.getElem?_eq_getElem hp] at h
    simp only at h
    by_cases h1 : data[p] = 0x2F
    · right
      rw [List.getElem?_eq_getElem hp, h1]
    · rw [if_neg h1] at h
      by_cases h2 : data.length - p < 1
      · omega
      · rw [if_neg h2] at h
        by_cases h3 : data[p] &&& 0x80 ≠ 0 ∧ p + 1 < data.length
        · rw [if_pos h3, List.getElem?_eq_getElem h3.2] at h
          exact Step.noConfusion h
        · rw [if_neg h3] at h
          exact Step.noConfusion h
  · left; omega

theorem readRecord_stop_endOfData (data : Bytes) (p q : Nat)
    (h : readRecord data p = .stop .endOfData q) :
    q = p ∧ (data.length ≤ p ∨ data[p]? = some 0x2F) := by
  unfold readRecord at h
  cases hh : readHeader data p with
  | stop e' q' =>
    rw [hh] at h
    simp only [Step.stop.injEq] at h
    obtain ⟨rfl, rfl⟩ := h
    unfold readHeader at hh
    cases hd : readDif data p with
    | stop e2 q2 =>
      rw [hd] at hh
      simp only [Step.bind, Step.stop.injEq] at hh
      obtain ⟨rfl, rfl⟩ := hh
      exact ⟨readDif_stop_pos data p q2 _ hd, readDif_stop_endOfData data p q2 hd⟩
    | next d =>
      rw [hd] at hh
      simp only [Step.bind] at hh
      cases hv : readVif data d.2.2 with
      | stop e2 q2 =>
        rw [hv] at hh
        simp only [Step.stop.injEq] at hh
        obtain ⟨rfl, rfl⟩ := hh
        rcases readVif_stop data _ q2 _ hv with h1 | h1 <;> exact Exit.noConfusion h1
      | next v =>
        rw [hv] at hh
        simp only at hh
        cases hl : resolveDataLen data (d.1 &&& 0x0F) v.2.2 with
        | stop e2 q2 => exact absurd hl (resolveDataLen_inBounds data _ _ q2 e2)
        | next l => rw [hl] at hh; exact Step.noConfusion hh
  | next hd =>
    rw [hh] at h
    simp only at h
    by_cases hc : hd.pos + hd.dataLen > data.length
    · rw [if_pos hc] at h
      simp at h
    · rw [if_neg hc] at h
      obtain ⟨v, hv⟩ := composeVal32_isSome data hd.pos hd.dataLen (by omega)
      rw [hv] at h
      exact Step.noConfusion h

theorem parseLoop_pos_mono (data : Bytes) (fuel : Nat) (st : ParserState) :
    st.pos ≤ (parseLoop data fuel st).1.pos := by
  induction fuel generalizing st with
  | zero => exact le_refl _
  | succ fuel ih =>
    cases hr : readRecord data st.pos with
    | stop e p =>
      rw [parseLoop_stop data fuel st e p hr]
      exact (readRecord_stop_pos data st.pos p e hr).1
    | next r =>
      obtain ⟨st', hp⟩ := processRecord_isSome data st r (readRecord_pos data st.pos r hr).2.1
      rw [parseLoop_next data fuel st st' r hr hp]
      have := (parseLoop_step_progress data st st' r hr hp).1
      exact le_trans (by omega) (ih st')

/-- Where the loop is left through its condition, the cursor is at or after the end of the
buffer or at a byte `0x2F`. -/
theorem parseLoop_endOfData (data : Bytes) (fuel : Nat) (st : ParserState)
    (h : (parseLoop data fuel st).2 = .endOfData) :
    data.length ≤ (parseLoop data fuel st).1.pos ∨
      data[(parseLoop data fuel st).1.pos]? = some 0x2F := by
  induction fuel generalizing st with
  | zero => simp [parseLoop] at h
  | succ fuel ih =>
    cases hr : readRecord data st.pos with
    | stop e p =>
      rw [parseLoop_stop data fuel st e p hr] at h ⊢
      simp only at h ⊢
      subst h
      obtain ⟨rfl, h2⟩ := readRecord_stop_endOfData data st.pos p hr
      exact h2
    | next r =>
      obtain ⟨st', hp⟩ := processRecord_isSome data st r (readRecord_pos data st.pos r hr).2.1
      rw [parseLoop_next data fuel st st' r hr hp] at h ⊢
      exact ih st' h

/-- Every record added to the output was read at a boundary at or after the cursor, and its
data ends at or before the cursor at which the loop is left. -/
theorem parseLoop_records_within (data : Bytes) (fuel : Nat) (st : ParserState) :
    ∀ e ∈ (parseLoop data fuel st).1.output, e ∈ st.output ∨
      ∃ p, st.pos ≤ p ∧ readRecord data p = .next e.record ∧
        e.record.pos + e.record.dataLen ≤ (parseLoop data fuel st).1.pos := by
  induction fuel generalizing st with
  | zero => intro e he; exact Or.inl he
  | succ fuel ih =>
    cases hr : readRecord data st.pos with
    | stop e p =>
      rw [parseLoop_stop data fuel st e p hr]
      intro e he; exact Or.inl he
    | next r =>
      obtain ⟨st', hp⟩ := processRecord_isSome data st r (readRecord_pos data st.pos r hr).2.1
      rw [parseLoop_next data fuel st st' r hr hp]
      obtain ⟨q1, -, m, hm⟩ := processRecord_some data st st' r hp
      have g1 := (parseLoop_step_progress data st st' r hr hp).1
      intro e he
      rcases ih st' e he with h1 | ⟨p, h1, h2, h3⟩
      · rw [hm, List.mem_append, List.mem_singleton] at h1
        rcases h1 with h1 | h1
        · exact Or.inl h1
        · subst h1
          refine Or.inr ⟨st.pos, le_refl _, hr, ?_⟩
          have := parseLoop_pos_mono data fuel st'
          simp only
          omega
      · exact Or.inr ⟨p, by omega, h2, h3⟩

/-- C12: `parseAll` starts with the cursor at offset 2 and does not depend on bytes 0 and 1;
at a record boundary that lies at or after the end of the buffer or whose byte is `0x2F`
the loop stops without a further record; every record of the output was read at a boundary
`p >= 2` inside the buffer whose byte is not `0x2F`, and its data ends at or before the
final cursor; when the loop is left through its condition the final cursor is such a
stopping boundary; a buffer of length at most 2, or with `0x2F` at offset 2, gives no
record and an empty summary. -/
theorem parseAll_start_and_terminator (data : Bytes) :
    ParserState.init.pos = 2 ∧
    (∀ other : Bytes, other.length = data.length → (∀ i, 2 ≤ i → other[i]? = data[i]?) →
      parseAll other = parseAll data) ∧
    (∀ fuel st, (data.length ≤ st.pos ∨ data[st.pos]? = some 0x2F) →
      parseLoop data (fuel + 1) st = (st, .endOfData)) ∧
    (∀ e ∈ (parseAll data).1.output, ∃ p, 2 ≤ p ∧ p < data.length ∧
      readRecord data p = .next e.record ∧ data[p]? = some e.record.dif ∧
      e.record.dif ≠ 0x2F ∧ e.record.pos + e.record.dataLen ≤ (parseAll data).1.pos) ∧
    ((parseAll data).2 = .endOfData →
      data.length ≤ (parseAll data).1.pos ∨ data[(parseAll data).1.pos]? = some 0x2F) ∧
    ((data.length ≤ 2 ∨ data[2]? = some 0x2F) →
      (parseAll data).1.output = [] ∧ (parseAll data).2 = .endOfData ∧
      (parseAll data).1.summary = { totalVolume := none, status := none, dateTime := none } ∧
      (parseAll data).1.hasVolume = false ∧ (parseAll data).1.hasStatus = false ∧
      (parseAll data).1.hasDateTime = false) := by
  refine ⟨rfl, ?_, fun fuel st h => parseLoop_at_terminator data fuel st h, ?_,
    fun h => parseLoop_endOfData data _ _ h, ?_⟩
  · intro other hl hg
    unfold parseAll
    rw [hl]
    exact parseLoop_agree other data 2 hl hg _ _ (le_refl _)
  · intro e he
    rcases parseLoop_records_within data _ _ e he with h | ⟨p, h1, h2, h3⟩
    · simp [ParserState.init] at h
    · obtain ⟨hh, -, -⟩ := readRecord_next data p e.record h2
      obtain ⟨-, -, g3, g4, g5, -⟩ := readHeader_next data p e.record.header hh
      exact ⟨p, h1, g3, h2, g4, g5, h3⟩
  · intro h
    have : parseAll data = (ParserState.init, .endOfData) :=
      parseLoop_at_terminator data data.length ParserState.init h
    rw [this]
    exact ⟨rfl, rfl, rfl, rfl, rfl, rfl⟩

/-- C18: whatever the buffer (also of length 0 or 1), `parseAll` never reads a byte at an
index at or past its length: the reading of a record never stops at an out-of-bounds read,
a record that was read has all its data inside the buffer, so that printing it (the status
byte, the data bytes of an unknown record) stays inside as well, and the loop is never left
through the out-of-bounds exit of the model. -/
theorem parseAll_reads_in_bounds (data : Bytes) :
    (parseAll data).2 ≠ .outOfBounds ∧
    (∀ fuel st, (parseLoop data fuel st).2 ≠ .outOfBounds) ∧
    (∀ p q, readRecord data p ≠ .stop .outOfBounds q) ∧
    (∀ p r, readRecord data p = .next r → r.pos + r.dataLen ≤ data.length) ∧
    (∀ p r st, readRecord data p = .next r → ∃ st', processRecord data st r = some st') ∧
    (∀ p n, p + n ≤ data.length → ∃ bs, readBytes data p n = some bs) ∧
    (parseAll []).2 = .endOfData ∧ (parseAll [0x04]).2 = .endOfData :=
  ⟨parseLoop_inBounds data _ _, fun fuel st => parseLoop_inBounds data fuel st,
   fun p q => readRecord_inBounds data p q,
   fun p r h => (readRecord_pos data p r h).2.1,
   fun p r st h => processRecord_isSome data st r (readRecord_pos data p r h).2.1,
   fun p n h => readBytes_isSome data n p h, by decide, by decide⟩

/-- C19, as stated, fails on the empty buffer: the cursor starts at 2, past the end. -/
theorem parseAll_cursor_past_short_buffer :
    (parseAll []).1.pos = 2 ∧ ¬ (parseAll []).1.pos ≤ ([] : Bytes).length ∧
    (parseAll [0x04]).1.pos = 2 ∧ ¬ (parseAll [0x04]).1.pos ≤ ([0x04] : Bytes).length := by
  decide

/-- C19, amended: `parseAll` terminates (the fuel of the model is never used up, and more
fuel changes nothing); every iteration that continues moves the cursor forward by at least 2
and not past the end of the buffer; the cursor never exceeds `max len 2` (so never `len`
when `len >= 2`); and at most `(len - 2) / 2` measurements are printed (none when
`len < 2`). -/
theorem parseAll_terminates (data : Bytes) :
    (parseAll data).2 ≠ .outOfFuel ∧
    (∀ fuel, data.length + 1 ≤ fuel →
      parseLoop data fuel ParserState.init = parseAll data) ∧
    (∀ st r st', readRecord data st.pos = .next r → processRecord data st r = some st' →
      st.pos + 2 ≤ st'.pos ∧ st'.pos ≤ data.length) ∧
    (∀ fuel, (parseLoop data fuel ParserState.init).1.pos ≤ max data.length 2) ∧
    (parseAll data).1.pos ≤ max data.length 2 ∧
    (2 ≤ data.length → (parseAll data).1.pos ≤ data.length) ∧
    (parseAll data).1.output.length ≤ (data.length - 2) / 2 ∧
    (data.length < 2 → (parseAll data).1.output = []) := by
  have hb : ∀ fuel, (parseLoop data fuel ParserState.init).1.pos ≤ max data.length 2 ∧
      2 * (parseLoop data fuel ParserState.init).1.output.length + 2 ≤ max data.length 2 :=
    fun fuel => (parseLoop_bounds data fuel ParserState.init (by decide)).2
  refine ⟨parseAll_fuel_enough data, ?_, ?_, fun fuel => (hb fuel).1, (hb _).1, ?_, ?_, ?_⟩
  · intro fuel hf
    exact parseLoop_fuel_mono data (data.length + 1) fuel ParserState.init
      (parseAll_fuel_enough data) hf
  · intro st r st' hr hp
    obtain ⟨g1, g2, -⟩ := parseLoop_step_progress data st st' r hr hp
    exact ⟨g1, g2⟩
  · intro h2
    have := (hb (data.length + 1)).1
    rw [max_eq_left h2] at this
    exact this
  · have := (hb (data.length + 1)).2
    unfold parseAll
    rcases le_total data.length 2 with h | h
    · rw [max_eq_right h] at this
      omega
    · rw [max_eq_left h] at this
      omega
  · intro hlt
    have := (hb (data.length + 1)).2
    rw [max_eq_right (by omega)] at this
    unfold parseAll
    exact List.length_eq_zero.1 (by omega)

/-! ## The parts of a record header -/

/-- A header that was read is made of a DIF part, a VIF part and a data length read one
after the other. -/
theorem readHeader_parts (data : Bytes) (p : Nat) (h : RecordHeader)
    (hh : readHeader data p = .next h) :
    ∃ d v l, readDif data p = .next d ∧ readVif data d.2.2 = .next v ∧
      resolveDataLen data (d.1 &&& 0x0F) v.2.2 = .next l ∧
      h = { dif := d.1, storage := d.2.1, vifOriginal := v.1, vifExtensions := v.2.1,
            dataLen := l.1, pos := l.2 } := by
  unfold readHeader at hh
  cases hd : readDif data p with
  | stop e q => rw [hd] at hh; exact Step.noConfusion hh
  | next d =>
    rw [hd] at hh
    simp only [Step.bind] at hh
    cases hv : readVif data d.2.2 with
    | stop e q => rw [hv] at hh; exact Step.noConfusion hh
    | next v =>
      rw [hv] at hh
      simp only at hh
      cases hl : resolveDataLen data (d.1 &&& 0x0F) v.2.2 with
      | stop e q => rw [hl] at hh; exact Step.noConfusion hh
      | next l =>
        rw [hl] at hh
        simp only [Step.next.injEq] at hh
        exact ⟨d, v, l, rfl, hv, hl, hh.symm⟩

/-- What `readDif` returns at a record boundary inside the buffer whose byte is not `0x2F`:
with bit 7 of the DIF set and a byte left, that one byte is the DIFE; otherwise there is
none. -/
theorem readDif_eq (data : Bytes) (p dif : Nat) (hp : data[p]? = some dif)
    (hne : dif ≠ 0x2F) :
    (∀ dife, dif &&& 0x80 ≠ 0 → data[p + 1]? = some dife →
      readDif data p = .next (dif, dife &&& 0x0F, p + 2)) ∧
    (dif &&& 0x80 = 0 ∨ data.length ≤ p + 1 →
      readDif data p = .next (dif, if dif &&& 0x40 ≠ 0 then 1 else 0, p + 1)) := by
  have hlt : p < data.length := by
    by_contra hc
    rw [List.getElem?_eq_none (by omega)] at hp
    exact Option.noConfusion hp
  constructor
  · intro dife hb hd
    have hlt1 : p + 1 < data.length := by
      by_contra hc
      rw [List.getElem?_eq_none (by omega)] at hd
      exact Option.noConfusion hd
    unfold readDif
    simp only
    rw [if_neg (by omega), hp]
    simp only
    rw [if_neg hne, if_neg (by omega), if_pos ⟨hb, hlt1⟩, hd]
  · intro hc
    unfold readDif
    simp only
    rw [if_neg (by omega), hp]
    simp only
    rw [if_neg hne, if_neg (by omega), if_neg]
    rintro ⟨h1, h2⟩
    rcases hc with hc | hc
    · exact h1 hc
    · omega

theorem readVif_eq (data : Bytes) (p : Nat) (v : Nat × List Nat × Nat)
    (h : readVif data p = .next v) :
    data[p]? = some v.1 ∧ v.2.1 = readVifExtensions v.1 (data.drop (p + 1)) ∧
    v.2.2 = p + 1 + v.2.1.length := by
  unfold readVif at h
  by_cases hp : p < data.length
  · rw [if_neg (by omega), List.getElem?_eq_getElem hp] at h
    simp only [Step.next.injEq] at h
    subst h
    exact ⟨List.getElem?_eq_getElem hp, rfl, rfl⟩
  · rw [if_pos (by omega)] at h
    exact Step.noConfusion h

/-! ## DIFE, data length and VIF extensions -/

/-- C15, as stated, fails on its own example: for DIF `0x84`, DIFE `0x81`, then `0x02`,
`0x13` and four data bytes the code reads one DIFE only, so the storage number is 1 (not 2),
the byte `0x02` is taken as the VIF and the record is an unknown one (not a volume). -/
theorem dife_chain_not_followed :
    (parseAll [0x2F, 0x2F, 0x84, 0x81, 0x02, 0x13, 1, 2, 3, 4]).1.output =
      [⟨{ dif := 0x84, storage := 1, vifOriginal := 0x02, vifExtensions := [], dataLen := 4,
          pos := 5, val32 := 0x03020113 },
        .unknown 0x84 0x02 [0x13, 1, 2, 3]⟩] ∧
    readDif [0x2F, 0x2F, 0x84, 0x81, 0x02, 0x13, 1, 2, 3, 4] 2 = .next (0x84, 1, 4) ∧
    ¬ ∃ e ∈ (parseAll [0x2F, 0x2F, 0x84, 0x81, 0x02, 0x13, 1, 2, 3, 4]).1.output,
        e.record.storage = 2 ∧ e.measurement.kind = .volume := by
  refine ⟨by decide, by decide, ?_⟩
  have h : (parseAll [0x2F, 0x2F, 0x84, 0x81, 0x02, 0x13, 1, 2, 3, 4]).1.output =
      [⟨{ dif := 0x84, storage := 1, vifOriginal := 0x02, vifExtensions := [], dataLen := 4,
          pos := 5, val32 := 0x03020113 },
        .unknown 0x84 0x02 [0x13, 1, 2, 3]⟩] := by decide
  rw [h]
  simp

/-- C15, amended: at a record whose DIF has bit 7 set and that is followed by a byte, the
code consumes exactly one DIFE byte, whose low nibble becomes the storage number, and the
VIF is the byte right after that DIFE, whether or not the DIFE has bit 7 set; without bit 7
in the DIF (or without a byte left) no DIFE is consumed and the storage number is bit 6 of
the DIF. -/
theorem readHeader_single_dife (data : Bytes) (p : Nat) (h : RecordHeader)
    (hh : readHeader data p = .next h) :
    data[p]? = some h.dif ∧
    ((h.dif &&& 0x80 ≠ 0 ∧ p + 1 < data.length ∧
        (∃ dife, data[p + 1]? = some dife ∧ h.storage = dife &&& 0x0F) ∧
        data[p + 2]? = some h.vifOriginal) ∨
     ((h.dif &&& 0x80 = 0 ∨ data.length ≤ p + 1) ∧
        h.storage = (if h.dif &&& 0x40 ≠ 0 then 1 else 0) ∧
        data[p + 1]? = some h.vifOriginal)) := by
  obtain ⟨d, v, l, hd, hv, hl, rfl⟩ := readHeader_parts data p h hh
  obtain ⟨-, -, hlt, hdif, hne, -⟩ := readDif_next data p d hd
  obtain ⟨hvif, -, -⟩ := readVif_eq data d.2.2 v hv
  obtain ⟨e1, e2⟩ := readDif_eq data p d.1 hdif hne
  simp only
  refine ⟨hdif, ?_⟩
  by_cases hc : d.1 &&& 0x80 ≠ 0 ∧ p + 1 < data.length
  · left
    have hd2 := e1 data[p + 1] hc.1 (List.getElem?_eq_getElem hc.2)
    rw [hd] at hd2
    simp only [Step.next.injEq] at hd2
    have h2 : d.2.1 = data[p + 1] &&& 0x0F := congrArg (fun x => x.2.1) hd2
    have h3 : d.2.2 = p + 2 := congrArg (fun x => x.2.2) hd2
    rw [h3] at hvif
    exact ⟨hc.1, hc.2, ⟨data[p + 1], List.getElem?_eq_getElem hc.2, h2⟩, hvif⟩
  · right
    have hc' : d.1 &&& 0x80 = 0 ∨ data.length ≤ p + 1 := by
      by_cases h1 : d.1 &&& 0x80 = 0
      · exact Or.inl h1
      · exact Or.inr (by
          by_contra h2
          exact hc ⟨h1, by omega⟩)
    have hd2 := e2 hc'
    rw [hd] at hd2
    simp only [Step.next.injEq] at hd2
    have h2 : d.2.1 = (if d.1 &&& 0x40 ≠ 0 then 1 else 0) := congrArg (fun x => x.2.1) hd2
    have h3 : d.2.2 = p + 1 := congrArg (fun x => x.2.2) hd2
    rw [h3] at hvif
    exact ⟨hc', h2, hvif⟩

/-- The example of C15: one DIFE `0x81` is consumed, the storage number is its low nibble 1
and the VIF is the next byte `0x02`. -/
theorem readHeader_single_dife_witness :
    readHeader [0x2F, 0x2F, 0x84, 0x81, 0x02, 0x13, 1, 2, 3, 4] 2 =
      .next { dif := 0x84, storage := 1, vifOriginal := 0x02, vifExtensions := [],
              dataLen := 4, pos := 5 } ∧
    (([0x2F, 0x2F, 0x84, 0x81, 0x02, 0x13, 1, 2, 3, 4] : Bytes)[2]? = some 0x84 ∧
    (((0x84 : Nat) &&& 0x80 ≠ 0 ∧
        2 + 1 < ([0x2F, 0x2F, 0x84, 0x81, 0x02, 0x13, 1, 2, 3, 4] : Bytes).length ∧
        (∃ dife, ([0x2F, 0x2F, 0x84, 0x81, 0x02, 0x13, 1, 2, 3, 4] : Bytes)[2 + 1]? = some dife ∧
          1 = dife &&& 0x0F) ∧
        ([0x2F, 0x2F, 0x84, 0x81, 0x02, 0x13, 1, 2, 3, 4] : Bytes)[2 + 2]? = some 0x02) ∨
     (((0x84 : Nat) &&& 0x80 = 0 ∨
        ([0x2F, 0x2F, 0x84, 0x81, 0x02, 0x13, 1, 2, 3, 4] : Bytes).length ≤ 2 + 1) ∧
        1 = (if (0x84 : Nat) &&& 0x40 ≠ 0 then 1 else 0) ∧
        ([0x2F, 0x2F, 0x84, 0x81, 0x02, 0x13, 1, 2, 3, 4] : Bytes)[2 + 1]? = some 0x02))) :=
  ⟨by decide,
   readHeader_single_dife [0x2F, 0x2F, 0x84, 0x81, 0x02, 0x13, 1, 2, 3, 4] 2
     { dif := 0x84, storage := 1, vifOriginal := 0x02, vifExtensions := [],
       dataLen := 4, pos := 5 } (by decide)⟩

/-- C16: the data length for the low nibble `c` of the DIF is 0, 1, 2, 3, 4, 4, 6, 8 for
`c = 0..7`, 1, 2, 3, 4 for `c = 9, 0xA, 0xB, 0xC`, and 0 for `c = 8, 0xE, 0xF`, with nothing
consumed; for `c = 0xD` it is the next byte, which is consumed, when a byte is left, and 0
with nothing consumed when the buffer is exhausted.  The length of a header that was read
is resolved in this way from `dif & 0x0F` at the cursor after the VIF and its extensions. -/
theorem resolveDataLen_table (data : Bytes) (pos : Nat) :
    resolveDataLen data 0x0 pos = .next (0, pos) ∧
    resolveDataLen data 0x1 pos = .next (1, pos) ∧
    resolveDataLen data 0x2 pos = .next (2, pos) ∧
    resolveDataLen data 0x3 pos = .next (3, pos) ∧
    resolveDataLen data 0x4 pos = .next (4, pos) ∧
    resolveDataLen data 0x5 pos = .next (4, pos) ∧
    resolveDataLen data 0x6 pos = .next (6, pos) ∧
    resolveDataLen data 0x7 pos = .next (8, pos) ∧
    resolveDataLen data 0x8 pos = .next (0, pos) ∧
    resolveDataLen data 0x9 pos = .next (1, pos) ∧
    resolveDataLen data 0xA pos = .next (2, pos) ∧
    resolveDataLen data 0xB pos = .next (3, pos) ∧
    resolveDataLen data 0xC pos = .next (4, pos) ∧
    resolveDataLen data 0xE pos = .next (0, pos) ∧
    resolveDataLen data 0xF pos = .next (0, pos) ∧
    (∀ b, data[pos]? = some b → resolveDataLen data 0xD pos = .next (b, pos + 1)) ∧
    (data.length ≤ pos → resolveDataLen data 0xD pos = .next (0, pos)) ∧
    (∀ b, (∀ x ∈ data, x < 256) → data[pos]? = some b → b ≤ 255) ∧
    (∀ p h, readHeader data p = .next h →
      h.dif &&& 0x0F < 16 ∧
      ∃ vifPos, data[vifPos]? = some h.vifOriginal ∧
        resolveDataLen data (h.dif &&& 0x0F) (vifPos + 1 + h.vifExtensions.length) =
          .next (h.dataLen, h.pos)) := by
  refine ⟨rfl, rfl, rfl, rfl, rfl, rfl, rfl, rfl, rfl, rfl, rfl, rfl, rfl, rfl, rfl,
    ?_, ?_, ?_, ?_⟩
  · intro b hb
    have hlt : pos < data.length := by
      by_contra hc
      rw [List.getElem?_eq_none (by omega)] at hb
      exact Option.noConfusion hb
    simp only [resolveDataLen]
    rw [if_pos hlt, hb]
  · intro hle
    simp only [resolveDataLen]
    rw [if_neg (by omega)]
  · intro b hx hb
    have := hx b (List.getElem?_mem hb)
    omega
  · intro p h hh
    obtain ⟨d, v, l, hd, hv, hl, rfl⟩ := readHeader_parts data p h hh
    obtain ⟨hvif, -, hpos⟩ := readVif_eq data d.2.2 v hv
    simp only
    refine ⟨?_, d.2.2, hvif, ?_⟩
    · rw [land_0F]; exact Nat.mod_lt _ (by decide)
    · rw [← hpos, hl]

theorem readVifExtensions_prefix (vif : Nat) (rest : Bytes) :
    readVifExtensions vif rest <+: rest := by
  induction rest generalizing vif with
  | nil => exact List.prefix_refl _
  | cons b t ih =>
    unfold readVifExtensions
    split
    · exact (List.prefix_cons_inj b).2 (ih b)
    · exact List.nil_prefix

theorem readVifExtensions_bits (vif : Nat) (rest : Bytes) :
    ∀ i b, i < (readVifExtensions vif rest).length →
      (vif :: readVifExtensions vif rest)[i]? = some b → b &&& 0x80 ≠ 0 := by
  induction rest generalizing vif with
  | nil => intro i b hi; simp [readVifExtensions] at hi
  | cons c t ih =>
    intro i b hi hb
    by_cases hv : vif &&& 0x80 ≠ 0
    · have e : readVifExtensions vif (c :: t) = c :: readVifExtensions c t := by
        rw [readVifExtensions, if_pos hv]
      rw [e] at hi hb
      cases i with
      | zero =>
        simp only [List.getElem?_cons_zero, Option.some.injEq] at hb
        rw [← hb]; exact hv
      | succ i =>
        simp only [List.length_cons, Nat.add_lt_add_iff_right] at hi
        rw [List.getElem?_cons_succ] at hb
        exact ih c i b hi hb
    · have e : readVifExtensions vif (c :: t) = [] := by
        rw [readVifExtensions, if_neg hv]
      rw [e] at hi
      simp at hi

theorem readVifExtensions_maximal (vif : Nat) (rest : Bytes) :
    ∀ b, (vif :: readVifExtensions vif rest).getLast? = some b →
      b &&& 0x80 = 0 ∨ (readVifExtensions vif rest).length = rest.length := by
  induction rest generalizing vif with
  | nil => intro b _; exact Or.inr rfl
  | cons c t ih =>
    intro b hb
    by_cases hv : vif &&& 0x80 ≠ 0
    · have e : readVifExtensions vif (c :: t) = c :: readVifExtensions c t := by
        rw [readVifExtensions, if_pos hv]
      rw [e] at hb ⊢
      rw [List.getLast?_cons_cons] at hb
      rcases ih c b hb with h | h
      · exact Or.inl h
      · exact Or.inr (by simp [h])
    · have e : readVifExtensions vif (c :: t) = [] := by
        rw [readVifExtensions, if_neg hv]
      rw [e] at hb
      simp only [List.getLast?_singleton, Option.some.injEq] at hb
      left
      rw [← hb]
      exact not_not.1 hv

theorem readVifExtensions_eq_nil_iff (vif : Nat) (rest : Bytes) :
    readVifExtensions vif rest = [] ↔ vif &&& 0x80 = 0 ∨ rest = [] := by
  cases rest with
  | nil => simp [readVifExtensions]
  | cons c t =>
    by_cases hv : vif &&& 0x80 ≠ 0
    · rw [readVifExtensions, if_pos hv]
      simp [hv]
    · rw [readVifExtensions, if_neg hv]
      simp [not_not.1 hv]

/-- The branch of the `if`/`else if` chain that a record takes is decided by its first VIF
byte, its data length and, for a status record, its first VIF extension. -/
theorem processRecord_kind (data : Bytes) (st st' : ParserState) (r : DataRecord)
    (m : Measurement) (h : processRecord data st r = some st')
    (ho : st'.output = st.output ++ [⟨r, m⟩]) :
    (m.kind = .dateTime ↔ r.vifOriginal = 0x6D ∧ r.dataLen = 4) ∧
    (m.kind = .volume ↔ r.vifOriginal &&& 0x7F = 0x13 ∧ r.dataLen = 4) ∧
    (m.kind = .status ↔
      r.vifOriginal = 0xFD ∧ r.vifExtensions.head? = some 0x17 ∧ r.dataLen = 1) ∧
    (m.kind = .date ↔ r.vifOriginal = 0x6C ∧ r.dataLen = 2) := by
  have hm := processRecord_measurement data st st' r m h ho
  simp only [firstExtIs17_iff] at hm
  have hAB : ¬ ((r.vifOriginal = 0x6D ∧ r.dataLen = 4) ∧
      (r.vifOriginal &&& 0x7F = 0x13 ∧ r.dataLen = 4)) := by
    rintro ⟨⟨h1, -⟩, h2, -⟩; rw [h1] at h2; exact absurd h2 (by decide)
  have hAC : ¬ ((r.vifOriginal = 0x6D ∧ r.dataLen = 4) ∧
      (r.vifOriginal = 0xFD ∧ r.vifExtensions.head? = some 0x17 ∧ r.dataLen = 1)) := by
    rintro ⟨⟨h1, -⟩, h2, -⟩; omega
  have hAD : ¬ ((r.vifOriginal = 0x6D ∧ r.dataLen = 4) ∧
      (r.vifOriginal = 0x6C ∧ r.dataLen = 2)) := by
    rintro ⟨⟨h1, -⟩, h2, -⟩; omega
  have hBC : ¬ ((r.vifOriginal &&& 0x7F = 0x13 ∧ r.dataLen = 4) ∧
      (r.vifOriginal = 0xFD ∧ r.vifExtensions.head? = some 0x17 ∧ r.dataLen = 1)) := by
    rintro ⟨⟨-, h1⟩, -, -, h2⟩; omega
  have hBD : ¬ ((r.vifOriginal &&& 0x7F = 0x13 ∧ r.dataLen = 4) ∧
      (r.vifOriginal = 0x6C ∧ r.dataLen = 2)) := by
    rintro ⟨⟨-, h1⟩, -, h2⟩; omega
  have hCD : ¬ ((r.vifOriginal = 0xFD ∧ r.vifExtensions.head? = some 0x17 ∧ r.dataLen = 1) ∧
      (r.vifOriginal = 0x6C ∧ r.dataLen = 2)) := by
    rintro ⟨⟨h1, -⟩, h2, -⟩; omega
  clear h ho
  generalize (r.vifOriginal = 0x6D ∧ r.dataLen = 4) = A at *
  generalize (r.vifOriginal &&& 0x7F = 0x13 ∧ r.dataLen = 4) = B at *
  generalize (r.vifOriginal = 0xFD ∧ r.vifExtensions.head? = some 0x17 ∧ r.dataLen = 1) = C at *
  generalize (r.vifOriginal = 0x6C ∧ r.dataLen = 2) = D at *
  rcases hm with ⟨c1, rfl⟩ | ⟨c1, c2, rfl⟩ | ⟨c1, c2, c3, stat, -, rfl⟩ | ⟨c1, c2, c3, c4, rfl⟩ |
    ⟨c1, c2, c3, c4, bytes, -, rfl⟩
  all_goals
    refine ⟨?_, ?_, ?_, ?_⟩
    all_goals
      simp only [Measurement.kind, reduceCtorEq, false_iff, true_iff, iff_false, iff_true]
      first
        | assumption
        | exact fun hx => hAB ⟨by assumption, hx⟩
        | exact fun hx => hAC ⟨by assumption, hx⟩
        | exact fun hx => hAD ⟨by assumption, hx⟩
        | exact fun hx => hBC ⟨by assumption, hx⟩
        | exact fun hx => hBD ⟨by assumption, hx⟩
        | exact fun hx => hCD ⟨by assumption, hx⟩

/-- C17: the VIF extensions of a record are the bytes that follow its VIF in the buffer, in
order, each read only while the byte read before it (the VIF or the previous extension) has
bit 7 set; the run is maximal: it ends where the byte read last has bit 7 clear or the
buffer ends; it is empty iff the VIF has bit 7 clear or the buffer ends right after the
VIF; and the kind of the record is decided by the first VIF byte. -/
theorem readHeader_vif_extensions (data : Bytes) (p : Nat) (h : RecordHeader)
    (hh : readHeader data p = .next h) :
    ∃ vifPos, data[vifPos]? = some h.vifOriginal ∧
      h.vifExtensions = readVifExtensions h.vifOriginal (data.drop (vifPos + 1)) ∧
      (∀ i, i < h.vifExtensions.length → h.vifExtensions[i]? = data[vifPos + 1 + i]?) ∧
      (∀ i b, i < h.vifExtensions.length → (h.vifOriginal :: h.vifExtensions)[i]? = some b →
        b &&& 0x80 ≠ 0) ∧
      (∀ b, (h.vifOriginal :: h.vifExtensions).getLast? = some b →
        b &&& 0x80 = 0 ∨ vifPos + 1 + h.vifExtensions.length = data.length) ∧
      (h.vifExtensions = [] ↔ h.vifOriginal &&& 0x80 = 0 ∨ data.length = vifPos + 1) ∧
      (∀ st st' val32 m,
        processRecord data st
          { dif := h.dif, storage := h.storage, vifOriginal := h.vifOriginal,
            vifExtensions := h.vifExtensions, dataLen := h.dataLen, pos := h.pos,
            val32 := val32 } = some st' →
        st'.output = st.output ++
          [⟨{ dif := h.dif, storage := h.storage, vifOriginal := h.vifOriginal,
              vifExtensions := h.vifExtensions, dataLen := h.dataLen, pos := h.pos,
              val32 := val32 }, m⟩] →
        (m.kind = .dateTime ↔ h.vifOriginal = 0x6D ∧ h.dataLen = 4) ∧
        (m.kind = .volume ↔ h.vifOriginal &&& 0x7F = 0x13 ∧ h.dataLen = 4) ∧
        (m.kind = .status ↔
          h.vifOriginal = 0xFD ∧ h.vifExtensions.head? = some 0x17 ∧ h.dataLen = 1) ∧
        (m.kind = .date ↔ h.vifOriginal = 0x6C ∧ h.dataLen = 2)) := by
  obtain ⟨d, v, l, hd, hv, hl, rfl⟩ := readHeader_parts data p h hh
  obtain ⟨hvif, hext, hpos⟩ := readVif_eq data d.2.2 v hv
  obtain ⟨-, v2, -⟩ := readVif_next data d.2.2 v hv
  have hlt : d.2.2 < data.length := by
    by_contra hc
    rw [List.getElem?_eq_none (by omega)] at hvif
    exact Option.noConfusion hvif
  simp only
  refine ⟨d.2.2, hvif, hext, ?_, ?_, ?_, ?_, ?_⟩
  · intro i hi
    obtain ⟨t, ht⟩ := readVifExtensions_prefix v.1 (data.drop (d.2.2 + 1))
    rw [← hext] at ht
    have : (data.drop (d.2.2 + 1))[i]? = v.2.1[i]? := by
      rw [← ht, List.getElem?_append_left hi]
    rw [← this, List.getElem?_drop]
  · rw [hext]
    exact readVifExtensions_bits v.1 _
  · intro b hb
    rw [hext] at hb
    rcases readVifExtensions_maximal v.1 _ b hb with h1 | h1
    · exact Or.inl h1
    · right
      rw [← hext, List.length_drop] at h1
      omega
  · rw [hext, readVifExtensions_eq_nil_iff]
    constructor
    · rintro (h1 | h1)
      · exact Or.inl h1
      · right
        have := congrArg List.length h1
        rw [List.length_drop, List.length_nil] at this
        omega
    · rintro (h1 | h1)
      · exact Or.inl h1
      · right
        exact List.drop_eq_nil_of_le (by omega)
  · intro st st' val32 m h1 h2
    exact processRecord_kind data st st' _ m h1 h2

/-- The status record of `sampleBuffer`, read at offset 12, has the VIF `0xFD` and the one
extension `0x17`, which is the byte after the VIF. -/
theorem readHeader_vif_extensions_witness :
    readHeader sampleBuffer 12 =
      .next { dif := 0x01, storage := 0, vifOriginal := 0xFD, vifExtensions := [0x17],
              dataLen := 1, pos := 15 } ∧
    ∃ vifPos, sampleBuffer[vifPos]? = some 0xFD ∧
      [0x17] = readVifExtensions 0xFD (sampleBuffer.drop (vifPos + 1)) ∧
      (∀ i, i < [0x17].length → ([0x17] : List Nat)[i]? = sampleBuffer[vifPos + 1 + i]?) :=
  ⟨by decide,
   (readHeader_vif_extensions sampleBuffer 12
      { dif := 0x01, storage := 0, vifOriginal := 0xFD, vifExtensions := [0x17],
        dataLen := 1, pos := 15 } (by decide)).imp
     (fun _ hx => ⟨hx.1, hx.2.1, hx.2.2.1⟩)⟩

/-! ## The `not available` mark -/

/-- Which volume measurements carry the ` (Not available)` mark: those that are not
backflow and whose raw value is `0xFFFFFFFF`. -/
theorem parseAll_notAvailable_iff (data : Bytes) (e : Emitted)
    (he : e ∈ (parseAll data).1.output) (v : ℚ) (backflow notAvailable : Bool) (s : Nat)
    (hm : e.measurement = .volume v backflow notAvailable s) :
    backflow = isBackflow e.record.vifExtensions ∧
    (notAvailable = true ↔ backflow = false ∧ e.record.val32 = 0xFFFFFFFF) := by
  obtain ⟨p, st, st', -, hp, ho⟩ := parseAll_output_provenance data e he
  obtain ⟨r, m⟩ := e
  simp only at hm hp ho ⊢
  subst hm
  have h := processRecord_measurement data st st' r _ hp ho
  rcases h with ⟨-, h⟩ | ⟨-, -, h⟩ | ⟨-, -, -, stat, -, h⟩ | ⟨-, -, -, -, h⟩ |
    ⟨-, -, -, -, bytes, -, h⟩
  · exact Measurement.noConfusion h
  · simp only [Measurement.volume.injEq] at h
    obtain ⟨-, h2, h3, -⟩ := h
    subst h2 h3
    refine ⟨rfl, ?_⟩
    cases isBackflow r.vifExtensions <;> simp
  · exact Measurement.noConfusion h
  · exact Measurement.noConfusion h
  · exact Measurement.noConfusion h

/-- C11, at a backflow record whose raw value is `0xFFFFFFFF` (DIF `0x04`, VIF `0x93`,
VIFE `0x3C`, data `FF FF FF FF`): the record is a volume reading, it is printed as
`Backflow = -0.001 m3`, and it does not carry the ` (Not available)` mark. -/
theorem backflow_not_available_unmarked :
    (parseAll [0x2F, 0x2F, 0x04, 0x93, 0x3C, 0xFF, 0xFF, 0xFF, 0xFF]).1.output =
      [⟨{ dif := 0x04, storage := 0, vifOriginal := 0x93, vifExtensions := [0x3C],
          dataLen := 4, pos := 5, val32 := 0xFFFFFFFF },
        .volume (volumeOf 0xFFFFFFFF) true false 0⟩] ∧
    volumeOf 0xFFFFFFFF = -1 / 1000 ∧
    (parseAll [0x2F, 0x2F, 0x04, 0x13, 0xFF, 0xFF, 0xFF, 0xFF]).1.output =
      [⟨{ dif := 0x04, storage := 0, vifOriginal := 0x13, vifExtensions := [],
          dataLen := 4, pos := 4, val32 := 0xFFFFFFFF },
        .volume (volumeOf 0xFFFFFFFF) false true 0⟩] := by
  refine ⟨rfl, ?_, rfl⟩
  norm_num [volumeOf, toInt32]

/-! ## Serial number -/

theorem serial_or_eq (t4 t5 t6 t7 : Nat) (l4 : t4 < 256) (l5 : t5 < 256) (l6 : t6 < 256)
    (l7 : t7 < 256) :
    t4 ||| t5 <<< 8 ||| t6 <<< 16 ||| t7 <<< 24 =
      t4 + 2 ^ 8 * t5 + 2 ^ 16 * t6 + 2 ^ 24 * t7 ∧
    t4 + 2 ^ 8 * t5 + 2 ^ 16 * t6 + 2 ^ 24 * t7 < 2 ^ 32 := by
  constructor
  · rw [lor_shift_eq_add t4 t5 8 (by omega), lor_shift_eq_add _ t6 16 (by omega),
      lor_shift_eq_add _ t7 24 (by omega)]
  · omega

/-- C13: for a telegram of at least 8 bytes `getSerial` returns the little-endian value of
bytes 4..7, `t[4] + 2^8 t[5] + 2^16 t[6] + 2^24 t[7]`, which is below `2^32` (so the
reduction modulo `2^32` changes nothing), and at least `2^31` when `t[7] >= 0x80`. -/
theorem getSerial_little_endian (data : Bytes) (h : 8 ≤ data.length)
    (hb : ∀ b ∈ data, b < 256) :
    ∃ t4 t5 t6 t7, data[4]? = some t4 ∧ data[5]? = some t5 ∧ data[6]? = some t6 ∧
      data[7]? = some t7 ∧
      getSerial data = some (t4 + 2 ^ 8 * t5 + 2 ^ 16 * t6 + 2 ^ 24 * t7) ∧
      getSerial data = some ((t4 + 2 ^ 8 * t5 + 2 ^ 16 * t6 + 2 ^ 24 * t7) % 2 ^ 32) ∧
      t4 + 2 ^ 8 * t5 + 2 ^ 16 * t6 + 2 ^ 24 * t7 < 2 ^ 32 ∧
      (0x80 ≤ t7 → 2 ^ 31 ≤ t4 + 2 ^ 8 * t5 + 2 ^ 16 * t6 + 2 ^ 24 * t7) := by
  obtain ⟨t4, h4⟩ : ∃ t, data[4]? = some t := ⟨_, List.getElem?_eq_getElem (by omega)⟩
  obtain ⟨t5, h5⟩ : ∃ t, data[5]? = some t := ⟨_, List.getElem?_eq_getElem (by omega)⟩
  obtain ⟨t6, h6⟩ : ∃ t, data[6]? = some t := ⟨_, List.getElem?_eq_getElem (by omega)⟩
  obtain ⟨t7, h7⟩ : ∃ t, data[7]? = some t := ⟨_, List.getElem?_eq_getElem (by omega)⟩
  have l4 : t4 < 256 := hb _ (List.getElem?_mem h4)
  have l5 : t5 < 256 := hb _ (List.getElem?_mem h5)
  have l6 : t6 < 256 := hb _ (List.getElem?_mem h6)
  have l7 : t7 < 256 := hb _ (List.getElem?_mem h7)
  obtain ⟨hor, hlt⟩ := serial_or_eq t4 t5 t6 t7 l4 l5 l6 l7
  have hs : getSerial data =
      some ((t4 + 2 ^ 8 * t5 + 2 ^ 16 * t6 + 2 ^ 24 * t7) % 2 ^ 32) := by
    unfold getSerial
    rw [h4, h5, h6, h7]
    simp only [Option.bind_eq_bind, Option.some_bind, Option.pure_def, hor]
  refine ⟨t4, t5, t6, t7, h4, h5, h6, h7, ?_, hs, hlt, ?_⟩
  · rw [hs, Nat.mod_eq_of_lt hlt]
  · intro h80
    omega

set_option maxRecDepth 100000 in
theorem referenceTelegram_bytes : ∀ b ∈ referenceTelegram, b < 256 := by decide

set_option maxRecDepth 100000 in
theorem referenceTelegram_serial : getSerial referenceTelegram = some 0x50898527 := by decide

/-- The serial number of the reference telegram of `run` is `0x50898527`. -/
theorem getSerial_little_endian_witness :
    8 ≤ referenceTelegram.length ∧ (∀ b ∈ referenceTelegram, b < 256) ∧
    getSerial referenceTelegram = some 0x50898527 ∧
    ∃ t4 t5 t6 t7, referenceTelegram[4]? = some t4 ∧ referenceTelegram[5]? = some t5 ∧
      referenceTelegram[6]? = some t6 ∧ referenceTelegram[7]? = some t7 ∧
      getSerial referenceTelegram = some (t4 + 2 ^ 8 * t5 + 2 ^ 16 * t6 + 2 ^ 24 * t7) ∧
      getSerial referenceTelegram =
        some ((t4 + 2 ^ 8 * t5 + 2 ^ 16 * t6 + 2 ^ 24 * t7) % 2 ^ 32) ∧
      t4 + 2 ^ 8 * t5 + 2 ^ 16 * t6 + 2 ^ 24 * t7 < 2 ^ 32 ∧
      (0x80 ≤ t7 → 2 ^ 31 ≤ t4 + 2 ^ 8 * t5 + 2 ^ 16 * t6 + 2 ^ 24 * t7) :=
  ⟨by rw [referenceTelegram_length]; decide, referenceTelegram_bytes,
   referenceTelegram_serial,
   getSerial_little_endian referenceTelegram (by rw [referenceTelegram_length]; decide)
     referenceTelegram_bytes⟩

/-! ## The marker check on an empty plaintext -/

/-- A telegram of 18..33 bytes has an empty aligned payload, so `decrypted` is empty when
the marker is checked; if the cipher has reported success, `decrypted[0]` is read past the
end. -/
theorem decrypt_short_payload (m : Mbedtls) (telegram key decrypted : Bytes)
    (h1 : 18 ≤ telegram.length) (h2 : telegram.length < 34) :
    (decrypt m telegram key decrypted).decrypted = [] ∧
    (∀ iv, constructIV telegram = some iv →
      (decryptCBC m key iv [] []).1 = 0 → (decrypt m telegram key decrypted).ret = none) := by
  obtain ⟨p, iv, hp, hiv, hd⟩ := decrypt_eq m telegram key decrypted h1
  have ha : alignedPayloadLen telegram.length = 0 := by
    rw [alignedPayloadLen_eq]
    have : (telegram.length - 18) / 16 = 0 := Nat.div_eq_of_lt (by omega)
    rw [this]
  rw [ha] at hd
  have hr : resize decrypted 0 = [] := by simp [resize]
  simp only [List.take_zero, hr] at hd
  have hl := decryptCBC_length m key iv [] []
  have hnil : (decryptCBC m key iv [] []).2 = [] := List.length_eq_zero.1 hl
  refine ⟨by rw [hd]; exact hnil, ?_⟩
  intro iv' hiv' hres
  rw [hiv] at hiv'
  simp only [Option.some.injEq] at hiv'
  subst hiv'
  rw [hd]
  simp only [verifyMarker, hres, hnil]
  rfl

/-- C20, at a 33-byte telegram with a cipher that reports success: the plaintext buffer is
empty when `decrypt` reads `decrypted[0]` for the marker check, so the read is out of
bounds. -/
theorem decrypt_marker_read_out_of_bounds :
    (List.range 33).length = 33 ∧
    (decrypt copyCipher (List.range 33) referenceKey []).decrypted = [] ∧
    (decrypt copyCipher (List.range 33) referenceKey []).decrypted[0]? = none ∧
    (decrypt copyCipher (List.range 33) referenceKey []).cipherCalls.map CipherCall.input
      = [[]] ∧
    (decryptCBC copyCipher referenceKey [2, 3, 4, 5, 6, 7, 8, 9, 12, 14, 0, 0, 0, 0, 0, 0]
      [] []).1 = 0 ∧
    (decrypt copyCipher (List.range 33) referenceKey []).ret = none := by
  decide

/-! ## The reference fixture of `run` under AES-128-CBC -/

set_option maxRecDepth 1000000 in
/-- The inverse cipher on the example of FIPS-197, Appendix C.1. -/
theorem aes_fips197_example :
    aesDecryptBlock (aesRoundKeys (List.range 16))
        [0x69, 0xC4, 0xE0, 0xD8, 0x6A, 0x7B, 0x04, 0x30,
         0xD8, 0xCD, 0xB7, 0x80, 0x70, 0xB4, 0xC5, 0x5A] =
      [0x00, 0x11, 0x22, 0x33, 0x44, 0x55, 0x66, 0x77,
       0x88, 0x99, 0xAA, 0xBB, 0xCC, 0xDD, 0xEE, 0xFF] := by
  decide

set_option maxRecDepth 100000 in
theorem keyHex_bytes : hexToBytes keyHex 16 = some referenceKey := by decide

set_option maxRecDepth 100000 in
theorem telegramHex_bytes : hexToBytes telegramHex 512 = some referenceTelegram := by decide

theorem referenceKey_length : referenceKey.length = 16 := by decide

set_option maxRecDepth 1000000 in
set_option maxHeartbeats 4000000 in
/-- With AES-128 as the cipher, `decrypt` on the reference telegram and key returns 0 and
leaves `fixturePlaintext`. -/
theorem fixture_decrypts :
    (decrypt aesMbedtls referenceTelegram referenceKey []).decrypted = fixturePlaintext ∧
    (decrypt aesMbedtls referenceTelegram referenceKey []).ret = some 0 := by
  decide

/-- `run` with AES-128 as the cipher prints the report of `fixturePlaintext`. -/
theorem run_reference :
    run aesMbedtls = .parsed (parseData fixturePlaintext 0x50898527) := by
  unfold run
  simp only [keyHex_bytes, telegramHex_bytes, referenceKey_length, ne_eq, not_true_eq_false,
    if_false]
  unfold runOn
  simp only [fixture_decrypts.1, fixture_decrypts.2, referenceTelegram_serial, if_true]

set_option maxRecDepth 1000000 in
set_option maxHeartbeats 4000000 in
/-- Under the IV of OMS mode 5 the payload of the reference telegram decrypts to the same
bytes as under `constructIV`, except at offsets 8 to 15. -/
theorem fixture_standard_iv :
    aesCbcDecrypt referenceKey omsModeFiveIV ((referenceTelegram.drop 18).take 144) =
      fixturePlaintext.take 8 ++ [0x04, 0x13, 0x80, 0x11, 0x00, 0x00, 0x01, 0xFD] ++
        fixturePlaintext.drop 16 := by
  decide

set_option maxRecDepth 1000000 in
set_option maxHeartbeats 4000000 in
/-- C14 (evaluation on the fixture of `run`, with AES-128 as the cipher).  Decryption
succeeds and the plaintext begins `2F 2F`, the records are read to the end of the buffer,
and the summary has the date-time 2025-09-26 16:36 but neither a total volume nor a
status: offsets 8 to 15 of the plaintext, which hold the storage-0 volume record and the
start of the status record, depend on bytes 8 to 15 of the IV.  Under the IV of OMS
mode 5 the same payload gives a summary with the total volume 4.480, the status `0x00`
and the same date-time. -/
theorem run_reference_summary_lacks_volume_and_status :
    run aesMbedtls = .parsed (parseData fixturePlaintext 0x50898527) ∧
    (decrypt aesMbedtls referenceTelegram referenceKey []).ret = some 0 ∧
    fixturePlaintext.take 2 = [0x2F, 0x2F] ∧
    (parseData fixturePlaintext 0x50898527).exit = .endOfData ∧
    (parseData fixturePlaintext 0x50898527).totalConsumption = none ∧
    (parseData fixturePlaintext 0x50898527).meterStatus = none ∧
    (parseData fixturePlaintext 0x50898527).timestamp = some ⟨2025, 9, 26, 16, 36⟩ ∧
    (parseData (aesCbcDecrypt referenceKey omsModeFiveIV
        ((referenceTelegram.drop 18).take 144)) 0x50898527).totalConsumption =
      some (4480 / 1000) ∧
    (parseData (aesCbcDecrypt referenceKey omsModeFiveIV
        ((referenceTelegram.drop 18).take 144)) 0x50898527).meterStatus = some 0 ∧
    (parseData (aesCbcDecrypt referenceKey omsModeFiveIV
        ((referenceTelegram.drop 18).take 144)) 0x50898527).timestamp =
      some ⟨2025, 9, 26, 16, 36⟩ := by
  rw [fixture_standard_iv]
  refine ⟨run_reference, fixture_decrypts.2, by decide, by decide, rfl, by decide, by decide,
    ?_, by decide, by decide⟩
  have h : (parseData (fixturePlaintext.take 8 ++ [0x04, 0x13, 0x80, 0x11, 0x00, 0x00, 0x01, 0xFD]
      ++ fixturePlaintext.drop 16) 0x50898527).totalConsumption = some (volumeOf 4480) := rfl
  rw [h]
  simp [volumeOf, toInt32]

end WMBus
